import Mathlib

/-!
# Hospital resource scheduler: scheduler, metrics engine and resource pool

A shallow embedding of `src/src/scheduler.c` (with the data model of
`src/include/patient.h` and `src/include/scheduler.h`), of `parse_alg` and
the launch loop of `src/src/main.c`, of `build_timeline` of `src/src/ui.c`,
of `src/src/resources.c`, of `patient_thread` of `src/src/thread_worker.c`
and of the CSV functions of `src/src/storage.c`, and the properties proved
about them.

Modelling conventions.

* `unsigned` values are natural numbers; every `unsigned` operation that can
  wrap is written with an explicit `% UINT_MOD` (`UINT_MOD = 2 ^ 32`).
  `size_t` counters that can wrap are reduced `% SIZE_MOD`.
* Array indices (`int` in the source) are natural numbers.
* A `PatientList` is the list of its `items`; `count` is its length.
* The `double` accumulators of `compute_metrics` only ever hold sums of
  unsigned integers; they are modelled by exact natural-number sums and the
  final division by an exact rational division. `compute_metrics_double`
  adds the rounding of binary64 arithmetic to the sums and to the division;
  what relates the two averages the function returns is stated of it.
* Reads outside an array and reads of a never-written slot of the `malloc`ed
  ready queue are undefined behaviour in C; the stateful code runs in
  `Except Fault` and reports them as `Fault.undefinedBehaviour`.
* The `while (completed < n)` loop of the Round-Robin simulation is run with
  an explicit iteration budget; exhausting it is `Fault.outOfFuel`.
* A semaphore is its count of free units. The updates of the busy-time
  accumulators are made under a mutex, so they happen one after the other;
  a run of the workers is modelled by the sequence in which they happen.
* Where the threads themselves matter, a run is an interleaving of the calls
  the workers make, each worker in its program order; `sem_wait`,
  `sem_post` and `pthread_mutex_lock` behave as POSIX describes them.
* A C string is a Lean string and a file is its text; the library functions
  `fgets`, `strtok`, `atoi` and `snprintf` are modelled on the inputs the
  code gives them.
* The circular ready queue of the Round-Robin simulation is related to a
  queue kept as a list (`fifo_iter`); the invariants of the simulation are
  proved on the list and carried over.
-/

namespace HospitalScheduler

/-! ## Data model -/

/-- Number of values of the C type `unsigned` (32 bits). -/
def UINT_MOD : Nat := 2 ^ 32

/-- Number of values of the C type `size_t` (64 bits). -/
def SIZE_MOD : Nat := 2 ^ 64

/-- The enum `ServiceType` of `patient.h`. -/
inductive ServiceType where
  | SERVICE_CONSULTATION
  | SERVICE_LAB_TEST
  | SERVICE_TREATMENT
  deriving DecidableEq, Repr, Inhabited

/-- The struct `Patient` of `patient.h`. -/
structure Patient where
  id : Int
  name : String
  priority : Int
  service : ServiceType
  required_time_ms : Nat
  arrival_ms : Nat
  deriving DecidableEq, Repr, Inhabited

/-- The struct `PatientList`: `items` with `count = length`. -/
abbrev PatientList := List Patient

/-- The enum `Algorithm` of `scheduler.h`; a C enum is an integer, so values
outside the four enumerators can be passed. -/
abbrev Algorithm := Int

abbrev ALG_FCFS : Algorithm := 0
abbrev ALG_SJF : Algorithm := 1
abbrev ALG_PRIORITY : Algorithm := 2
abbrev ALG_RR : Algorithm := 3

/-- The struct `ScheduleMetrics` of `scheduler.h`. -/
structure ScheduleMetrics where
  avg_wait_ms : ℚ
  avg_turnaround_ms : ℚ
  deriving DecidableEq

/-- The array read `list->items[i]` of a comparator. The comparators are only
called on indices stored in the array being sorted; callers that cannot
guarantee `i < count` check it before sorting. -/
def item (list : PatientList) (i : Nat) : Patient := list.getD i default

/-! ## Comparators and sorting -/

/-- The comparator `cmp_fcfs`: arrival time, then index. -/
def cmp_fcfs (ctx : PatientList) (ia ib : Nat) : Int :=
  let aa := (item ctx ia).arrival_ms
  let ab := (item ctx ib).arrival_ms
  if aa < ab then -1
  else if aa > ab then 1
  else (ia : Int) - (ib : Int)

/-- The comparator `cmp_sjf`: required time, then index. -/
def cmp_sjf (ctx : PatientList) (ia ib : Nat) : Int :=
  let ba := (item ctx ia).required_time_ms
  let bb := (item ctx ib).required_time_ms
  if ba < bb then -1
  else if ba > bb then 1
  else (ia : Int) - (ib : Int)

/-- The comparator `cmp_priority`: priority value, then index. -/
def cmp_priority (ctx : PatientList) (ia ib : Nat) : Int :=
  let pa := (item ctx ia).priority
  let pb := (item ctx ib).priority
  if pa < pb then -1
  else if pa > pb then 1
  else (ia : Int) - (ib : Int)

/-- Insertion of one element into a list sorted by `cmp`. -/
def qsortInsert (cmp : Nat → Nat → Int) (x : Nat) : List Nat → List Nat
  | [] => [x]
  | y :: ys => if cmp x y ≤ 0 then x :: y :: ys else y :: qsortInsert cmp x ys

/-- The C library function `qsort` on an `int` array: it rearranges the array
into an order in which `cmp` never reports a later element as smaller. The
library leaves the algorithm open; insertion sort is used here, and
`qsort_unique` shows that for the comparators of this program every such
rearrangement is the same list. -/
def qsort (cmp : Nat → Nat → Int) : List Nat → List Nat
  | [] => []
  | x :: xs => qsortInsert cmp x (qsort cmp xs)

/-- The function `schedule_order` (allocation failure is not modelled). -/
def schedule_order (list : PatientList) (alg : Algorithm) (_quantum_ms : Nat) : List Nat :=
  let order := List.range list.length
  if alg = ALG_FCFS then qsort (cmp_fcfs list) order
  else if alg = ALG_SJF then qsort (cmp_sjf list) order
  else if alg = ALG_PRIORITY then qsort (cmp_priority list) order
  else if alg = ALG_RR then qsort (cmp_fcfs list) order
  else order

/-! ## Metrics engine -/

/-- What can go wrong when the C code is run: behaviour the language leaves
undefined, or the iteration budget of the model running out. -/
inductive Fault where
  | undefinedBehaviour
  | outOfFuel
  deriving DecidableEq, Repr

/-- An array read `xs[i]`; outside the array it is undefined behaviour. -/
def rd {α : Type} (xs : List α) (i : Nat) : Except Fault α :=
  match xs[i]? with
  | some x => .ok x
  | none => .error .undefinedBehaviour

/-- A read `queue[i]` of the ready queue, whose slots hold no value until
they are written. -/
def rdq (queue : List (Option Nat)) (i : Nat) : Except Fault Nat :=
  match queue[i]? with
  | some (some pid) => .ok pid
  | _ => .error .undefinedBehaviour

/-- Unsigned addition `a + b`. -/
def uadd (a b : Nat) : Nat := (a + b) % UINT_MOD

/-- Unsigned subtraction `a - b` of two `unsigned` values. -/
def usub (a b : Nat) : Nat := (a + UINT_MOD - b) % UINT_MOD

/-- The variables of the non-preemptive loop of `compute_metrics`. -/
structure NPState where
  time : Nat
  total_wait : Nat
  total_turn : Nat
  deriving DecidableEq, Repr

/-- The values one iteration of the non-preemptive loop computes for its
request: the cursor after it, its waiting time and its turnaround. -/
structure NPBody where
  time : Nat
  waiting : Nat
  turnaround : Nat
  deriving DecidableEq, Repr

/-- The body of the non-preemptive loop for the request `p`, entered with the
cursor at `time`. -/
def np_body (time : Nat) (p : Patient) : NPBody :=
  let time1 := if p.arrival_ms > time then p.arrival_ms else time
  let waiting := usub time1 p.arrival_ms
  let time2 := uadd time1 p.required_time_ms
  let turnaround := usub time2 p.arrival_ms
  { time := time2, waiting := waiting, turnaround := turnaround }

/-- One iteration of the non-preemptive loop: the body is run for `p` and its
waiting time and turnaround are added to the totals. -/
def np_step (s : NPState) (p : Patient) : NPState :=
  let b := np_body s.time p
  { time := b.time, total_wait := s.total_wait + b.waiting,
    total_turn := s.total_turn + b.turnaround }

/-- The loop `for (k = ...; k < n; ++k)` of the non-preemptive path:
`np_loop list order m k s` runs the `m` iterations `k, k+1, ...` from the
state `s`. -/
def np_loop (list : PatientList) (order : List Nat) : Nat → Nat → NPState → Except Fault NPState
  | 0, _, s => .ok s
  | m + 1, k, s => do
    let i ← rd order k
    let p ← rd list i
    np_loop list order m (k + 1) (np_step s p)

/-- The variables of the Round-Robin simulation that change while it runs. -/
structure RRState where
  remaining : List Nat
  finish : List Nat
  waiting : List Nat
  queue : List (Option Nat)
  head : Nat
  tail : Nat
  qcount : Nat
  time : Nat
  completed : Nat
  next_arrival : Nat
  deriving DecidableEq, Repr

/-- The statements `queue[tail] = pid; tail = (tail + 1) % n; qcount++;`. -/
def rr_enqueue (n : Nat) (s : RRState) (pid : Nat) : RRState :=
  { s with queue := s.queue.set s.tail (some pid),
           tail := (s.tail + 1) % n,
           qcount := (s.qcount + 1) % SIZE_MOD }

/-- The loop `while (next_arrival < n)` that enqueues every request that has
arrived by the current time. It runs at most `n - next_arrival` times, which
is the first argument. -/
def rr_admit (n : Nat) (arrival arrival_order : List Nat) : Nat → RRState → Except Fault RRState
  | 0, s => .ok s
  | k + 1, s =>
    if s.next_arrival < n then do
      let pid ← rd arrival_order s.next_arrival
      let a ← rd arrival pid
      if a ≤ s.time then
        rr_admit n arrival arrival_order k
          { rr_enqueue n s pid with next_arrival := s.next_arrival + 1 }
      else .ok s
    else .ok s

/-- The loop `for (i = 0, idx = head; i < qcount; ++i)` that adds the slice
to the waiting time of every other queued request: `rr_wait_others n slice m
idx s` runs `m` iterations starting at queue position `idx`. -/
def rr_wait_others (n slice : Nat) : Nat → Nat → RRState → Except Fault RRState
  | 0, _, s => .ok s
  | m + 1, idx, s => do
    let other ← rdq s.queue idx
    let r ← rd s.remaining other
    if r > 0 then do
      let w ← rd s.waiting other
      rr_wait_others n slice m ((idx + 1) % n) { s with waiting := s.waiting.set other (uadd w slice) }
    else
      rr_wait_others n slice m ((idx + 1) % n) s

/-- One pass through the body of `while (completed < n)`, up to the end of
the body or to a `continue`. -/
def rr_iter (n quantum_ms : Nat) (arrival arrival_order : List Nat) (s0 : RRState) :
    Except Fault RRState := do
  let s1 ← rr_admit n arrival arrival_order (n - s0.next_arrival) s0
  if s1.qcount = 0 ∧ s1.next_arrival < n then do
    let pid ← rd arrival_order s1.next_arrival
    let a ← rd arrival pid
    pure { s1 with time := a }
  else do
    let pid ← rdq s1.queue s1.head
    let s2 : RRState :=
      { s1 with head := (s1.head + 1) % n, qcount := (s1.qcount + SIZE_MOD - 1) % SIZE_MOD }
    let rem ← rd s2.remaining pid
    if rem = 0 then pure s2
    else do
      let slice := if rem > quantum_ms then quantum_ms else rem
      let s3 ← rr_wait_others n slice s2.qcount s2.head s2
      let s4 : RRState :=
        { s3 with time := uadd s3.time slice, remaining := s3.remaining.set pid (rem - slice) }
      let s5 ← rr_admit n arrival arrival_order (n - s4.next_arrival) s4
      let rem5 ← rd s5.remaining pid
      if rem5 > 0 then pure (rr_enqueue n s5 pid)
      else pure { s5 with finish := s5.finish.set pid s5.time, completed := s5.completed + 1 }

/-- The loop `while (completed < n)`, run for at most `fuel` passes. -/
def rr_loop (n quantum_ms : Nat) (arrival arrival_order : List Nat) :
    Nat → RRState → Except Fault RRState
  | 0, s => if s.completed < n then .error .outOfFuel else .ok s
  | fuel + 1, s =>
    if s.completed < n then do
      let s1 ← rr_iter n quantum_ms arrival arrival_order s
      rr_loop n quantum_ms arrival arrival_order fuel s1
    else .ok s

/-- The copy `arrival_order[i] = order[i]` for `i < n`, sorted with
`cmp_fcfs`. Reading past the end of `order`, or letting the comparator
index `items` with an entry that is not below `n`, is undefined. -/
def rr_arrival_order (list : PatientList) (order : List Nat) : Except Fault (List Nat) :=
  let n := list.length
  if n ≤ order.length ∧ (order.take n).all (fun i => decide (i < n)) then
    .ok (qsort (cmp_fcfs list) (order.take n))
  else .error .undefinedBehaviour

/-- The Round-Robin branch of `compute_metrics` from its start to the end of
the `while (completed < n)` loop, which is given `fuel` passes; the result is
the final state of the simulation. -/
def rr_simulate (fuel : Nat) (list : PatientList) (order : List Nat) (quantum_ms : Nat) :
    Except Fault RRState := do
  let n := list.length
  let remaining := list.map (fun p => p.required_time_ms)
  let arrival := list.map (fun p => p.arrival_ms)
  let arrival_order ← rr_arrival_order list order
  let time ← if 0 < n then do
      let pid ← rd arrival_order 0
      rd arrival pid
    else pure 0
  rr_loop n quantum_ms arrival arrival_order fuel
    { remaining := remaining, finish := List.replicate n 0, waiting := List.replicate n 0,
      queue := List.replicate n none, head := 0, tail := 0, qcount := 0,
      time := time, completed := 0, next_arrival := 0 }

/-- The summation loop after the simulation: `rr_totals arrival s m i acc`
runs the `m` iterations `i, i+1, ...`, adding `waiting[i]` to the first and
`finish[i] - arrival[i]` to the second component of `acc`. -/
def rr_totals (arrival : List Nat) (s : RRState) : Nat → Nat → Nat × Nat → Except Fault (Nat × Nat)
  | 0, _, acc => .ok acc
  | m + 1, i, acc => do
    let f ← rd s.finish i
    let a ← rd arrival i
    let w ← rd s.waiting i
    let turnaround := usub f a
    rr_totals arrival s m (i + 1) (acc.1 + w, acc.2 + turnaround)

/-- The function `compute_metrics`. The first argument bounds the number of
passes of the Round-Robin loop; the non-preemptive path does not use it. The
two averages are the exact quotients of the totals by the count; the values
the C function returns are these rounded to `double`
(`compute_metrics_double`). -/
def compute_metrics (fuel : Nat) (list : PatientList) (order : List Nat) (alg : Algorithm)
    (quantum_ms : Nat) : Except Fault ScheduleMetrics :=
  let n := list.length
  if n = 0 then .ok { avg_wait_ms := 0, avg_turnaround_ms := 0 }
  else if alg = ALG_RR then do
    let s ← rr_simulate fuel list order quantum_ms
    let t ← rr_totals (list.map (fun p => p.arrival_ms)) s n 0 (0, 0)
    pure { avg_wait_ms := (t.1 : ℚ) / (n : ℚ), avg_turnaround_ms := (t.2 : ℚ) / (n : ℚ) }
  else do
    let s ← np_loop list order n 0 { time := 0, total_wait := 0, total_turn := 0 }
    pure { avg_wait_ms := (s.total_wait : ℚ) / (n : ℚ),
           avg_turnaround_ms := (s.total_turn : ℚ) / (n : ℚ) }

/-! ## Command line (`main.c`) -/

/-- The function `parse_alg` of `main.c`: the four names are recognised and
every other string gives `ALG_FCFS`. -/
def parse_alg (s : String) : Algorithm :=
  if s = "fcfs" then ALG_FCFS
  else if s = "sjf" then ALG_SJF
  else if s = "priority" then ALG_PRIORITY
  else if s = "rr" then ALG_RR
  else ALG_FCFS

/-! ## Timeline of the console (`ui.c`) -/

/-- The struct `Slice` of `ui.c`: one stretch of service of the request
`idx`. -/
structure Slice where
  idx : Nat
  start_ms : Nat
  end_ms : Nat
  deriving DecidableEq, Repr

/-- The comparator `cmp_arrival` of `ui.c`: arrival time, then index. -/
def cmp_arrival (ctx : PatientList) (ia ib : Nat) : Int :=
  let aa := (item ctx ia).arrival_ms
  let ab := (item ctx ib).arrival_ms
  if aa < ab then -1
  else if aa > ab then 1
  else (ia : Int) - (ib : Int)

/-- The loop `for (k = ...; k < n && count < cap; ++k)` of the non-preemptive
branch of `build_timeline`: `tl_np_loop list order cap m k time slices` runs
at most `m` iterations `k, k+1, ...`; `count` is the length of `slices`. -/
def tl_np_loop (list : PatientList) (order : List Nat) (cap : Nat) :
    Nat → Nat → Nat → List Slice → Except Fault (List Slice)
  | 0, _, _, slices => .ok slices
  | m + 1, k, time, slices =>
    if slices.length < cap then do
      let i ← rd order k
      let p ← rd list i
      let time1 := if p.arrival_ms > time then p.arrival_ms else time
      let start := time1
      let stop := uadd start p.required_time_ms
      tl_np_loop list order cap m (k + 1) stop
        (slices ++ [{ idx := i, start_ms := start, end_ms := stop }])
    else .ok slices

/-- One pass through the body of the Round-Robin loop of `build_timeline`.
The simulation variables are kept in an `RRState` whose `finish` and
`waiting` fields are not used (the function has no such arrays). The Boolean
of the result is `false` when the pass left the loop by `break`. -/
def tl_rr_iter (n quantum_ms : Nat) (arrival arrival_order : List Nat) (s0 : RRState)
    (slices : List Slice) : Except Fault (Bool × RRState × List Slice) := do
  let s1 ← rr_admit n arrival arrival_order (n - s0.next_arrival) s0
  if s1.qcount = 0 then
    if s1.next_arrival < n then do
      let pid ← rd arrival_order s1.next_arrival
      let a ← rd arrival pid
      pure (true, { s1 with time := a }, slices)
    else pure (false, s1, slices)
  else do
    let pid ← rdq s1.queue s1.head
    let s2 : RRState :=
      { s1 with head := (s1.head + 1) % n, qcount := (s1.qcount + SIZE_MOD - 1) % SIZE_MOD }
    let rem ← rd s2.remaining pid
    if rem = 0 then pure (true, s2, slices)
    else do
      let slice := if rem > quantum_ms then quantum_ms else rem
      let start := s2.time
      let s3 : RRState :=
        { s2 with time := uadd s2.time slice, remaining := s2.remaining.set pid (rem - slice) }
      let slices1 := slices ++ [{ idx := pid, start_ms := start, end_ms := s3.time }]
      let s4 ← rr_admit n arrival arrival_order (n - s3.next_arrival) s3
      let rem4 ← rd s4.remaining pid
      if rem4 > 0 then pure (true, rr_enqueue n s4 pid, slices1)
      else pure (true, { s4 with completed := s4.completed + 1 }, slices1)

/-- The loop `while (completed < n && count < cap)` of `build_timeline`, run
for at most `fuel` passes. -/
def tl_rr_loop (n quantum_ms cap : Nat) (arrival arrival_order : List Nat) :
    Nat → RRState → List Slice → Except Fault (List Slice)
  | 0, s, slices =>
    if s.completed < n ∧ slices.length < cap then .error .outOfFuel else .ok slices
  | fuel + 1, s, slices =>
    if s.completed < n ∧ slices.length < cap then do
      let r ← tl_rr_iter n quantum_ms arrival arrival_order s slices
      if r.1 then tl_rr_loop n quantum_ms cap arrival arrival_order fuel r.2.1 r.2.2
      else .ok r.2.2
    else .ok slices

/-- The function `build_timeline` of `ui.c`; the result is the array of
slices, `*out_count` being its length. The first argument bounds the number
of passes of the Round-Robin loop; the other branch does not use it. -/
def build_timeline (fuel : Nat) (list : PatientList) (alg : Algorithm) (quantum_ms : Nat) :
    Except Fault (List Slice) :=
  let n := list.length
  if n = 0 then .ok []
  else
    let order := schedule_order list alg quantum_ms
    let cap := if alg = ALG_RR then (10 * n) % SIZE_MOD else n
    if alg = ALG_RR then do
      let remaining := list.map (fun p => p.required_time_ms)
      let arrival := list.map (fun p => p.arrival_ms)
      let arrival_order := qsort (cmp_arrival list) (order.take n)
      let time ← if 0 < n then do
          let pid ← rd arrival_order 0
          rd arrival pid
        else pure 0
      tl_rr_loop n quantum_ms cap arrival arrival_order fuel
        { remaining := remaining, finish := [], waiting := [],
          queue := List.replicate n none, head := 0, tail := 0, qcount := 0,
          time := time, completed := 0, next_arrival := 0 }
        []
    else tl_np_loop list order cap n 0 0 []

/-! ## Resource pool (`resources.c`, `thread_worker.c`) -/

/-- Number of values of the C type `unsigned long long` (64 bits). -/
def ULLONG_MOD : Nat := 2 ^ 64

/-- The largest initial value `sem_init` accepts. -/
def SEM_VALUE_MAX : Nat := 2 ^ 31 - 1

/-- The struct `ResourcePool` of `resources.h`. A semaphore is its count of
free units and the mutex is whether it is held. -/
structure ResourcePool where
  doctors : Nat
  machines : Nat
  rooms : Nat
  log_mutex : Bool
  num_doctors : Int
  num_machines : Int
  num_rooms : Int
  busy_doctors_ms : Nat
  busy_machines_ms : Nat
  busy_rooms_ms : Nat
  deriving DecidableEq, Repr

/-- The library call `sem_init(&sem, 0, value)`: it gives the new count, and
fails for a value above `SEM_VALUE_MAX`. -/
def sem_init (value : Nat) : Option Nat :=
  if value ≤ SEM_VALUE_MAX then some value else none

/-- The function `resources_init`; `none` is the return value `-1`, and
`some rp` the return value `0` with the pool `rp` written. -/
def resources_init (num_doctors num_machines num_rooms : Int) : Option ResourcePool := do
  let doctors ← sem_init (if num_doctors > 0 then num_doctors else 1).toNat
  let machines ← sem_init (if num_machines > 0 then num_machines else 1).toNat
  let rooms ← sem_init (if num_rooms > 0 then num_rooms else 1).toNat
  pure { doctors := doctors, machines := machines, rooms := rooms, log_mutex := false,
         num_doctors := if num_doctors > 0 then num_doctors else 1,
         num_machines := if num_machines > 0 then num_machines else 1,
         num_rooms := if num_rooms > 0 then num_rooms else 1,
         busy_doctors_ms := 0, busy_machines_ms := 0, busy_rooms_ms := 0 }

/-- The section of `patient_thread` between `pthread_mutex_lock` and
`pthread_mutex_unlock`: the required time of the finished request is added
to the busy time of its category. The mutex makes these sections run one
after the other, so a run of the workers applies them in some sequence. -/
def patient_thread_accumulate (rp : ResourcePool) (p : Patient) : ResourcePool :=
  match p.service with
  | .SERVICE_CONSULTATION =>
    { rp with busy_doctors_ms := (rp.busy_doctors_ms + p.required_time_ms) % ULLONG_MOD }
  | .SERVICE_LAB_TEST =>
    { rp with busy_machines_ms := (rp.busy_machines_ms + p.required_time_ms) % ULLONG_MOD }
  | .SERVICE_TREATMENT =>
    { rp with busy_rooms_ms := (rp.busy_rooms_ms + p.required_time_ms) % ULLONG_MOD }

/-- The accumulator `patient_thread_accumulate` adds to for `p` does not
wrap around. -/
def accumulate_no_wrap (rp : ResourcePool) (p : Patient) : Prop :=
  match p.service with
  | .SERVICE_CONSULTATION => rp.busy_doctors_ms + p.required_time_ms < ULLONG_MOD
  | .SERVICE_LAB_TEST => rp.busy_machines_ms + p.required_time_ms < ULLONG_MOD
  | .SERVICE_TREATMENT => rp.busy_rooms_ms + p.required_time_ms < ULLONG_MOD

instance accumulate_no_wrap_decidable (rp : ResourcePool) (p : Patient) :
    Decidable (accumulate_no_wrap rp p) := by
  unfold accumulate_no_wrap
  split <;> infer_instance

/-- The statement `if (p.arrival_ms > time) time = p.arrival_ms;` of the
non-preemptive loop: the time at which the request `p` starts when the
cursor stands at `time`. -/
def np_start (time : Nat) (p : Patient) : Nat :=
  if p.arrival_ms > time then p.arrival_ms else time

/-- The slices the non-preemptive branch of `build_timeline` appends when it
serves the requests `is` in turn with the cursor starting at `time`
(`tl_np_loop_eq_slices` shows this is what the loop does). -/
def tl_np_slices (list : PatientList) : Nat → List Nat → List Slice
  | _, [] => []
  | time, i :: is =>
    let start := np_start time (item list i)
    let stop := uadd start (item list i).required_time_ms
    { idx := i, start_ms := start, end_ms := stop } :: tl_np_slices list stop is

/-- A request with its scheduling fields and its service category set. -/
def mkServicePatient (service : ServiceType) (arrival required : Nat) : Patient :=
  { id := 0, name := "", priority := 1, service := service,
    required_time_ms := required, arrival_ms := arrival }

/-! ## Execution engine (`main.c`, `ui.c`, `thread_worker.c`)

A C string is a Lean string, one character for each `char`. -/

/-- The struct `WorkerArgs` of `thread_worker.h`. The field `resources`
points to the one pool all workers share and is not kept. -/
structure WorkerArgs where
  patient : Patient
  fifo_fd : Int
  deriving DecidableEq, Repr

/-- The launch loop of `main` and of `run_scheduler`:
`launch_workers list order fifo_fd m k launched` runs the `m` iterations
`k, k+1, ...`; each fills `args[k]` from `list.items[order[k]]` and calls
`pthread_create` with it. The result lists the arguments of the workers in
the order in which they were created. -/
def launch_workers (list : PatientList) (order : List Nat) (fifo_fd : Int) :
    Nat → Nat → List WorkerArgs → Except Fault (List WorkerArgs)
  | 0, _, launched => .ok launched
  | m + 1, k, launched => do
    let idx ← rd order k
    let p ← rd list idx
    launch_workers list order fifo_fd m (k + 1)
      (launched ++ [{ patient := p, fifo_fd := fifo_fd }])

/-- The scheduling and launching part of `main` and of `run_scheduler`: the
order is computed by `schedule_order` and the workers are launched along
it. -/
def run_launch (list : PatientList) (alg : Algorithm) (quantum_ms : Nat) (fifo_fd : Int) :
    Except Fault (List WorkerArgs) :=
  launch_workers list (schedule_order list alg quantum_ms) fifo_fd list.length 0 []

/-- The three semaphores of the pool. -/
inductive Resource where
  | doctors
  | machines
  | rooms
  deriving DecidableEq, Repr

/-- The function `resource_for_service` of `resources.c`. -/
def resource_for_service : ServiceType → Resource
  | .SERVICE_CONSULTATION => .doctors
  | .SERVICE_LAB_TEST => .machines
  | .SERVICE_TREATMENT => .rooms

/-- The function `service_name` of `thread_worker.c`. -/
def service_name : ServiceType → String
  | .SERVICE_CONSULTATION => "Consultation"
  | .SERVICE_LAB_TEST => "LabTest"
  | .SERVICE_TREATMENT => "Treatment"

/-- The library call `snprintf(buf, size, ...)` applied to the text the
format produces: the buffer receives at most `size - 1` characters of it. -/
def snprintf (size : Nat) (text : String) : String :=
  String.mk (text.data.take (size - 1))

/-- The calls a worker makes that act on the world outside it. -/
inductive Action where
  | write (fd : Int) (text : String)
  | sem_wait (res : Resource)
  | ms_sleep (ms : Nat)
  | sem_post (res : Resource)
  | mutex_lock
  | accumulate (p : Patient)
  | mutex_unlock
  deriving DecidableEq, Repr

/-- The function `patient_thread`: the sequence of calls it makes, in program
order. `accumulate p` stands for the `switch` that adds to a busy-time
accumulator (`patient_thread_accumulate`). -/
def patient_thread (wa : WorkerArgs) : List Action :=
  let p := wa.patient
  let res := resource_for_service p.service
  [ .write wa.fifo_fd
      (snprintf 256 ("START id=" ++ toString p.id ++ " name=" ++ p.name ++ " service="
        ++ service_name p.service ++ "\n")),
    .sem_wait res,
    .ms_sleep p.required_time_ms,
    .sem_post res,
    .mutex_lock,
    .accumulate p,
    .mutex_unlock,
    .write wa.fifo_fd
      (snprintf 256 ("FINISH id=" ++ toString p.id ++ " name=" ++ p.name ++ " service="
        ++ service_name p.service ++ "\n")) ]

/-- The texts a sequence of calls writes, in order. -/
def written : List Action → List String
  | [] => []
  | .write _ text :: rest => text :: written rest
  | _ :: rest => written rest

/-! ## Storage (`storage.c`)

A file is the string of its characters. -/

/-- The function `service_name_storage` of `storage.c`. -/
def service_name_storage : ServiceType → String
  | .SERVICE_CONSULTATION => "Consultation"
  | .SERVICE_LAB_TEST => "Lab Test"
  | .SERVICE_TREATMENT => "Treatment"

/-- The library predicate `isspace` in the C locale. -/
def isspace (c : Char) : Bool :=
  c = ' ' ∨ c = '\t' ∨ c = '\n' ∨ c = '\x0b' ∨ c = '\x0c' ∨ c = '\r'

/-- The value of a run of decimal digits read after the value `v`. -/
def digits_value (v : Nat) (cs : List Char) : Nat :=
  cs.foldl (fun acc c => acc * 10 + (c.toNat - 48)) v

/-- The library function `atoi`: white space is skipped, an optional sign is
read, then the decimal digits that follow. A value that does not fit an
`int` is undefined behaviour. -/
def atoi (s : List Char) : Except Fault Int :=
  let s1 := s.dropWhile isspace
  let neg := s1.head? = some '-'
  let s2 := if s1.head? = some '-' ∨ s1.head? = some '+' then s1.drop 1 else s1
  let v : Int := (digits_value 0 (s2.takeWhile Char.isDigit) : Nat)
  let r : Int := if neg then -v else v
  if -2 ^ 31 ≤ r ∧ r < 2 ^ 31 then .ok r else .error .undefinedBehaviour

/-- The function `parse_service` of `storage.c`: the three names, then the
numeric fallback through `atoi`. -/
def parse_service (s : String) : Except Fault ServiceType :=
  if s = "Consultation" then pure .SERVICE_CONSULTATION
  else if s = "Lab Test" then pure .SERVICE_LAB_TEST
  else if s = "Treatment" then pure .SERVICE_TREATMENT
  else do
    let v ← atoi s.data
    if v ≥ 0 ∧ v ≤ 2 then
      pure (if v = 0 then .SERVICE_CONSULTATION
            else if v = 1 then .SERVICE_LAB_TEST
            else .SERVICE_TREATMENT)
    else pure .SERVICE_CONSULTATION

/-- The library function `fgets(line, size, f)` on the unread part of the
file: `none` at the end of the file, otherwise the line read (at most
`size - 1` characters, ending after the first newline if there is one) and
what remains unread. -/
def fgets (size : Nat) (input : List Char) : Option (List Char × List Char) :=
  if input = [] then none
  else
    let body := (input.take (size - 1)).takeWhile (fun c => c ≠ '\n')
    let line :=
      if body.length < size - 1 ∧ input[body.length]? = some '\n' then body ++ ['\n']
      else body
    some (line, input.drop line.length)

/-- The library function `strtok` with the delimiters `,` and newline, on the
part of the buffer still to be split: leading delimiters are skipped; `none`
if nothing is left, otherwise the token and the part after the delimiter
that ends it. -/
def strtok (s : List Char) : Option (List Char × List Char) :=
  let s1 := s.dropWhile (fun c => c = ',' ∨ c = '\n')
  if s1 = [] then none
  else some (s1.takeWhile (fun c => ¬ (c = ',' ∨ c = '\n')),
             (s1.dropWhile (fun c => ¬ (c = ',' ∨ c = '\n'))).drop 1)

/-- The conversion `(unsigned)v` of an `int`. -/
def int_to_unsigned (v : Int) : Nat := (v % (2 ^ 32 : Int)).toNat

/-- The body of the reading loop of `load_patients_csv` for one line:
`none` when the line is skipped (`continue`), otherwise the record appended;
`count` is the number of records before the line. -/
def load_line (line : List Char) (count : Nat) : Except Fault (Option Patient) :=
  if line.head? = some '#' ∨ line.length < 3 then pure none
  else
    match strtok line with
    | none => pure none
    | some (tok1, r1) => do
      let id ← atoi tok1
      match strtok r1 with
      | none => pure none
      | some (tok2, r2) =>
        let name := snprintf 64 (String.mk tok2)
        match strtok r2 with
        | none => pure none
        | some (tok3, r3) =>
          let svc := snprintf 64 (String.mk tok3)
          match strtok r3 with
          | none => pure none
          | some (tok4, r4) => do
            let priority ← atoi tok4
            match strtok r4 with
            | none => pure none
            | some (tok5, r5) => do
              let req ← atoi tok5
              match strtok r5 with
              | none => pure none
              | some (tok6, _) => do
                let arr ← atoi tok6
                let service ← parse_service svc
                pure (some
                  { id := if id > 0 then id else ((count + 1 : Nat) : Int),
                    name := name,
                    service := service,
                    priority := priority,
                    required_time_ms := int_to_unsigned req,
                    arrival_ms := int_to_unsigned arr })

/-- The loop `while (fgets(line, sizeof(line), f))` of `load_patients_csv`,
run for at most `fuel` lines on the unread part `input`; `items` are the
records read so far. Every call of `fgets` consumes a character, so the
length of the file is fuel enough. -/
def load_loop : Nat → List Char → List Patient → Except Fault (List Patient)
  | 0, _, items => .ok items
  | fuel + 1, input, items =>
    match fgets 512 input with
    | none => .ok items
    | some (line, rest) => do
      let r ← load_line line items.length
      match r with
      | none => load_loop fuel rest items
      | some p => load_loop fuel rest (items ++ [p])

/-- The function `load_patients_csv` on the text of the file; the result is
the list stored in `out_list`. Failure to open the file or to allocate is
not modelled. -/
def load_patients_csv (file : String) : Except Fault PatientList :=
  load_loop file.length file.data []

/-- The line `save_patients_csv` prints for one record. -/
def save_line (p : Patient) : String :=
  toString p.id ++ "," ++ p.name ++ "," ++ service_name_storage p.service ++ ","
    ++ toString p.priority ++ "," ++ toString p.required_time_ms ++ ","
    ++ toString p.arrival_ms ++ "\n"

/-- The function `save_patients_csv`: the text written to the file. Failure
to open the file is not modelled. -/
def save_patients_csv (list : PatientList) : String :=
  list.foldl (fun text p => text ++ save_line p)
    "# id,name,service,priority,required_ms,arrival_ms\n"

/-! ## Definitions that follow the specification -/

/-- Specification of the non-preemptive cursor (section 4.2): starting from
`time`, each request first raises the cursor to its arrival time if that is
later, waits `time - arrival`, is served for its required time, and has
turnaround `time - arrival` afterwards (32-bit unsigned arithmetic). The
result lists `(wait_k, turn_k)` for the requests in the order given. -/
def spec_cursor : Nat → List Patient → List (Nat × Nat)
  | _, [] => []
  | time, p :: ps =>
    let start := max time p.arrival_ms
    let stop := (start + p.required_time_ms) % 2 ^ 32
    ((start + 2 ^ 32 - p.arrival_ms) % 2 ^ 32, (stop + 2 ^ 32 - p.arrival_ms) % 2 ^ 32)
      :: spec_cursor stop ps

/-- The cursor of section 4.2 without the 32-bit wrap-around: the time at
which the last of the requests finishes. -/
def ideal_cursor : Nat → List Patient → Nat
  | time, [] => time
  | time, p :: ps => ideal_cursor (max time p.arrival_ms + p.required_time_ms) ps

/-- The total waiting time when requests with the required times `reqs`, all
present from the start, are served one after the other in the order of the
list: each request makes all the requests after it wait for its required
time. -/
def waiting_sum : List Nat → Nat
  | [] => 0
  | x :: xs => x * xs.length + waiting_sum xs

/-- A record that `save_patients_csv` and `load_patients_csv` are to carry
unchanged: a positive id, a name that is not empty, has fewer than 64
characters and contains no comma and no newline, and a priority, a required
time and an arrival time in the non-negative range of `int`. -/
def well_formed_record (p : Patient) : Prop :=
  0 < p.id ∧ p.id < 2 ^ 31 ∧ p.name.data ≠ [] ∧ p.name.length < 64 ∧
  (∀ c ∈ p.name.data, c ≠ ',' ∧ c ≠ '\n') ∧
  0 ≤ p.priority ∧ p.priority < 2 ^ 31 ∧
  p.required_time_ms < 2 ^ 31 ∧ p.arrival_ms < 2 ^ 31

instance well_formed_record_decidable (p : Patient) : Decidable (well_formed_record p) := by
  unfold well_formed_record
  infer_instance

/-! ## Round-Robin with a list as ready queue

A second description of one pass of the Round-Robin loop, in which the ready
queue is the list of the queued requests, oldest first, instead of the
circular buffer. It is used in proofs only: `rr_iter_refines` and
`tl_rr_iter_refines` show that the passes of `compute_metrics` and of
`build_timeline` compute what it computes. -/

/-- The variables of the Round-Robin simulation with the ready queue as a
list. -/
structure FifoState where
  remaining : List Nat
  finish : List Nat
  waiting : List Nat
  ready : List Nat
  time : Nat
  completed : Nat
  next_arrival : Nat
  deriving DecidableEq, Repr

/-- The requests the admission loop enqueues at `time`: those from position
`next` of the arrival order on whose arrival time is not after `time`, up to
the first that has not arrived. -/
def fifo_admitted (arrival arrival_order : List Nat) (time next : Nat) : List Nat :=
  (arrival_order.drop next).takeWhile (fun pid => decide (arrival.getD pid 0 ≤ time))

/-- The admission loop on the list queue. -/
def fifo_admission (arrival arrival_order : List Nat) (a : FifoState) : FifoState :=
  { a with
    ready := a.ready ++ fifo_admitted arrival arrival_order a.time a.next_arrival,
    next_arrival :=
      a.next_arrival + (fifo_admitted arrival arrival_order a.time a.next_arrival).length }

/-- The loop that adds the slice to the waiting time of the queued requests
`others`. -/
def fifo_wait (slice : Nat) (remaining : List Nat) (others : List Nat) (waiting : List Nat) :
    List Nat :=
  others.foldl
    (fun w o => if remaining.getD o 0 > 0 then w.set o (uadd (w.getD o 0) slice) else w)
    waiting

/-- One pass of the Round-Robin loop on the list queue: a jump to the next
arrival when nothing is ready, otherwise one slice for the oldest ready
request. -/
def fifo_iter (quantum_ms : Nat) (arrival arrival_order : List Nat) (a : FifoState) :
    FifoState :=
  let a1 := fifo_admission arrival arrival_order a
  match a1.ready with
  | [] => { a1 with time := arrival.getD (arrival_order.getD a1.next_arrival 0) 0 }
  | pid :: rest =>
    let rem := a1.remaining.getD pid 0
    let slice := if rem > quantum_ms then quantum_ms else rem
    let a2 : FifoState :=
      { a1 with ready := rest,
                waiting := fifo_wait slice a1.remaining rest a1.waiting,
                time := uadd a1.time slice,
                remaining := a1.remaining.set pid (rem - slice) }
    let a3 := fifo_admission arrival arrival_order a2
    if rem - slice > 0 then { a3 with ready := a3.ready ++ [pid] }
    else { a3 with finish := a3.finish.set pid a3.time, completed := a3.completed + 1 }

/-- The passes of the loop on the list queue: `fifo_run k a` is the state
after `k` passes, or the state in which the loop ended if that was
earlier. -/
def fifo_run (n quantum_ms : Nat) (arrival arrival_order : List Nat) :
    Nat → FifoState → FifoState
  | 0, a => a
  | k + 1, a =>
    if a.completed < n then
      fifo_run n quantum_ms arrival arrival_order k (fifo_iter quantum_ms arrival arrival_order a)
    else a

/-- The circular buffer of `s` holds exactly the requests `ready`, oldest
first at `head`. -/
def ring_holds (n : Nat) (s : RRState) (ready : List Nat) : Prop :=
  s.queue.length = n ∧ s.head < n ∧ s.qcount = ready.length ∧ ready.length ≤ n ∧
  s.tail = (s.head + ready.length) % n ∧
  ∀ j, j < ready.length → s.queue[(s.head + j) % n]? = some (ready[j]?)

instance ring_holds_decidable (n : Nat) (s : RRState) (ready : List Nat) :
    Decidable (ring_holds n s ready) := by
  unfold ring_holds
  infer_instance

/-- The state `s` of the C simulation and the list-queue state `a` agree on
the queue, the remaining times, the clock and the counters. -/
def refines_core (n : Nat) (s : RRState) (a : FifoState) : Prop :=
  ring_holds n s a.ready ∧ s.remaining = a.remaining ∧ s.time = a.time ∧
  s.completed = a.completed ∧ s.next_arrival = a.next_arrival

/-- The states agree on everything, the waiting and finish times included. -/
def refines (n : Nat) (s : RRState) (a : FifoState) : Prop :=
  refines_core n s a ∧ s.waiting = a.waiting ∧ s.finish = a.finish

/-- The setting of a Round-Robin simulation: `n` requests, fewer than
`size_t` can count, with positive required times, a positive quantum, and
an arrival order that is a permutation of the indices. -/
def rr_setting (n quantum_ms : Nat) (arrival required arrival_order : List Nat) : Prop :=
  0 < n ∧ n < SIZE_MOD ∧ 0 < quantum_ms ∧ arrival.length = n ∧ required.length = n ∧
  arrival_order.Perm (List.range n) ∧ ∀ i, i < n → 0 < required.getD i 0

/-- What holds of the queue at the start of every pass: the queue has no
request twice; its members are admitted and not finished; every admitted
request that is not finished is in it; the requests not yet admitted are
untouched; every admitted request is either queued or counted as
completed. -/
def fifo_inv (n : Nat) (required arrival_order : List Nat) (a : FifoState) : Prop :=
  a.remaining.length = n ∧ a.next_arrival ≤ n ∧
  a.completed + a.ready.length = a.next_arrival ∧ a.ready.Nodup ∧
  (∀ pid ∈ a.ready, pid ∈ arrival_order.take a.next_arrival ∧ 0 < a.remaining.getD pid 0) ∧
  (∀ pid ∈ arrival_order.take a.next_arrival, 0 < a.remaining.getD pid 0 → pid ∈ a.ready) ∧
  (∀ pid ∈ arrival_order.drop a.next_arrival,
    a.remaining.getD pid 0 = required.getD pid 0) ∧
  (∀ i, i < n → a.remaining.getD i 0 ≤ required.getD i 0)

/-- The state in which the Round-Robin loop of `compute_metrics` starts. -/
def rr_start (n : Nat) (arrival required arrival_order : List Nat) : RRState :=
  { remaining := required, finish := List.replicate n 0, waiting := List.replicate n 0,
    queue := List.replicate n none, head := 0, tail := 0, qcount := 0,
    time := arrival.getD (arrival_order.getD 0 0) 0, completed := 0, next_arrival := 0 }

/-- The list-queue state in which the Round-Robin loop starts. -/
def fifo_start (n : Nat) (arrival required arrival_order : List Nat) : FifoState :=
  { remaining := required, finish := List.replicate n 0, waiting := List.replicate n 0,
    ready := [], time := arrival.getD (arrival_order.getD 0 0) 0, completed := 0,
    next_arrival := 0 }

/-- The passes of the Round-Robin loop of `compute_metrics`: `rr_passes k s`
is the state after `k` passes, or the state in which the loop ended if that
was earlier. -/
def rr_passes (n quantum_ms : Nat) (arrival arrival_order : List Nat) :
    Nat → RRState → Except Fault RRState
  | 0, s => .ok s
  | k + 1, s =>
    if s.completed < n then do
      let s1 ← rr_iter n quantum_ms arrival arrival_order s
      rr_passes n quantum_ms arrival arrival_order k s1
    else .ok s

/-- The circular buffer of `s` holds the requests `ready`, oldest first, no
request twice, and each of them is admitted (it is among the first
`next_arrival` of the arrival order) and unfinished. -/
def queue_safe (n : Nat) (arrival_order : List Nat) (s : RRState) (ready : List Nat) : Prop :=
  ring_holds n s ready ∧ ready.Nodup ∧
  ∀ pid ∈ ready, pid ∈ arrival_order.take s.next_arrival ∧ 0 < s.remaining.getD pid 0

instance queue_safe_decidable (n : Nat) (arrival_order : List Nat) (s : RRState)
    (ready : List Nat) : Decidable (queue_safe n arrival_order s ready) := by
  unfold queue_safe
  infer_instance

/-- What holds of the clock, the waiting times and the finish times at the
start of every pass as long as the clock stays at or below `bound`: a queued
request has waited and been served for no longer than the time since its
arrival; a finished request has its waiting time and its required time
between its arrival and its finish; a request that is not admitted has not
waited. -/
def fifo_acc (n bound : Nat) (arrival required arrival_order : List Nat) (a : FifoState) :
    Prop :=
  a.waiting.length = n ∧ a.finish.length = n ∧
  a.remaining.sum ≤ required.sum ∧ a.time + a.remaining.sum ≤ bound ∧
  (∀ pid ∈ a.ready,
    arrival.getD pid 0 + a.waiting.getD pid 0
      + (required.getD pid 0 - a.remaining.getD pid 0) ≤ a.time) ∧
  (∀ pid ∈ arrival_order.take a.next_arrival, a.remaining.getD pid 0 = 0 →
    arrival.getD pid 0 + a.waiting.getD pid 0 + required.getD pid 0 ≤ a.finish.getD pid 0 ∧
    a.finish.getD pid 0 ≤ bound) ∧
  (∀ pid ∈ arrival_order.drop a.next_arrival, a.waiting.getD pid 0 = 0)

/-- What holds at the start of every pass when every request arrives at
`arr`, in arithmetic modulo `UINT_MOD`: the waiting time and the service of a
queued request add up to the time since `arr`, and the waiting time and the
required time of a finished request to its finish time less `arr`. -/
def fifo_cong (n arr : Nat) (required arrival_order : List Nat) (a : FifoState) : Prop :=
  a.waiting.length = n ∧ a.finish.length = n ∧ a.time < UINT_MOD ∧
  (a.next_arrival < n → a.time = arr) ∧
  (∀ pid ∈ a.ready,
    (arr + a.waiting.getD pid 0 + (required.getD pid 0 - a.remaining.getD pid 0)) % UINT_MOD
      = a.time) ∧
  (∀ pid ∈ arrival_order.take a.next_arrival, a.remaining.getD pid 0 = 0 →
    (arr + a.waiting.getD pid 0 + required.getD pid 0) % UINT_MOD = a.finish.getD pid 0) ∧
  (∀ pid ∈ arrival_order.drop a.next_arrival, a.waiting.getD pid 0 = 0)

/-- The slice one pass on the list queue gives to the oldest ready request;
a jump of the clock gives none. -/
def fifo_slice (quantum_ms : Nat) (arrival arrival_order : List Nat) (a : FifoState) :
    List Slice :=
  let a1 := fifo_admission arrival arrival_order a
  match a1.ready with
  | [] => []
  | pid :: _ =>
    let rem := a1.remaining.getD pid 0
    let slice := if rem > quantum_ms then quantum_ms else rem
    [{ idx := pid, start_ms := a1.time, end_ms := uadd a1.time slice }]

/-- The length `end_ms - start_ms` of a slice, in unsigned arithmetic. -/
def slice_length (sl : Slice) : Nat := usub sl.end_ms sl.start_ms

/-- The total length of the slices of the request `i` in a timeline. -/
def slice_total (slices : List Slice) (i : Nat) : Nat :=
  ((slices.filter (fun sl => decide (sl.idx = i))).map slice_length).sum

/-- What holds of the slices produced so far at the start of every pass of
the Round-Robin loop of `build_timeline`: no slice starts before the one
before it ends, the last ends at or before the clock, every slice is at
least 1 and at most the quantum long, and the slices of a request and its
remaining time add up to its required time. -/
def tl_inv (quantum_ms : Nat) (required : List Nat) (a : FifoState) (slices : List Slice) :
    Prop :=
  a.time < UINT_MOD ∧
  slices.Chain' (fun x y => x.end_ms ≤ y.start_ms) ∧
  (∀ sl ∈ slices.getLast?, sl.end_ms ≤ a.time) ∧
  (∀ sl ∈ slices, 1 ≤ slice_length sl ∧ slice_length sl ≤ quantum_ms) ∧
  (∀ i, slice_total slices i + a.remaining.getD i 0 = required.getD i 0)

/-! ## Workers running together (`thread_worker.c`, `resources.c`)

The workers are threads, so a run of the program is an interleaving of the
calls they make. The semaphore calls behave as POSIX describes them:
`sem_wait` takes a unit when the value is positive and otherwise does not
return until a `sem_post` lets it; `sem_post` lets one of the callers blocked
on the semaphore return when there is one, and otherwise adds one to the
value. `pthread_mutex_lock` does not return while the mutex is held. -/

/-- A worker thread: the calls it has still to make, in program order, and
whether it is blocked inside the first of them, a `sem_wait` that has not
returned. -/
structure Worker where
  todo : List Action
  blocked : Bool
  deriving DecidableEq, Repr

/-- The shared pool and the workers that run. -/
structure Engine where
  pool : ResourcePool
  workers : List Worker
  deriving DecidableEq, Repr

/-- The value of a semaphore of the pool. -/
def sem_value (rp : ResourcePool) : Resource → Nat
  | .doctors => rp.doctors
  | .machines => rp.machines
  | .rooms => rp.rooms

/-- The pool with the value of one semaphore replaced. -/
def sem_set (rp : ResourcePool) (res : Resource) (value : Nat) : ResourcePool :=
  match res with
  | .doctors => { rp with doctors := value }
  | .machines => { rp with machines := value }
  | .rooms => { rp with rooms := value }

/-- The worker is blocked in `sem_wait` on the semaphore `res`. -/
def is_blocked_on (res : Resource) (w : Worker) : Bool :=
  w.blocked && decide (w.todo.head? = some (Action.sem_wait res))

/-- The worker holds a unit of `res`: its `sem_wait(res)` has returned and its
`sem_post(res)` is still to come. -/
def holds (res : Resource) (w : Worker) : Bool :=
  decide (Action.sem_post res ∈ w.todo) && !decide (Action.sem_wait res ∈ w.todo)

/-- Number of workers that hold a unit of `res`. -/
def holders (s : Engine) (res : Resource) : Nat := s.workers.countP (holds res)

/-- Number of workers blocked on `res`. -/
def blocked_count (s : Engine) (res : Resource) : Nat := s.workers.countP (is_blocked_on res)

/-- The workers with worker `i` past its current call. -/
def advance (workers : List Worker) (i : Nat) (rest : List Action) : List Worker :=
  workers.set i { todo := rest, blocked := false }

/-- The call `act` made by worker `i`, whose later calls are `rest`; `j` is
the worker the scheduler lets return when the call is a `sem_post` and some
workers are blocked on its semaphore. The result is `none` when the call
cannot be made or completed in this state. -/
def perform (s : Engine) (i j : Nat) (w : Worker) : Action → List Action → Option Engine
  | .sem_wait res, rest =>
    if sem_value s.pool res > 0 then
      some { pool := sem_set s.pool res (sem_value s.pool res - 1),
             workers := advance s.workers i rest }
    else some { s with workers := s.workers.set i { w with blocked := true } }
  | .sem_post res, rest =>
    if s.workers.any (is_blocked_on res) then
      match s.workers[j]? with
      | some v =>
        if is_blocked_on res v then
          some { s with workers := advance (advance s.workers i rest) j v.todo.tail }
        else none
      | none => none
    else
      some { pool := sem_set s.pool res (sem_value s.pool res + 1),
             workers := advance s.workers i rest }
  | .mutex_lock, rest =>
    if s.pool.log_mutex then none
    else some { pool := { s.pool with log_mutex := true }, workers := advance s.workers i rest }
  | .mutex_unlock, rest =>
    some { pool := { s.pool with log_mutex := false }, workers := advance s.workers i rest }
  | .accumulate p, rest =>
    some { pool := patient_thread_accumulate s.pool p, workers := advance s.workers i rest }
  | .write _ _, rest => some { s with workers := advance s.workers i rest }
  | .ms_sleep _, rest => some { s with workers := advance s.workers i rest }

/-- One step of the run: worker `i` makes its next call. A worker that is
blocked or has returned makes no step. -/
def step (s : Engine) (i j : Nat) : Option Engine :=
  match s.workers[i]? with
  | none => none
  | some w =>
    if w.blocked then none
    else
      match w.todo with
      | [] => none
      | act :: rest => perform s i j w act rest

/-- A run: the steps of a schedule, one after the other. -/
def run (s : Engine) : List (Nat × Nat) → Option Engine
  | [] => some s
  | (i, j) :: schedule =>
    match step s i j with
    | some s1 => run s1 schedule
    | none => none

/-- The state after the launch loop: every worker is at the start of
`patient_thread`. -/
def engine_start (rp : ResourcePool) (launched : List WorkerArgs) : Engine :=
  { pool := rp,
    workers := launched.map (fun wa => { todo := patient_thread wa, blocked := false }) }

/-- The worker is at some point of `patient_thread`, and if it is blocked it
is at its `sem_wait`. -/
def worker_ok (w : Worker) : Prop :=
  ∃ wa k, w.todo = (patient_thread wa).drop k ∧ (w.blocked = true → k = 1)

/-- What holds in every state of a run whose semaphores were initialised to
`capacity`: every worker is at a point of `patient_thread`; for each
semaphore the units held and the value add up to the capacity; and workers
are blocked on a semaphore only while its value is 0. -/
def engine_inv (capacity : Resource → Nat) (s : Engine) : Prop :=
  (∀ w ∈ s.workers, worker_ok w) ∧
  ∀ res, holders s res + sem_value s.pool res = capacity res ∧
    (0 < blocked_count s res → sem_value s.pool res = 0)

/-- The capacity of a category as `resources_init` records it in the pool. -/
def capacity (rp : ResourcePool) : Resource → Int
  | .doctors => rp.num_doctors
  | .machines => rp.num_machines
  | .rooms => rp.num_rooms

/-- The pool `resources_init` makes for one doctor, one machine and one
room. -/
def pool_of_ones : ResourcePool :=
  { doctors := 1, machines := 1, rooms := 1, log_mutex := false,
    num_doctors := 1, num_machines := 1, num_rooms := 1,
    busy_doctors_ms := 0, busy_machines_ms := 0, busy_rooms_ms := 0 }

/-- The arguments of two workers that both serve a consultation. -/
def two_consultations : List WorkerArgs :=
  [{ patient := mkServicePatient ServiceType.SERVICE_CONSULTATION 0 5, fifo_fd := 3 },
   { patient := mkServicePatient ServiceType.SERVICE_CONSULTATION 0 7, fifo_fd := 3 }]

/-- The state of `two_consultations` on `pool_of_ones` in which the first
worker holds the doctor and the second is blocked in its `sem_wait`. -/
def second_worker_blocked : Engine :=
  { pool := { pool_of_ones with doctors := 0 },
    workers :=
      [{ todo := (patient_thread
            { patient := mkServicePatient ServiceType.SERVICE_CONSULTATION 0 5,
              fifo_fd := 3 }).drop 2,
         blocked := false },
       { todo := (patient_thread
            { patient := mkServicePatient ServiceType.SERVICE_CONSULTATION 0 7,
              fifo_fd := 3 }).drop 1,
         blocked := true }] }

/-! ## The `double` arithmetic of the averages (`scheduler.c`)

`compute_metrics` keeps its two totals and returns its two averages in
`double`. The definitions above give the totals and the quotients exactly;
the definitions here add the rounding of binary64 arithmetic (round to
nearest, ties to even), so that `compute_metrics_double` gives the two values
the C function returns. Every value that occurs is a natural number or a
quotient of two natural numbers between `2^-64` and `2^96`, far inside the
normal range of binary64, so overflow and subnormal numbers are not modelled. -/

/-- The binary64 value nearest to the natural number `k`: `k` itself below
`2^53`, and `k` rounded to 53 significant bits otherwise. It is the value of
the conversion `(double)k` and of a sum of two doubles whose exact sum is
`k`. -/
def round53 (k : Nat) : Nat :=
  if k < 2 ^ 53 then k
  else
    let dropped := Nat.log2 k - 52
    let q := k / 2 ^ dropped
    let r := k % 2 ^ dropped
    let m := if 2 * r < 2 ^ dropped then q
             else if 2 * r > 2 ^ dropped then q + 1
             else if q % 2 = 0 then q else q + 1
    m * 2 ^ dropped

/-- The scaling of a quotient `a / b` into the range of a 53-bit significand:
the result `(num, den, e)` has `a / b = (num / den) * 2^e` and
`2^52 <= num / den < 2^53`. The first argument bounds the number of
doublings. -/
def double_scale : Nat → Nat → Nat → Int → Nat × Nat × Int
  | 0, a, b, e => (a, b, e)
  | fuel + 1, a, b, e =>
    if a < 2 ^ 52 * b then double_scale fuel (2 * a) b (e - 1)
    else if 2 ^ 53 * b ≤ a then double_scale fuel a (2 * b) (e + 1)
    else (a, b, e)

/-- The significand and the exponent of the binary64 value nearest to
`a / b`, for positive `a` and `b`: the value is `significand * 2^exponent`. -/
def double_parts (a b : Nat) : Nat × Int :=
  let s := double_scale 2200 a b 0
  let q := s.1 / s.2.1
  let r := s.1 % s.2.1
  let m := if 2 * r < s.2.1 then q
           else if 2 * r > s.2.1 then q + 1
           else if q % 2 = 0 then q else q + 1
  (m, s.2.2)

/-- The division `a / b` of two doubles that hold the natural numbers `a` and
`b`, `b` positive: the binary64 value nearest to the quotient. (`compute_metrics`
divides only by a positive count.) -/
def double_div (a b : Nat) : ℚ :=
  if a = 0 ∨ b = 0 then 0
  else ((double_parts a b).1 : ℚ) * (2 : ℚ) ^ (double_parts a b).2

/-- One iteration of the non-preemptive loop with the rounding of its
`double` accumulators: `total_wait += waiting; total_turn += turnaround;`. -/
def np_step_double (s : NPState) (p : Patient) : NPState :=
  let b := np_body s.time p
  { time := b.time, total_wait := round53 (s.total_wait + b.waiting),
    total_turn := round53 (s.total_turn + b.turnaround) }

/-- The non-preemptive loop (`np_loop`) with the rounding of its `double`
accumulators. -/
def np_loop_double (list : PatientList) (order : List Nat) :
    Nat → Nat → NPState → Except Fault NPState
  | 0, _, s => .ok s
  | m + 1, k, s => do
    let i ← rd order k
    let p ← rd list i
    np_loop_double list order m (k + 1) (np_step_double s p)

/-- The summation loop after the Round-Robin simulation (`rr_totals`) with
the rounding of its `double` accumulators. -/
def rr_totals_double (arrival : List Nat) (s : RRState) :
    Nat → Nat → Nat × Nat → Except Fault (Nat × Nat)
  | 0, _, acc => .ok acc
  | m + 1, i, acc => do
    let f ← rd s.finish i
    let a ← rd arrival i
    let w ← rd s.waiting i
    let turnaround := usub f a
    rr_totals_double arrival s m (i + 1) (round53 (acc.1 + w), round53 (acc.2 + turnaround))

/-- The function `compute_metrics` with the rounding of its `double`
arithmetic: the two values it returns. The totals are accumulated in
`double`, the count is converted to `double`, and each average is the
rounded quotient. -/
def compute_metrics_double (fuel : Nat) (list : PatientList) (order : List Nat)
    (alg : Algorithm) (quantum_ms : Nat) : Except Fault ScheduleMetrics :=
  let n := list.length
  if n = 0 then .ok { avg_wait_ms := 0, avg_turnaround_ms := 0 }
  else if alg = ALG_RR then do
    let s ← rr_simulate fuel list order quantum_ms
    let t ← rr_totals_double (list.map (fun p => p.arrival_ms)) s n 0 (0, 0)
    pure { avg_wait_ms := double_div t.1 (round53 n),
           avg_turnaround_ms := double_div t.2 (round53 n) }
  else do
    let s ← np_loop_double list order n 0 { time := 0, total_wait := 0, total_turn := 0 }
    pure { avg_wait_ms := double_div s.total_wait (round53 n),
           avg_turnaround_ms := double_div s.total_turn (round53 n) }

/-- A request with only its scheduling fields set. -/
def mkPatient (arrival required : Nat) : Patient :=
  { id := 0, name := "", priority := 1, service := ServiceType.SERVICE_CONSULTATION,
    required_time_ms := required, arrival_ms := arrival }

/-! ## Sorting lemmas -/

theorem qsortInsert_perm (cmp : Nat → Nat → Int) (x : Nat) (l : List Nat) :
    (qsortInsert cmp x l).Perm (x :: l) := by
  induction l with
  | nil => simp [qsortInsert]
  | cons y ys ih =>
    unfold qsortInsert
    split
    · exact List.Perm.refl _
    · exact ((List.Perm.cons y ih).trans (List.Perm.swap x y ys))

theorem qsort_perm (cmp : Nat → Nat → Int) (l : List Nat) : (qsort cmp l).Perm l := by
  induction l with
  | nil => simp [qsort]
  | cons x xs ih =>
    unfold qsort
    exact (qsortInsert_perm cmp x _).trans (List.Perm.cons x ih)

theorem qsortInsert_pairwise (cmp : Nat → Nat → Int)
    (htot : ∀ a b, cmp a b ≤ 0 ∨ cmp b a ≤ 0)
    (htrans : ∀ a b c, cmp a b ≤ 0 → cmp b c ≤ 0 → cmp a c ≤ 0)
    (x : Nat) (l : List Nat) (hl : l.Pairwise (fun a b => cmp a b ≤ 0)) :
    (qsortInsert cmp x l).Pairwise (fun a b => cmp a b ≤ 0) := by
  induction l with
  | nil => simp [qsortInsert]
  | cons y ys ih =>
    rw [List.pairwise_cons] at hl
    unfold qsortInsert
    split
    · rename_i hxy
      refine List.pairwise_cons.mpr ⟨?_, List.pairwise_cons.mpr hl⟩
      intro b hb
      rcases List.mem_cons.mp hb with rfl | hb
      · exact hxy
      · exact htrans _ _ _ hxy (hl.1 b hb)
    · rename_i hxy
      have hyx : cmp y x ≤ 0 := (htot x y).resolve_left hxy
      refine List.pairwise_cons.mpr ⟨?_, ih hl.2⟩
      intro b hb
      rcases List.mem_cons.mp ((qsortInsert_perm cmp x ys).subset hb) with rfl | hb
      · exact hyx
      · exact hl.1 b hb

theorem qsort_pairwise (cmp : Nat → Nat → Int)
    (htot : ∀ a b, cmp a b ≤ 0 ∨ cmp b a ≤ 0)
    (htrans : ∀ a b c, cmp a b ≤ 0 → cmp b c ≤ 0 → cmp a c ≤ 0)
    (l : List Nat) : (qsort cmp l).Pairwise (fun a b => cmp a b ≤ 0) := by
  induction l with
  | nil => simp [qsort]
  | cons x xs ih =>
    unfold qsort
    exact qsortInsert_pairwise cmp htot htrans x _ ih

/-- The order all three comparators implement: by key, then by index. -/
theorem cmp_fcfs_le (ctx : PatientList) (a b : Nat) :
    cmp_fcfs ctx a b ≤ 0 ↔
      (item ctx a).arrival_ms < (item ctx b).arrival_ms ∨
      ((item ctx a).arrival_ms = (item ctx b).arrival_ms ∧ a ≤ b) := by
  unfold cmp_fcfs
  simp only []
  split_ifs <;> omega

theorem cmp_sjf_le (ctx : PatientList) (a b : Nat) :
    cmp_sjf ctx a b ≤ 0 ↔
      (item ctx a).required_time_ms < (item ctx b).required_time_ms ∨
      ((item ctx a).required_time_ms = (item ctx b).required_time_ms ∧ a ≤ b) := by
  unfold cmp_sjf
  simp only []
  split_ifs <;> omega

theorem cmp_priority_le (ctx : PatientList) (a b : Nat) :
    cmp_priority ctx a b ≤ 0 ↔
      (item ctx a).priority < (item ctx b).priority ∨
      ((item ctx a).priority = (item ctx b).priority ∧ a ≤ b) := by
  unfold cmp_priority
  simp only []
  split_ifs <;> omega

theorem cmp_fcfs_total (ctx : PatientList) (a b : Nat) :
    cmp_fcfs ctx a b ≤ 0 ∨ cmp_fcfs ctx b a ≤ 0 := by
  simp only [cmp_fcfs_le]; omega

theorem cmp_fcfs_trans (ctx : PatientList) (a b c : Nat) :
    cmp_fcfs ctx a b ≤ 0 → cmp_fcfs ctx b c ≤ 0 → cmp_fcfs ctx a c ≤ 0 := by
  simp only [cmp_fcfs_le]; omega

theorem cmp_sjf_total (ctx : PatientList) (a b : Nat) :
    cmp_sjf ctx a b ≤ 0 ∨ cmp_sjf ctx b a ≤ 0 := by
  simp only [cmp_sjf_le]; omega

theorem cmp_sjf_trans (ctx : PatientList) (a b c : Nat) :
    cmp_sjf ctx a b ≤ 0 → cmp_sjf ctx b c ≤ 0 → cmp_sjf ctx a c ≤ 0 := by
  simp only [cmp_sjf_le]; omega

theorem cmp_priority_total (ctx : PatientList) (a b : Nat) :
    cmp_priority ctx a b ≤ 0 ∨ cmp_priority ctx b a ≤ 0 := by
  simp only [cmp_priority_le]; omega

theorem cmp_priority_trans (ctx : PatientList) (a b c : Nat) :
    cmp_priority ctx a b ≤ 0 → cmp_priority ctx b c ≤ 0 → cmp_priority ctx a c ≤ 0 := by
  simp only [cmp_priority_le]; omega

/-- Whatever algorithm the library uses for `qsort`, with a comparator that
is antisymmetric the sorted rearrangement of a list is unique, so it is the
list `qsort` of this development returns. -/
theorem qsort_unique (cmp : Nat → Nat → Int)
    (htot : ∀ a b, cmp a b ≤ 0 ∨ cmp b a ≤ 0)
    (htrans : ∀ a b c, cmp a b ≤ 0 → cmp b c ≤ 0 → cmp a c ≤ 0)
    (hanti : ∀ a b, cmp a b ≤ 0 → cmp b a ≤ 0 → a = b)
    (l out : List Nat) (hperm : out.Perm l) (hsorted : out.Pairwise (fun a b => cmp a b ≤ 0)) :
    out = qsort cmp l :=
  @List.eq_of_perm_of_sorted Nat (fun a b => cmp a b ≤ 0) ⟨hanti⟩ out (qsort cmp l)
    (hperm.trans (qsort_perm cmp l).symm) hsorted (qsort_pairwise cmp htot htrans l)

theorem cmp_fcfs_antisymm (ctx : PatientList) (a b : Nat) :
    cmp_fcfs ctx a b ≤ 0 → cmp_fcfs ctx b a ≤ 0 → a = b := by
  simp only [cmp_fcfs_le]; omega

theorem cmp_sjf_antisymm (ctx : PatientList) (a b : Nat) :
    cmp_sjf ctx a b ≤ 0 → cmp_sjf ctx b a ≤ 0 → a = b := by
  simp only [cmp_sjf_le]; omega

theorem cmp_priority_antisymm (ctx : PatientList) (a b : Nat) :
    cmp_priority ctx a b ≤ 0 → cmp_priority ctx b a ≤ 0 → a = b := by
  simp only [cmp_priority_le]; omega

theorem qsort_cmp_fcfs_unique (ctx : PatientList) (l out : List Nat) (hperm : out.Perm l)
    (hsorted : out.Pairwise (fun a b => cmp_fcfs ctx a b ≤ 0)) :
    out = qsort (cmp_fcfs ctx) l :=
  qsort_unique _ (cmp_fcfs_total ctx) (cmp_fcfs_trans ctx) (cmp_fcfs_antisymm ctx) l out
    hperm hsorted

theorem qsort_cmp_sjf_unique (ctx : PatientList) (l out : List Nat) (hperm : out.Perm l)
    (hsorted : out.Pairwise (fun a b => cmp_sjf ctx a b ≤ 0)) :
    out = qsort (cmp_sjf ctx) l :=
  qsort_unique _ (cmp_sjf_total ctx) (cmp_sjf_trans ctx) (cmp_sjf_antisymm ctx) l out
    hperm hsorted

theorem qsort_cmp_priority_unique (ctx : PatientList) (l out : List Nat) (hperm : out.Perm l)
    (hsorted : out.Pairwise (fun a b => cmp_priority ctx a b ≤ 0)) :
    out = qsort (cmp_priority ctx) l :=
  qsort_unique _ (cmp_priority_total ctx) (cmp_priority_trans ctx)
    (cmp_priority_antisymm ctx) l out hperm hsorted

/-- The comparator `cmp_sjf` reads nothing but the required times: two lists
with the same required times give the same comparator. -/
theorem cmp_sjf_congr (l1 l2 : PatientList)
    (h : l2.map (fun p => p.required_time_ms) = l1.map (fun p => p.required_time_ms)) :
    cmp_sjf l2 = cmp_sjf l1 := by
  have hi : ∀ a, (item l2 a).required_time_ms = (item l1 a).required_time_ms := by
    intro a
    have e1 := @List.getD_map Patient Nat l1 default a (fun p => p.required_time_ms)
    have e2 := @List.getD_map Patient Nat l2 default a (fun p => p.required_time_ms)
    simp only [item]
    rw [← e1, ← e2, h]
  funext a b
  simp only [cmp_sjf, hi]

theorem schedule_order_perm (list : PatientList) (alg : Algorithm) (quantum_ms : Nat) :
    (schedule_order list alg quantum_ms).Perm (List.range list.length) := by
  unfold schedule_order
  simp only []
  split_ifs
  · exact qsort_perm _ _
  · exact qsort_perm _ _
  · exact qsort_perm _ _
  · exact qsort_perm _ _
  · exact List.Perm.refl _

/-- A duplicate-free list sorted by "key, then index not larger" is sorted by
"key not larger, and on equal keys index strictly smaller". -/
theorem pairwise_strict {K : Type} [LinearOrder K] (key : Nat → K) (l : List Nat)
    (hnd : l.Nodup)
    (hs : l.Pairwise (fun a b => key a < key b ∨ (key a = key b ∧ a ≤ b))) :
    l.Pairwise (fun a b => key a ≤ key b ∧ (key a = key b → a < b)) := by
  have h := List.Pairwise.and hs hnd
  refine h.imp ?_
  intro a b hab
  rcases hab with ⟨h1 | ⟨h1, h2⟩, hne⟩
  · exact ⟨le_of_lt h1, fun he => absurd he (ne_of_lt h1)⟩
  · exact ⟨le_of_eq h1, fun _ => lt_of_le_of_ne h2 hne⟩

theorem schedule_order_nodup (list : PatientList) (alg : Algorithm) (quantum_ms : Nat) :
    (schedule_order list alg quantum_ms).Nodup :=
  (schedule_order_perm list alg quantum_ms).nodup_iff.mpr (List.nodup_range _)

/-! ## The non-preemptive loop -/

theorem rd_ok {α : Type} (xs : List α) (i : Nat) (h : i < xs.length) :
    rd xs i = .ok (xs.get ⟨i, h⟩) := by
  simp [rd, List.getElem?_eq_getElem h]

theorem item_eq_get (list : PatientList) (i : Nat) (h : i < list.length) :
    item list i = list.get ⟨i, h⟩ := by
  simp [item, List.getD, List.getElem?_eq_getElem h]

theorem map_item_range (list : PatientList) :
    (List.range list.length).map (item list) = list := by
  apply List.ext_getElem
  · simp
  · intro i h1 h2
    simp [item, List.getD, List.getElem?_eq_getElem h2]

/-- Running `m` iterations of the non-preemptive loop from position
`pre.length` folds `np_step` over the next `m` requests of the order. -/
theorem np_loop_eq_foldl (list : PatientList) (order : List Nat) :
    ∀ (rest pre : List Nat) (m : Nat) (s : NPState), order = pre ++ rest →
      (∀ i ∈ rest, i < list.length) → m ≤ rest.length →
      np_loop list order m pre.length s
        = .ok (List.foldl np_step s ((rest.take m).map (item list))) := by
  intro rest
  induction rest with
  | nil =>
    intro pre m s _ _ hm
    have : m = 0 := by simpa using hm
    subst this
    simp [np_loop]
  | cons i rest ih =>
    intro pre m s ho hr hm
    cases m with
    | zero => simp [np_loop]
    | succ m =>
      have hi : i < list.length := hr i (List.mem_cons_self _ _)
      have hk : pre.length < order.length := by rw [ho]; simp
      have hget : order.get ⟨pre.length, hk⟩ = i := by
        subst ho; simp [List.getElem_append_right]
      have ih2 := ih (pre ++ [i]) m (np_step s (item list i)) (by simp [ho])
        (fun j hj => hr j (List.mem_cons_of_mem _ hj)) (by simpa using hm)
      simp only [List.length_append, List.length_singleton] at ih2
      unfold np_loop
      rw [rd_ok order _ hk, hget]
      simp only [bind, Except.bind]
      rw [rd_ok list _ hi]
      simp only [← item_eq_get list i hi]
      rw [ih2]
      simp

theorem np_foldl_totals (ps : List Patient) :
    ∀ s : NPState,
      (List.foldl np_step s ps).total_wait
          = s.total_wait + ((spec_cursor s.time ps).map Prod.fst).sum ∧
      (List.foldl np_step s ps).total_turn
          = s.total_turn + ((spec_cursor s.time ps).map Prod.snd).sum := by
  induction ps with
  | nil => intro s; simp [spec_cursor]
  | cons p ps ih =>
    intro s
    have h := ih (np_step s p)
    have ht : (np_step s p).time = (max s.time p.arrival_ms + p.required_time_ms) % 2 ^ 32 := by
      simp only [np_step, np_body, uadd, UINT_MOD]
      congr 2
      rw [max_def]; split_ifs <;> omega
    have hw : (np_step s p).total_wait
        = s.total_wait + (max s.time p.arrival_ms + 2 ^ 32 - p.arrival_ms) % 2 ^ 32 := by
      simp only [np_step, np_body, usub, UINT_MOD]
      congr 3
      rw [max_def]; split_ifs <;> omega
    have hu : (np_step s p).total_turn
        = s.total_turn + ((max s.time p.arrival_ms + p.required_time_ms) % 2 ^ 32
            + 2 ^ 32 - p.arrival_ms) % 2 ^ 32 := by
      simp only [np_step, np_body, usub, uadd, UINT_MOD]
      congr 6
      rw [max_def]; split_ifs <;> omega
    simp only [List.foldl_cons, spec_cursor, List.map_cons, List.sum_cons]
    rw [h.1, h.2, ht, hw, hu]
    constructor <;> ring

theorem compute_metrics_np_eq (fuel : Nat) (list : PatientList) (order : List Nat)
    (alg : Algorithm) (quantum_ms : Nat) (hn : list ≠ [])
    (hperm : order.Perm (List.range list.length)) (halg : alg ≠ ALG_RR) :
    compute_metrics fuel list order alg quantum_ms
      = .ok { avg_wait_ms :=
                ((List.foldl np_step { time := 0, total_wait := 0, total_turn := 0 }
                  (order.map (item list))).total_wait : ℚ) / (list.length : ℚ),
              avg_turnaround_ms :=
                ((List.foldl np_step { time := 0, total_wait := 0, total_turn := 0 }
                  (order.map (item list))).total_turn : ℚ) / (list.length : ℚ) } := by
  have hlen : order.length = list.length := by simpa using hperm.length_eq
  have hloop := np_loop_eq_foldl list order order [] list.length
    { time := 0, total_wait := 0, total_turn := 0 } (by simp)
    (fun i hi => List.mem_range.mp (hperm.subset hi)) (by omega)
  simp only [List.length_nil] at hloop
  rw [← hlen, List.take_length] at hloop
  unfold compute_metrics
  have hn0 : list.length ≠ 0 := by simpa using hn
  simp only [hn0, if_false, halg]
  rw [← hlen, hloop]
  rfl

theorem le_ideal_cursor (ps : List Patient) : ∀ t, t ≤ ideal_cursor t ps := by
  induction ps with
  | nil => intro t; simp [ideal_cursor]
  | cons p ps ih =>
    intro t
    have h := ih (max t p.arrival_ms + p.required_time_ms)
    have hm : t ≤ max t p.arrival_ms := le_max_left _ _
    simp only [ideal_cursor]
    omega

theorem ideal_cursor_append (ps qs : List Patient) :
    ∀ t, ideal_cursor t (ps ++ qs) = ideal_cursor (ideal_cursor t ps) qs := by
  induction ps with
  | nil => intro t; simp [ideal_cursor]
  | cons p ps ih => intro t; simp [ideal_cursor, ih]

theorem ideal_cursor_take_le (ps : List Patient) (k t : Nat) :
    ideal_cursor t (ps.take k) ≤ ideal_cursor t ps := by
  conv_rhs => rw [← List.take_append_drop k ps, ideal_cursor_append]
  exact le_ideal_cursor _ _

/-- The loop body when the cursor does not wrap: the request starts at
`max time arrival` and its turnaround is its waiting time plus its required
time. -/
theorem np_body_nowrap (time : Nat) (p : Patient)
    (h : max time p.arrival_ms + p.required_time_ms < UINT_MOD) :
    (np_body time p).time = max time p.arrival_ms + p.required_time_ms ∧
    (np_body time p).waiting = max time p.arrival_ms - p.arrival_ms ∧
    (np_body time p).turnaround = (np_body time p).waiting + p.required_time_ms := by
  have hm : p.arrival_ms ≤ max time p.arrival_ms := le_max_right _ _
  have he : (if p.arrival_ms > time then p.arrival_ms else time) = max time p.arrival_ms := by
    rw [max_def]; split_ifs <;> omega
  simp only [np_body, he, uadd, usub]
  have h1 : (max time p.arrival_ms + p.required_time_ms) % UINT_MOD
      = max time p.arrival_ms + p.required_time_ms := Nat.mod_eq_of_lt h
  have h2 : (max time p.arrival_ms + UINT_MOD - p.arrival_ms) % UINT_MOD
      = max time p.arrival_ms - p.arrival_ms := by
    have : max time p.arrival_ms + UINT_MOD - p.arrival_ms
        = (max time p.arrival_ms - p.arrival_ms) + UINT_MOD := by omega
    rw [this, Nat.add_mod_right]
    exact Nat.mod_eq_of_lt (by omega)
  have h3 : (max time p.arrival_ms + p.required_time_ms + UINT_MOD - p.arrival_ms) % UINT_MOD
      = max time p.arrival_ms - p.arrival_ms + p.required_time_ms := by
    have : max time p.arrival_ms + p.required_time_ms + UINT_MOD - p.arrival_ms
        = (max time p.arrival_ms - p.arrival_ms + p.required_time_ms) + UINT_MOD := by omega
    rw [this, Nat.add_mod_right]
    exact Nat.mod_eq_of_lt (by omega)
  rw [h1, h2, h3]
  exact ⟨rfl, rfl, rfl⟩

theorem np_foldl_nowrap (ps : List Patient) :
    ∀ s : NPState, ideal_cursor s.time ps < UINT_MOD →
      (List.foldl np_step s ps).time = ideal_cursor s.time ps ∧
      (List.foldl np_step s ps).total_turn + s.total_wait
        = (List.foldl np_step s ps).total_wait + s.total_turn
          + (ps.map (fun p => p.required_time_ms)).sum := by
  induction ps with
  | nil => intro s _; simp [ideal_cursor, Nat.add_comm]
  | cons p ps ih =>
    intro s h
    simp only [ideal_cursor] at h
    have hstep : max s.time p.arrival_ms + p.required_time_ms < UINT_MOD :=
      lt_of_le_of_lt (le_ideal_cursor ps _) h
    obtain ⟨b1, _, b3⟩ := np_body_nowrap s.time p hstep
    have ht : (np_step s p).time = max s.time p.arrival_ms + p.required_time_ms := by
      simp only [np_step]; exact b1
    have hw : (np_step s p).total_wait = s.total_wait + (np_body s.time p).waiting := rfl
    have hu : (np_step s p).total_turn = s.total_turn + (np_body s.time p).turnaround := rfl
    obtain ⟨i1, i2⟩ := ih (np_step s p) (by rw [ht]; exact h)
    simp only [List.foldl_cons, ideal_cursor, List.map_cons, List.sum_cons]
    refine ⟨by rw [i1, ht], ?_⟩
    rw [hw, hu, b3] at i2
    omega

theorem sum_required_perm (list : PatientList) (order : List Nat)
    (hperm : order.Perm (List.range list.length)) :
    ((order.map (item list)).map (fun p => p.required_time_ms)).sum
      = (list.map (fun p => p.required_time_ms)).sum := by
  have h1 : (order.map (item list)).Perm list := by
    have := hperm.map (item list)
    rwa [map_item_range] at this
  exact (h1.map _).sum_eq

theorem compute_metrics_np_of_loop (fuel : Nat) (list : PatientList) (order : List Nat)
    (alg : Algorithm) (quantum_ms : Nat) (s : NPState) (hn : list ≠ []) (halg : alg ≠ ALG_RR)
    (hs : np_loop list order list.length 0 { time := 0, total_wait := 0, total_turn := 0 }
      = .ok s) :
    compute_metrics fuel list order alg quantum_ms
      = .ok { avg_wait_ms := (s.total_wait : ℚ) / (list.length : ℚ),
              avg_turnaround_ms := (s.total_turn : ℚ) / (list.length : ℚ) } := by
  have hn0 : list.length ≠ 0 := by simpa using hn
  unfold compute_metrics
  simp only [hn0, if_false, halg, hs, bind, Except.bind]
  rfl

theorem nonpreemptive_ne_rr (alg : Algorithm)
    (halg : alg = ALG_FCFS ∨ alg = ALG_SJF ∨ alg = ALG_PRIORITY) : alg ≠ ALG_RR := by
  rcases halg with h | h | h <;> subst h <;> decide

/-- The state of the non-preemptive loop after its first `k` iterations, and
the cursor it has reached, when the cursor never wraps. -/
theorem np_loop_upto (list : PatientList) (order : List Nat) (k : Nat)
    (hperm : order.Perm (List.range list.length)) (hk : k ≤ list.length)
    (hno : ideal_cursor 0 (order.map (item list)) < UINT_MOD) :
    ∃ s, np_loop list order k 0 { time := 0, total_wait := 0, total_turn := 0 } = .ok s ∧
      s.time = ideal_cursor 0 ((order.map (item list)).take k) := by
  have hlen : order.length = list.length := by simpa using hperm.length_eq
  have hloop := np_loop_eq_foldl list order order [] k
    { time := 0, total_wait := 0, total_turn := 0 } (by simp)
    (fun i hi => List.mem_range.mp (hperm.subset hi)) (by omega)
  simp only [List.length_nil] at hloop
  refine ⟨_, hloop, ?_⟩
  rw [List.map_take]
  have hb : ideal_cursor 0 ((order.map (item list)).take k) < UINT_MOD :=
    lt_of_le_of_lt (ideal_cursor_take_le _ _ _) hno
  exact (np_foldl_nowrap _ { time := 0, total_wait := 0, total_turn := 0 } hb).1

/-! ## The Round-Robin simulation -/

theorem compute_metrics_rr_eq (fuel : Nat) (list : PatientList) (order : List Nat)
    (quantum_ms : Nat) (s : RRState) (t : Nat × Nat) (hn : list ≠ [])
    (hs : rr_simulate fuel list order quantum_ms = .ok s)
    (ht : rr_totals (list.map (fun p => p.arrival_ms)) s list.length 0 (0, 0) = .ok t) :
    compute_metrics fuel list order ALG_RR quantum_ms
      = .ok { avg_wait_ms := (t.1 : ℚ) / (list.length : ℚ),
              avg_turnaround_ms := (t.2 : ℚ) / (list.length : ℚ) } := by
  have hn0 : list.length ≠ 0 := by simpa using hn
  unfold compute_metrics
  simp only [hn0, if_false, if_true, hs, bind, Except.bind, ht]
  rfl

theorem compute_metrics_rr_error (fuel : Nat) (list : PatientList) (order : List Nat)
    (quantum_ms : Nat) (e : Fault) (hn : list ≠ [])
    (hs : rr_simulate fuel list order quantum_ms = .error e) :
    compute_metrics fuel list order ALG_RR quantum_ms = .error e := by
  have hn0 : list.length ≠ 0 := by simpa using hn
  unfold compute_metrics
  simp only [hn0, if_false, if_true, hs, bind, Except.bind]

/-- With a request of required time 0 the loop never gets past the state the
first pass leaves: every later pass dequeues the stale slot, finds
`remaining == 0` and continues, only `qcount` changing. -/
theorem rr_loop_zero_required_stuck (fuel : Nat) : ∀ qc : Nat,
    rr_loop 1 1 [0] [0] fuel
      { remaining := [0], finish := [0], waiting := [0], queue := [some 0], head := 0,
        tail := 0, qcount := qc, time := 0, completed := 0, next_arrival := 1 }
      = .error .outOfFuel := by
  induction fuel with
  | zero => intro qc; simp [rr_loop]
  | succ fuel ih =>
    intro qc
    have h := ih ((qc + SIZE_MOD - 1) % SIZE_MOD)
    simp [rr_loop, rr_iter, rr_admit, rdq, rd, bind, Except.bind, pure, Except.pure]
    exact h

theorem rr_simulate_zero_required (fuel : Nat) :
    rr_simulate fuel [mkPatient 0 0] [0] 1 = .error .outOfFuel := by
  cases fuel with
  | zero => rfl
  | succ fuel =>
    have h := rr_loop_zero_required_stuck fuel 0
    simp [rr_simulate, rr_arrival_order, qsort, qsortInsert, mkPatient, rr_loop, rr_iter,
      rr_admit, rr_enqueue, rdq, rd, bind, Except.bind, pure, Except.pure, SIZE_MOD]
    simpa [SIZE_MOD] using h

/-- With quantum 0 every pass takes a slice of length 0 and puts the request
back: the state after the first pass is reproduced by every later pass. -/
theorem rr_loop_zero_quantum_stuck (fuel : Nat) :
    rr_loop 1 0 [0] [0] fuel
      { remaining := [1], finish := [0], waiting := [0], queue := [some 0], head := 0,
        tail := 0, qcount := 1, time := 0, completed := 0, next_arrival := 1 }
      = .error .outOfFuel := by
  induction fuel with
  | zero => simp [rr_loop]
  | succ fuel ih =>
    simp [rr_loop, rr_iter, rr_admit, rr_wait_others, rr_enqueue, rdq, rd, uadd, bind,
      Except.bind, pure, Except.pure, SIZE_MOD, UINT_MOD]
    simpa [SIZE_MOD] using ih

theorem rr_simulate_zero_quantum (fuel : Nat) :
    rr_simulate fuel [mkPatient 0 1] [0] 0 = .error .outOfFuel := by
  cases fuel with
  | zero => rfl
  | succ fuel =>
    have h := rr_loop_zero_quantum_stuck fuel
    simp [rr_simulate, rr_arrival_order, qsort, qsortInsert, mkPatient, rr_loop, rr_iter,
      rr_admit, rr_wait_others, rr_enqueue, rdq, rd, uadd, bind, Except.bind, pure,
      Except.pure, SIZE_MOD, UINT_MOD]
    simpa [SIZE_MOD] using h

/-! ## Scheduler: order of service -/

/-- C1: for every request list and every algorithm value (in particular for
every non-empty list and each of FCFS, SJF, Priority and Round-Robin),
`schedule_order` returns a sequence of length `n` in which every index of
`[0, n)` occurs exactly once: a permutation of `[0, n)`. -/
theorem schedule_order_is_permutation (list : PatientList) (alg : Algorithm) (quantum_ms : Nat) :
    (schedule_order list alg quantum_ms).length = list.length ∧
    (∀ i, i < list.length → (schedule_order list alg quantum_ms).count i = 1) ∧
    (schedule_order list alg quantum_ms).Perm (List.range list.length) := by
  have hp := schedule_order_perm list alg quantum_ms
  refine ⟨by simpa using hp.length_eq, ?_, hp⟩
  intro i hi
  rw [hp.count_eq]
  exact List.count_eq_one_of_mem (List.nodup_range _) (List.mem_range.mpr hi)

/-- C2: with FCFS, `schedule_order` lists the indices by non-decreasing
`arrival_ms`, and of two indices with equal `arrival_ms` the smaller index
comes first. -/
theorem schedule_order_fcfs_sorted (list : PatientList) (quantum_ms : Nat) :
    (schedule_order list ALG_FCFS quantum_ms).Pairwise
      (fun a b => (item list a).arrival_ms ≤ (item list b).arrival_ms ∧
        ((item list a).arrival_ms = (item list b).arrival_ms → a < b)) := by
  apply pairwise_strict (fun i => (item list i).arrival_ms) _ (schedule_order_nodup _ _ _)
  have h := qsort_pairwise (cmp_fcfs list) (cmp_fcfs_total list) (cmp_fcfs_trans list)
    (List.range list.length)
  simp only [cmp_fcfs_le] at h
  simpa [schedule_order] using h

/-- C3: with SJF, `schedule_order` lists the indices by non-decreasing
`required_time_ms`, and of two indices with equal `required_time_ms` the
smaller index comes first; arrival times play no role: any list with the same
required times gets the same order. -/
theorem schedule_order_sjf_sorted (list : PatientList) (quantum_ms : Nat) :
    (schedule_order list ALG_SJF quantum_ms).Pairwise
      (fun a b => (item list a).required_time_ms ≤ (item list b).required_time_ms ∧
        ((item list a).required_time_ms = (item list b).required_time_ms → a < b)) ∧
    ∀ (other : PatientList) (q : Nat),
      other.map (fun p => p.required_time_ms) = list.map (fun p => p.required_time_ms) →
      schedule_order other ALG_SJF q = schedule_order list ALG_SJF quantum_ms := by
  constructor
  · apply pairwise_strict (fun i => (item list i).required_time_ms) _
      (schedule_order_nodup _ _ _)
    have h := qsort_pairwise (cmp_sjf list) (cmp_sjf_total list) (cmp_sjf_trans list)
      (List.range list.length)
    simp only [cmp_sjf_le] at h
    simpa [schedule_order] using h
  · intro other q h
    have hl : other.length = list.length := by simpa using congrArg List.length h
    simp [schedule_order, cmp_sjf_congr list other h, hl]

/-- C4: with Priority, `schedule_order` lists the indices by non-decreasing
priority value (priority 1 is served first), and of two indices with equal
priority the smaller index comes first. -/
theorem schedule_order_priority_sorted (list : PatientList) (quantum_ms : Nat) :
    (schedule_order list ALG_PRIORITY quantum_ms).Pairwise
      (fun a b => (item list a).priority ≤ (item list b).priority ∧
        ((item list a).priority = (item list b).priority → a < b)) := by
  apply pairwise_strict (fun i => (item list i).priority) _ (schedule_order_nodup _ _ _)
  have h := qsort_pairwise (cmp_priority list) (cmp_priority_total list)
    (cmp_priority_trans list) (List.range list.length)
  simp only [cmp_priority_le] at h
  simpa [schedule_order] using h

/-- C5: for FCFS, SJF and Priority, a non-empty list and an order that is a
permutation of `[0, n)`, `compute_metrics` returns the sum of the waiting
times and the sum of the turnarounds of the specified cursor, each divided by
`n`. -/
theorem compute_metrics_nonpreemptive_spec (fuel : Nat) (list : PatientList)
    (order : List Nat) (alg : Algorithm) (quantum_ms : Nat)
    (hn : 0 < list.length) (hperm : order.Perm (List.range list.length))
    (halg : alg = ALG_FCFS ∨ alg = ALG_SJF ∨ alg = ALG_PRIORITY) :
    compute_metrics fuel list order alg quantum_ms
      = .ok { avg_wait_ms :=
                ((((spec_cursor 0 (order.map (item list))).map Prod.fst).sum : Nat) : ℚ)
                  / (list.length : ℚ),
              avg_turnaround_ms :=
                ((((spec_cursor 0 (order.map (item list))).map Prod.snd).sum : Nat) : ℚ)
                  / (list.length : ℚ) } := by
  have hne : list ≠ [] := List.length_pos.mp hn
  rw [compute_metrics_np_eq fuel list order alg quantum_ms hne hperm (nonpreemptive_ne_rr alg halg)]
  obtain ⟨h1, h2⟩ := np_foldl_totals (order.map (item list))
    { time := 0, total_wait := 0, total_turn := 0 }
  rw [h1, h2]
  simp

theorem compute_metrics_nonpreemptive_spec_witness :
    0 < [mkPatient 0 100, mkPatient 0 200, mkPatient 50 50].length ∧
    compute_metrics 0 [mkPatient 0 100, mkPatient 0 200, mkPatient 50 50] [2, 0, 1] ALG_SJF 3
      = .ok { avg_wait_ms :=
                ((((spec_cursor 0 ([2, 0, 1].map
                  (item [mkPatient 0 100, mkPatient 0 200, mkPatient 50 50]))).map
                    Prod.fst).sum : Nat) : ℚ)
                  / (([mkPatient 0 100, mkPatient 0 200, mkPatient 50 50].length : Nat) : ℚ),
              avg_turnaround_ms :=
                ((((spec_cursor 0 ([2, 0, 1].map
                  (item [mkPatient 0 100, mkPatient 0 200, mkPatient 50 50]))).map
                    Prod.snd).sum : Nat) : ℚ)
                  / (([mkPatient 0 100, mkPatient 0 200, mkPatient 50 50].length : Nat) : ℚ) } :=
  ⟨by decide,
   compute_metrics_nonpreemptive_spec 0 [mkPatient 0 100, mkPatient 0 200, mkPatient 50 50]
     [2, 0, 1] ALG_SJF 3 (by decide) (by decide) (Or.inr (Or.inl rfl))⟩

/-! ## Metrics: turnaround, waiting and termination -/

/-- C7 (defect in the code): requests R0 (arrival 0, required 10) and R1
(arrival 5, required 10) with quantum 10. R1 arrives while R0 is served and
is admitted only after the slice, so nothing is added to `waiting[1]`: the
simulation ends with `finish = [10, 20]` and `waiting = [0, 0]`, and the
turnaround of R1, `20 - 5 = 15`, is not `waiting[1] + required = 10`. -/
theorem rr_turnaround_ne_wait_add_required :
    ∃ s, rr_simulate 2 [mkPatient 0 10, mkPatient 5 10]
        (schedule_order [mkPatient 0 10, mkPatient 5 10] ALG_RR 10) 10 = .ok s ∧
      s.finish = [10, 20] ∧ s.waiting = [0, 0] ∧
      usub (s.finish.getD 1 0) (mkPatient 5 10).arrival_ms
        ≠ s.waiting.getD 1 0 + (mkPatient 5 10).required_time_ms :=
  ⟨_, rfl, rfl, rfl, by decide⟩

/-- C8 (defect in the code): for R0 (arrival 0, required 10) and R1 (arrival
5, required 10) the quantum 10 is the maximum required time, yet Round-Robin
reports an average wait of 0 where FCFS on the FCFS order reports 5/2; the
average turnaround is 25/2 in both. -/
theorem rr_large_quantum_differs_from_fcfs :
    compute_metrics 2 [mkPatient 0 10, mkPatient 5 10]
        (schedule_order [mkPatient 0 10, mkPatient 5 10] ALG_RR 10) ALG_RR 10
      = .ok { avg_wait_ms := 0, avg_turnaround_ms := 25 / 2 } ∧
    compute_metrics 2 [mkPatient 0 10, mkPatient 5 10]
        (schedule_order [mkPatient 0 10, mkPatient 5 10] ALG_FCFS 10) ALG_FCFS 10
      = .ok { avg_wait_ms := 5 / 2, avg_turnaround_ms := 25 / 2 } := by
  constructor
  · have hs : rr_simulate 2 [mkPatient 0 10, mkPatient 5 10]
        (schedule_order [mkPatient 0 10, mkPatient 5 10] ALG_RR 10) 10
        = .ok { remaining := [0, 0], finish := [10, 20], waiting := [0, 0],
                queue := [some 0, some 1], head := 0, tail := 0, qcount := 0,
                time := 20, completed := 2, next_arrival := 2 } := rfl
    rw [compute_metrics_rr_eq 2 _ _ 10 _ (0, 25) (by decide) hs rfl]
    norm_num
  · have hs : np_loop [mkPatient 0 10, mkPatient 5 10]
        (schedule_order [mkPatient 0 10, mkPatient 5 10] ALG_FCFS 10)
        [mkPatient 0 10, mkPatient 5 10].length 0
        { time := 0, total_wait := 0, total_turn := 0 }
        = .ok { time := 20, total_wait := 5, total_turn := 25 } := rfl
    rw [compute_metrics_np_of_loop 2 _ _ ALG_FCFS 10 _ (by decide) (by decide) hs]
    norm_num

/-- C9 (defect in the code): a single request with required time 0 and
quantum 1. The request is dequeued, skipped as "already completed" and never
counted in `completed`, so the loop `while (completed < n)` does not end:
whatever the number of passes allowed, the simulation is still running. -/
theorem rr_zero_required_time_never_terminates (fuel : Nat) :
    rr_simulate fuel [mkPatient 0 0] (schedule_order [mkPatient 0 0] ALG_RR 1) 1
      = .error .outOfFuel ∧
    compute_metrics fuel [mkPatient 0 0] (schedule_order [mkPatient 0 0] ALG_RR 1) ALG_RR 1
      = .error .outOfFuel :=
  ⟨rr_simulate_zero_required fuel,
   compute_metrics_rr_error fuel _ _ 1 _ (by decide) (rr_simulate_zero_required fuel)⟩

/-- C10 (defect in the code): a single request with required time 1 and
quantum 0. No clamp is applied: every slice has length 0, the request is put
back in the queue with its remaining time unchanged, and the loop does not
end, whatever the number of passes allowed. -/
theorem rr_zero_quantum_never_terminates (fuel : Nat) :
    rr_simulate fuel [mkPatient 0 1] (schedule_order [mkPatient 0 1] ALG_RR 0) 0
      = .error .outOfFuel ∧
    compute_metrics fuel [mkPatient 0 1] (schedule_order [mkPatient 0 1] ALG_RR 0) ALG_RR 0
      = .error .outOfFuel :=
  ⟨rr_simulate_zero_quantum fuel,
   compute_metrics_rr_error fuel _ _ 0 _ (by decide) (rr_simulate_zero_quantum fuel)⟩

/-! ## Round-Robin: the order argument and the iteration budget -/

/-- The comparator `cmp_fcfs` reads nothing but the arrival times. -/
theorem cmp_fcfs_congr (l1 l2 : PatientList)
    (h : l2.map (fun p => p.arrival_ms) = l1.map (fun p => p.arrival_ms)) :
    cmp_fcfs l2 = cmp_fcfs l1 := by
  have hi : ∀ a, (item l2 a).arrival_ms = (item l1 a).arrival_ms := by
    intro a
    have e1 := @List.getD_map Patient Nat l1 default a (fun p => p.arrival_ms)
    have e2 := @List.getD_map Patient Nat l2 default a (fun p => p.arrival_ms)
    simp only [item]
    rw [← e1, ← e2, h]
  funext a b
  simp only [cmp_fcfs, hi]

/-- For an order that is a permutation of `[0, n)` the sorted copy made by
the Round-Robin branch is the FCFS order, whatever the permutation. -/
theorem rr_arrival_order_of_perm (list : PatientList) (order : List Nat)
    (hperm : order.Perm (List.range list.length)) :
    rr_arrival_order list order = .ok (qsort (cmp_fcfs list) (List.range list.length)) := by
  have hlen : order.length = list.length := by simpa using hperm.length_eq
  have htake : order.take list.length = order := by rw [← hlen, List.take_length]
  have hall : order.all (fun i => decide (i < list.length)) = true := by
    rw [List.all_eq_true]
    intro i hi
    simpa using List.mem_range.mp (hperm.subset hi)
  have hq : qsort (cmp_fcfs list) order = qsort (cmp_fcfs list) (List.range list.length) :=
    qsort_cmp_fcfs_unique list _ _ ((qsort_perm _ _).trans hperm)
      (qsort_pairwise _ (cmp_fcfs_total list) (cmp_fcfs_trans list) _)
  unfold rr_arrival_order
  simp only [htake, hall, hlen, le_refl, and_self, if_true, hq]

theorem rr_simulate_congr (fuel : Nat) (l1 l2 : PatientList) (o1 o2 : List Nat)
    (quantum_ms : Nat)
    (h1 : o1.Perm (List.range l1.length)) (h2 : o2.Perm (List.range l2.length))
    (ha : l2.map (fun p => p.arrival_ms) = l1.map (fun p => p.arrival_ms))
    (hr : l2.map (fun p => p.required_time_ms) = l1.map (fun p => p.required_time_ms)) :
    rr_simulate fuel l2 o2 quantum_ms = rr_simulate fuel l1 o1 quantum_ms := by
  have hl : l2.length = l1.length := by simpa using congrArg List.length ha
  unfold rr_simulate
  simp only [rr_arrival_order_of_perm l1 o1 h1, rr_arrival_order_of_perm l2 o2 h2, ha, hr, hl,
    cmp_fcfs_congr l1 l2 ha]

theorem compute_metrics_rr_congr (fuel : Nat) (l1 l2 : PatientList) (o1 o2 : List Nat)
    (quantum_ms : Nat)
    (h1 : o1.Perm (List.range l1.length)) (h2 : o2.Perm (List.range l2.length))
    (ha : l2.map (fun p => p.arrival_ms) = l1.map (fun p => p.arrival_ms))
    (hr : l2.map (fun p => p.required_time_ms) = l1.map (fun p => p.required_time_ms)) :
    compute_metrics fuel l2 o2 ALG_RR quantum_ms = compute_metrics fuel l1 o1 ALG_RR quantum_ms := by
  have hl : l2.length = l1.length := by simpa using congrArg List.length ha
  unfold compute_metrics
  simp only [rr_simulate_congr fuel l1 l2 o1 o2 quantum_ms h1 h2 ha hr, ha, hl, if_true]

/-- More passes do not change the result of a Round-Robin loop that has
ended. -/
theorem rr_loop_fuel_mono (n quantum_ms : Nat) (arrival arrival_order : List Nat)
    (fuel : Nat) : ∀ (extra : Nat) (s r : RRState),
      rr_loop n quantum_ms arrival arrival_order fuel s = .ok r →
      rr_loop n quantum_ms arrival arrival_order (fuel + extra) s = .ok r := by
  induction fuel with
  | zero =>
    intro extra s r h
    simp only [rr_loop] at h
    split_ifs at h with hc
    cases extra with
    | zero => simp [rr_loop, hc, h]
    | succ e => simp only [Nat.zero_add, rr_loop, hc, if_false]; exact h
  | succ fuel ih =>
    intro extra s r h
    have he : fuel + 1 + extra = (fuel + extra) + 1 := by omega
    rw [he]
    simp only [rr_loop] at h ⊢
    split_ifs at h ⊢ with hc
    · cases hi : rr_iter n quantum_ms arrival arrival_order s with
      | error e => rw [hi] at h; simp [bind, Except.bind] at h
      | ok s1 =>
        rw [hi] at h
        simp only [bind, Except.bind] at h ⊢
        exact ih extra s1 r h
    · exact h

theorem rr_simulate_fuel_mono (fuel extra : Nat) (list : PatientList) (order : List Nat)
    (quantum_ms : Nat) (r : RRState)
    (h : rr_simulate fuel list order quantum_ms = .ok r) :
    rr_simulate (fuel + extra) list order quantum_ms = .ok r := by
  unfold rr_simulate at h ⊢
  cases ho : rr_arrival_order list order with
  | error e => rw [ho] at h; simp [bind, Except.bind] at h
  | ok ao =>
    rw [ho] at h
    simp only [bind, Except.bind] at h ⊢
    split_ifs at h ⊢ with hn
    · cases h0 : rd ao 0 with
      | error e => rw [h0] at h; simp at h
      | ok v =>
        rw [h0] at h
        simp only at h ⊢
        cases h1 : rd (List.map (fun p => p.arrival_ms) list) v with
        | error e => rw [h1] at h; simp at h
        | ok a =>
          rw [h1] at h
          simp only at h ⊢
          exact rr_loop_fuel_mono _ _ _ _ fuel extra _ r h
    · simp only [pure, Except.pure] at h ⊢
      exact rr_loop_fuel_mono _ _ _ _ fuel extra _ r h

/-! ## The timeline of the non-preemptive algorithms -/

/-- The non-preemptive loop of `build_timeline`, run from position
`pre.length` for `m` iterations within the capacity, appends the slices of
the next `m` requests of the order. -/
theorem tl_np_loop_eq_slices (list : PatientList) (order : List Nat) (cap : Nat) :
    ∀ (rest pre : List Nat) (m time : Nat) (slices : List Slice), order = pre ++ rest →
      (∀ i ∈ rest, i < list.length) → m ≤ rest.length → slices.length + m ≤ cap →
      tl_np_loop list order cap m pre.length time slices
        = .ok (slices ++ tl_np_slices list time (rest.take m)) := by
  intro rest
  induction rest with
  | nil =>
    intro pre m time slices _ _ hm _
    have : m = 0 := by simpa using hm
    subst this
    simp [tl_np_loop, tl_np_slices]
  | cons i rest ih =>
    intro pre m time slices ho hr hm hcap
    cases m with
    | zero => simp [tl_np_loop, tl_np_slices]
    | succ m =>
      have hi : i < list.length := hr i (List.mem_cons_self _ _)
      have hk : pre.length < order.length := by rw [ho]; simp
      have hget : order.get ⟨pre.length, hk⟩ = i := by
        subst ho; simp [List.getElem_append_right]
      have hlt : slices.length < cap := by omega
      have ih2 := ih (pre ++ [i]) m (uadd (np_start time (item list i))
          (item list i).required_time_ms)
        (slices ++ [{ idx := i, start_ms := np_start time (item list i),
                      end_ms := uadd (np_start time (item list i))
                        (item list i).required_time_ms }])
        (by simp [ho]) (fun j hj => hr j (List.mem_cons_of_mem _ hj)) (by simpa using hm)
        (by simp; omega)
      simp only [List.length_append, List.length_singleton] at ih2
      unfold tl_np_loop
      rw [rd_ok order _ hk, hget]
      simp only [hlt, if_true, bind, Except.bind]
      rw [rd_ok list _ hi]
      simp only [← item_eq_get list i hi]
      have e : (if (item list i).arrival_ms > time then (item list i).arrival_ms else time)
          = np_start time (item list i) := rfl
      rw [e, ih2]
      simp [tl_np_slices]

theorem build_timeline_np_eq (fuel : Nat) (list : PatientList) (alg : Algorithm)
    (quantum_ms : Nat) (halg : alg ≠ ALG_RR) :
    build_timeline fuel list alg quantum_ms
      = .ok (tl_np_slices list 0 (schedule_order list alg quantum_ms)) := by
  have hperm := schedule_order_perm list alg quantum_ms
  have hlen : (schedule_order list alg quantum_ms).length = list.length := by
    simpa using hperm.length_eq
  unfold build_timeline
  by_cases hn : list.length = 0
  · have hl : list = [] := List.length_eq_zero.mp hn
    subst hl
    have : schedule_order [] alg quantum_ms = [] := List.length_eq_zero.mp (by simpa using hlen)
    simp [this, tl_np_slices]
  · have h := tl_np_loop_eq_slices list (schedule_order list alg quantum_ms) list.length
      (schedule_order list alg quantum_ms) [] list.length 0 [] (by simp)
      (fun i hi => List.mem_range.mp (hperm.subset hi)) (by omega) (by simp)
    simp only [List.length_nil, List.nil_append] at h
    rw [← hlen, List.take_length, hlen] at h
    simp only [hn, if_false, halg, h]

theorem tl_np_slices_length (list : PatientList) (is : List Nat) :
    ∀ time, (tl_np_slices list time is).length = is.length := by
  induction is with
  | nil => intro time; simp [tl_np_slices]
  | cons i is ih => intro time; simp [tl_np_slices, ih]

theorem tl_np_slices_idx (list : PatientList) (is : List Nat) :
    ∀ time, (tl_np_slices list time is).map Slice.idx = is := by
  induction is with
  | nil => intro time; simp [tl_np_slices]
  | cons i is ih => intro time; simp [tl_np_slices, ih]

theorem np_start_ge_arrival (time : Nat) (p : Patient) : p.arrival_ms ≤ np_start time p := by
  unfold np_start; split_ifs <;> omega

theorem np_start_ge_time (time : Nat) (p : Patient) : time ≤ np_start time p := by
  unfold np_start; split_ifs <;> omega

theorem tl_np_slices_after_arrival (list : PatientList) (is : List Nat) :
    ∀ time, ∀ x ∈ tl_np_slices list time is, (item list x.idx).arrival_ms ≤ x.start_ms := by
  induction is with
  | nil => intro time x hx; simp [tl_np_slices] at hx
  | cons i is ih =>
    intro time x hx
    simp only [tl_np_slices, List.mem_cons] at hx
    rcases hx with rfl | hx
    · exact np_start_ge_arrival _ _
    · exact ih _ x hx

theorem tl_np_slices_chain (list : PatientList) (is : List Nat) :
    ∀ (time : Nat) (idx start : Nat),
      List.Chain (fun a b : Slice => a.end_ms ≤ b.start_ms)
        { idx := idx, start_ms := start, end_ms := time } (tl_np_slices list time is) := by
  induction is with
  | nil => intro time idx start; simp [tl_np_slices]
  | cons i is ih =>
    intro time idx start
    simp only [tl_np_slices]
    exact List.Chain.cons (np_start_ge_time _ _) (ih _ _ _)

theorem tl_np_slices_chain_self (list : PatientList) (is : List Nat) (time : Nat) :
    List.Chain' (fun a b : Slice => a.end_ms ≤ b.start_ms) (tl_np_slices list time is) := by
  cases is with
  | nil => simp [tl_np_slices]
  | cons i is =>
    simp only [tl_np_slices, List.Chain']
    exact tl_np_slices_chain list is _ _ _

/-- The `k`-th slice of the timeline is computed from the cursor the
non-preemptive loop of `compute_metrics` has reached after `k` iterations. -/
theorem tl_np_slices_get (list : PatientList) (is : List Nat) :
    ∀ (k : Nat) (s : NPState), k < is.length →
      (tl_np_slices list s.time is)[k]?
        = some { idx := is.getD k 0,
                 start_ms := np_start (List.foldl np_step s ((is.take k).map (item list))).time
                   (item list (is.getD k 0)),
                 end_ms := (np_body (List.foldl np_step s ((is.take k).map (item list))).time
                   (item list (is.getD k 0))).time } := by
  induction is with
  | nil => intro k s hk; simp at hk
  | cons i is ih =>
    intro k s hk
    cases k with
    | zero => simp [tl_np_slices, np_body, np_start]
    | succ k =>
      have h := ih k (np_step s (item list i)) (by simpa using hk)
      have ht : (np_step s (item list i)).time
          = uadd (np_start s.time (item list i)) (item list i).required_time_ms := rfl
      rw [ht] at h
      simp only [tl_np_slices, List.getElem?_cons_succ, List.take_succ_cons, List.map_cons,
        List.foldl_cons, List.getD_cons_succ]
      rw [h]

/-- The states of the non-preemptive loop of `compute_metrics` before and
after its iteration `k`: the second is one `np_step` after the first. -/
theorem np_loop_step (list : PatientList) (order : List Nat) (k : Nat)
    (hperm : order.Perm (List.range list.length)) (hk : k < list.length) :
    np_loop list order k 0 { time := 0, total_wait := 0, total_turn := 0 }
      = .ok (List.foldl np_step { time := 0, total_wait := 0, total_turn := 0 }
          ((order.take k).map (item list))) ∧
    np_loop list order (k + 1) 0 { time := 0, total_wait := 0, total_turn := 0 }
      = .ok (np_step (List.foldl np_step { time := 0, total_wait := 0, total_turn := 0 }
          ((order.take k).map (item list))) (item list (order.getD k 0))) := by
  have hlen : order.length = list.length := by simpa using hperm.length_eq
  have hko : k < order.length := by omega
  have h1 := np_loop_eq_foldl list order order [] k
    { time := 0, total_wait := 0, total_turn := 0 } (by simp)
    (fun i hi => List.mem_range.mp (hperm.subset hi)) (by omega)
  have h2 := np_loop_eq_foldl list order order [] (k + 1)
    { time := 0, total_wait := 0, total_turn := 0 } (by simp)
    (fun i hi => List.mem_range.mp (hperm.subset hi)) (by omega)
  simp only [List.length_nil] at h1 h2
  refine ⟨h1, ?_⟩
  have e : (order.take (k + 1)).map (item list)
      = (order.take k).map (item list) ++ [item list (order.getD k 0)] := by
    have hg : order.getD k 0 = order[k] := by
      simp [List.getD, List.getElem?_eq_getElem hko]
    rw [List.take_succ, List.getElem?_eq_getElem hko, hg]
    simp only [Option.toList, List.map_append, List.map_cons, List.map_nil]
  rw [h2, e, List.foldl_append]
  rfl

/-! ## Busy-time accumulators -/

/-- The required times of the requests of `ps` that belong to the category
`c`, added up. -/
theorem sum_required_le (ps : List Patient) (c : ServiceType)
    (hreq : ∀ p ∈ ps, p.required_time_ms < UINT_MOD) :
    ((ps.filter (fun p => decide (p.service = c))).map (fun p => p.required_time_ms)).sum
      ≤ ps.length * (UINT_MOD - 1) := by
  induction ps with
  | nil => simp
  | cons p ps ih =>
    have h1 := ih (fun q hq => hreq q (List.mem_cons_of_mem _ hq))
    have h2 := hreq p (List.mem_cons_self _ _)
    simp only [List.filter_cons, List.length_cons]
    split_ifs
    · simp only [List.map_cons, List.sum_cons]
      rw [Nat.add_mul]
      omega
    · rw [Nat.add_mul]
      omega

/-- After the updates of the requests `ps` each accumulator holds its old
value plus the required times of the requests of its category, reduced
modulo `2 ^ 64`; nothing else in the pool changes. -/
theorem accumulate_foldl (ps : List Patient) : ∀ rp : ResourcePool,
    rp.busy_doctors_ms < ULLONG_MOD → rp.busy_machines_ms < ULLONG_MOD →
    rp.busy_rooms_ms < ULLONG_MOD →
    (List.foldl patient_thread_accumulate rp ps).busy_doctors_ms
      = (rp.busy_doctors_ms
          + ((ps.filter (fun p => decide (p.service = ServiceType.SERVICE_CONSULTATION))).map
              (fun p => p.required_time_ms)).sum) % ULLONG_MOD ∧
    (List.foldl patient_thread_accumulate rp ps).busy_machines_ms
      = (rp.busy_machines_ms
          + ((ps.filter (fun p => decide (p.service = ServiceType.SERVICE_LAB_TEST))).map
              (fun p => p.required_time_ms)).sum) % ULLONG_MOD ∧
    (List.foldl patient_thread_accumulate rp ps).busy_rooms_ms
      = (rp.busy_rooms_ms
          + ((ps.filter (fun p => decide (p.service = ServiceType.SERVICE_TREATMENT))).map
              (fun p => p.required_time_ms)).sum) % ULLONG_MOD := by
  induction ps with
  | nil =>
    intro rp h1 h2 h3
    simp [Nat.mod_eq_of_lt h1, Nat.mod_eq_of_lt h2, Nat.mod_eq_of_lt h3]
  | cons p ps ih =>
    intro rp h1 h2 h3
    have hpos : 0 < ULLONG_MOD := by decide
    have ih2 := ih (patient_thread_accumulate rp p)
    simp only [List.foldl_cons]
    cases hs : p.service
    · have e : patient_thread_accumulate rp p
          = { rp with busy_doctors_ms := (rp.busy_doctors_ms + p.required_time_ms)
                % ULLONG_MOD } := by
        simp [patient_thread_accumulate, hs]
      rw [e] at ih2 ⊢
      obtain ⟨i1, i2, i3⟩ := ih2 (Nat.mod_lt _ hpos) h2 h3
      rw [i1, i2, i3]
      simp [List.filter_cons, hs, Nat.add_assoc]
    · have e : patient_thread_accumulate rp p
          = { rp with busy_machines_ms := (rp.busy_machines_ms + p.required_time_ms)
                % ULLONG_MOD } := by
        simp [patient_thread_accumulate, hs]
      rw [e] at ih2 ⊢
      obtain ⟨i1, i2, i3⟩ := ih2 h1 (Nat.mod_lt _ hpos) h3
      rw [i1, i2, i3]
      simp [List.filter_cons, hs, Nat.add_assoc]
    · have e : patient_thread_accumulate rp p
          = { rp with busy_rooms_ms := (rp.busy_rooms_ms + p.required_time_ms)
                % ULLONG_MOD } := by
        simp [patient_thread_accumulate, hs]
      rw [e] at ih2 ⊢
      obtain ⟨i1, i2, i3⟩ := ih2 h1 h2 (Nat.mod_lt _ hpos)
      rw [i1, i2, i3]
      simp [List.filter_cons, hs, Nat.add_assoc]

theorem resources_init_busy_zero (d m r : Int) (rp : ResourcePool)
    (h : resources_init d m r = some rp) :
    rp.busy_doctors_ms = 0 ∧ rp.busy_machines_ms = 0 ∧ rp.busy_rooms_ms = 0 := by
  simp only [resources_init, sem_init, bind, Option.bind, pure] at h
  split_ifs at h <;> simp at h <;> subst h <;> simp

/-- One update does not lower any accumulator when the accumulator it adds to
does not wrap. -/
theorem accumulate_le (rp : ResourcePool) (p : Patient) (h : accumulate_no_wrap rp p) :
    rp.busy_doctors_ms ≤ (patient_thread_accumulate rp p).busy_doctors_ms ∧
    rp.busy_machines_ms ≤ (patient_thread_accumulate rp p).busy_machines_ms ∧
    rp.busy_rooms_ms ≤ (patient_thread_accumulate rp p).busy_rooms_ms := by
  unfold accumulate_no_wrap at h
  unfold patient_thread_accumulate
  cases hs : p.service <;> simp only [hs] at h ⊢ <;>
    simp [Nat.mod_eq_of_lt h]

theorem foldl_take_succ (rp : ResourcePool) (ps : List Patient) (k : Nat) (hk : k < ps.length) :
    List.foldl patient_thread_accumulate rp (ps.take (k + 1))
      = patient_thread_accumulate (List.foldl patient_thread_accumulate rp (ps.take k))
          (ps.getD k default) := by
  have hg : ps.getD k default = ps[k] := by
    simp [List.getD, List.getElem?_eq_getElem hk]
  rw [List.take_succ, List.getElem?_eq_getElem hk, hg, List.foldl_append]
  rfl

/-! ## Scheduler and metrics: further properties -/

/-- C11: under Round-Robin, `compute_metrics` gives the same result for any
two orders that are permutations of `[0, n)`; more generally the result is
the same for any list with the same arrival times and required times and any
permutation as order: only those times are used. -/
theorem compute_metrics_rr_ignores_order (fuel : Nat) (list : PatientList)
    (order1 order2 : List Nat) (quantum_ms : Nat)
    (h1 : order1.Perm (List.range list.length))
    (h2 : order2.Perm (List.range list.length)) :
    compute_metrics fuel list order2 ALG_RR quantum_ms
      = compute_metrics fuel list order1 ALG_RR quantum_ms ∧
    ∀ (other : PatientList) (order3 : List Nat),
      order3.Perm (List.range other.length) →
      other.map (fun p => p.arrival_ms) = list.map (fun p => p.arrival_ms) →
      other.map (fun p => p.required_time_ms) = list.map (fun p => p.required_time_ms) →
      compute_metrics fuel other order3 ALG_RR quantum_ms
        = compute_metrics fuel list order1 ALG_RR quantum_ms :=
  ⟨compute_metrics_rr_congr fuel list list order1 order2 quantum_ms h1 h2 rfl rfl,
   fun other order3 h3 ha hr =>
     compute_metrics_rr_congr fuel list other order1 order3 quantum_ms h1 h3 ha hr⟩

theorem compute_metrics_rr_ignores_order_witness :
    ([0, 1] : List Nat).Perm (List.range [mkPatient 0 30, mkPatient 0 20].length) ∧
    ([1, 0] : List Nat).Perm (List.range [mkPatient 0 30, mkPatient 0 20].length) ∧
    compute_metrics 5 [mkPatient 0 30, mkPatient 0 20] [1, 0] ALG_RR 10
      = compute_metrics 5 [mkPatient 0 30, mkPatient 0 20] [0, 1] ALG_RR 10 :=
  ⟨by decide, by decide,
   (compute_metrics_rr_ignores_order 5 [mkPatient 0 30, mkPatient 0 20] [0, 1] [1, 0] 10
     (by decide) (by decide)).1⟩

/-- C12: with Round-Robin, `schedule_order` returns the order it returns with
FCFS, and the quantum passed to either call has no influence. -/
theorem schedule_order_rr_eq_fcfs (list : PatientList) (quantum1 quantum2 : Nat) :
    schedule_order list ALG_RR quantum1 = schedule_order list ALG_FCFS quantum2 := by
  simp [schedule_order]

/-- C13 as stated fails: the algorithm value 7 is none of the four, and for
R0 (arrival 5) and R1 (arrival 0) `schedule_order` returns `[0, 1]`, which
puts the later arrival first, while the FCFS order is `[1, 0]`. -/
theorem schedule_order_unrecognized_not_fcfs :
    (7 : Algorithm) ≠ ALG_FCFS ∧ (7 : Algorithm) ≠ ALG_SJF ∧
    (7 : Algorithm) ≠ ALG_PRIORITY ∧ (7 : Algorithm) ≠ ALG_RR ∧
    schedule_order [mkPatient 5 1, mkPatient 0 1] 7 0 = [0, 1] ∧
    schedule_order [mkPatient 5 1, mkPatient 0 1] ALG_FCFS 0 = [1, 0] ∧
    ¬ (schedule_order [mkPatient 5 1, mkPatient 0 1] 7 0).Pairwise
        (fun a b => (item [mkPatient 5 1, mkPatient 0 1] a).arrival_ms
          ≤ (item [mkPatient 5 1, mkPatient 0 1] b).arrival_ms) := by
  refine ⟨by decide, by decide, by decide, by decide, by decide, by decide, ?_⟩
  decide

/-- C13 amended: with an algorithm value that is none of the four,
`schedule_order` sorts nothing and returns the indices in their original
order `0, 1, ..., n-1`. The fallback to FCFS is made where the algorithm is
read: `parse_alg` gives `ALG_FCFS` for every name it does not recognise, so
that `schedule_order` then returns the FCFS order. -/
theorem schedule_order_unrecognized (list : PatientList) (alg : Algorithm) (quantum_ms : Nat)
    (h0 : alg ≠ ALG_FCFS) (h1 : alg ≠ ALG_SJF) (h2 : alg ≠ ALG_PRIORITY) (h3 : alg ≠ ALG_RR) :
    schedule_order list alg quantum_ms = List.range list.length ∧
    ∀ name : String, name ≠ "fcfs" → name ≠ "sjf" → name ≠ "priority" → name ≠ "rr" →
      schedule_order list (parse_alg name) quantum_ms
        = schedule_order list ALG_FCFS quantum_ms := by
  constructor
  · simp [schedule_order, h0, h1, h2, h3]
  · intro name n0 n1 n2 n3
    simp [parse_alg, n0, n1, n2, n3]

theorem schedule_order_unrecognized_witness :
    schedule_order [mkPatient 5 1, mkPatient 0 1] 7 0
      = List.range [mkPatient 5 1, mkPatient 0 1].length :=
  (schedule_order_unrecognized [mkPatient 5 1, mkPatient 0 1] 7 0
    (by decide) (by decide) (by decide) (by decide)).1

/-- C14: the worked SJF example. For R0 (arrival 0, required 100), R1
(arrival 0, required 200), R2 (arrival 50, required 50) the order is
`[2, 0, 1]`; the cursor goes 0, (50,) 100, 200, 400; R2 waits 0 and has
turnaround 50, R0 waits 100 and has turnaround 200, R1 waits 200 and has
turnaround 400; the averages are 300/3 = 100 and 650/3. -/
theorem sjf_worked_example (fuel quantum_ms : Nat) :
    schedule_order [mkPatient 0 100, mkPatient 0 200, mkPatient 50 50] ALG_SJF quantum_ms
      = [2, 0, 1] ∧
    np_body 0 (item [mkPatient 0 100, mkPatient 0 200, mkPatient 50 50] 2)
      = { time := 100, waiting := 0, turnaround := 50 } ∧
    np_loop [mkPatient 0 100, mkPatient 0 200, mkPatient 50 50] [2, 0, 1] 1 0
        { time := 0, total_wait := 0, total_turn := 0 }
      = .ok { time := 100, total_wait := 0, total_turn := 50 } ∧
    np_body 100 (item [mkPatient 0 100, mkPatient 0 200, mkPatient 50 50] 0)
      = { time := 200, waiting := 100, turnaround := 200 } ∧
    np_loop [mkPatient 0 100, mkPatient 0 200, mkPatient 50 50] [2, 0, 1] 2 0
        { time := 0, total_wait := 0, total_turn := 0 }
      = .ok { time := 200, total_wait := 100, total_turn := 250 } ∧
    np_body 200 (item [mkPatient 0 100, mkPatient 0 200, mkPatient 50 50] 1)
      = { time := 400, waiting := 200, turnaround := 400 } ∧
    np_loop [mkPatient 0 100, mkPatient 0 200, mkPatient 50 50] [2, 0, 1] 3 0
        { time := 0, total_wait := 0, total_turn := 0 }
      = .ok { time := 400, total_wait := 300, total_turn := 650 } ∧
    compute_metrics fuel [mkPatient 0 100, mkPatient 0 200, mkPatient 50 50]
        (schedule_order [mkPatient 0 100, mkPatient 0 200, mkPatient 50 50] ALG_SJF quantum_ms)
        ALG_SJF quantum_ms
      = .ok { avg_wait_ms := 100, avg_turnaround_ms := 650 / 3 } := by
  refine ⟨rfl, rfl, rfl, rfl, rfl, rfl, rfl, ?_⟩
  have ho : schedule_order [mkPatient 0 100, mkPatient 0 200, mkPatient 50 50] ALG_SJF
      quantum_ms = [2, 0, 1] := rfl
  have hs : np_loop [mkPatient 0 100, mkPatient 0 200, mkPatient 50 50] [2, 0, 1]
      [mkPatient 0 100, mkPatient 0 200, mkPatient 50 50].length 0
      { time := 0, total_wait := 0, total_turn := 0 }
      = .ok { time := 400, total_wait := 300, total_turn := 650 } := rfl
  rw [ho, compute_metrics_np_of_loop fuel _ _ ALG_SJF quantum_ms _ (by decide) (by decide) hs]
  norm_num

/-- C15: the worked Round-Robin example. For R0 (arrival 0, required 30) and
R1 (arrival 0, required 20) with quantum 10 the simulation ends after five
passes (more passes allowed change nothing) with `waiting = [20, 20]` and
`finish = [50, 40]`; the averages are 20 and 45. -/
theorem rr_worked_example (extra : Nat) :
    ∃ s, rr_simulate (5 + extra) [mkPatient 0 30, mkPatient 0 20]
        (schedule_order [mkPatient 0 30, mkPatient 0 20] ALG_RR 10) 10 = .ok s ∧
      s.waiting = [20, 20] ∧ s.finish = [50, 40] ∧
      compute_metrics (5 + extra) [mkPatient 0 30, mkPatient 0 20]
          (schedule_order [mkPatient 0 30, mkPatient 0 20] ALG_RR 10) ALG_RR 10
        = .ok { avg_wait_ms := 20, avg_turnaround_ms := 45 } := by
  have h5 : rr_simulate 5 [mkPatient 0 30, mkPatient 0 20]
      (schedule_order [mkPatient 0 30, mkPatient 0 20] ALG_RR 10) 10
      = .ok { remaining := [0, 0], finish := [50, 40], waiting := [20, 20],
              queue := [some 0, some 1], head := 1, tail := 1, qcount := 0,
              time := 50, completed := 2, next_arrival := 2 } := rfl
  have hs := rr_simulate_fuel_mono 5 extra _ _ 10 _ h5
  refine ⟨_, hs, rfl, rfl, ?_⟩
  rw [compute_metrics_rr_eq (5 + extra) _ _ 10 _ (40, 90) (by decide) hs rfl]
  norm_num

/-- C16: for FCFS, SJF and Priority and an order that is a permutation of
`[0, n)`, in the cursor of `compute_metrics` every request starts at a time
that is at least its arrival time and at least the cursor left by the request
before it (which is that request's finish time); the slices `build_timeline`
produces for the scheduled order are these starts and finishes: every slice
starts at or after the arrival of its request and at or after the end of the
slice before it. -/
theorem nonpreemptive_start_after_arrival_and_previous (fuel : Nat) (list : PatientList)
    (order : List Nat) (alg : Algorithm) (quantum_ms : Nat)
    (hperm : order.Perm (List.range list.length))
    (halg : alg = ALG_FCFS ∨ alg = ALG_SJF ∨ alg = ALG_PRIORITY) :
    (∀ k, k < list.length →
      ∃ s s1,
        np_loop list order k 0 { time := 0, total_wait := 0, total_turn := 0 } = .ok s ∧
        np_loop list order (k + 1) 0 { time := 0, total_wait := 0, total_turn := 0 }
          = .ok s1 ∧
        (item list (order.getD k 0)).arrival_ms
          ≤ np_start s.time (item list (order.getD k 0)) ∧
        s.time ≤ np_start s.time (item list (order.getD k 0)) ∧
        (np_body s.time (item list (order.getD k 0))).waiting
          = usub (np_start s.time (item list (order.getD k 0)))
              (item list (order.getD k 0)).arrival_ms ∧
        s1.time = uadd (np_start s.time (item list (order.getD k 0)))
              (item list (order.getD k 0)).required_time_ms) ∧
    ∃ slices, build_timeline fuel list alg quantum_ms = .ok slices ∧
      slices.length = list.length ∧
      slices.map Slice.idx = schedule_order list alg quantum_ms ∧
      (∀ x ∈ slices, (item list x.idx).arrival_ms ≤ x.start_ms) ∧
      slices.Chain' (fun a b => a.end_ms ≤ b.start_ms) ∧
      ∀ k, k < list.length →
        ∃ s, np_loop list (schedule_order list alg quantum_ms) k 0
            { time := 0, total_wait := 0, total_turn := 0 } = .ok s ∧
          slices[k]? = some
            { idx := (schedule_order list alg quantum_ms).getD k 0,
              start_ms := np_start s.time
                (item list ((schedule_order list alg quantum_ms).getD k 0)),
              end_ms := (np_body s.time
                (item list ((schedule_order list alg quantum_ms).getD k 0))).time } := by
  constructor
  · intro k hk
    obtain ⟨h1, h2⟩ := np_loop_step list order k hperm hk
    exact ⟨_, _, h1, h2, np_start_ge_arrival _ _, np_start_ge_time _ _, rfl, rfl⟩
  · have hp := schedule_order_perm list alg quantum_ms
    have hlen : (schedule_order list alg quantum_ms).length = list.length := by
      simpa using hp.length_eq
    refine ⟨_, build_timeline_np_eq fuel list alg quantum_ms (nonpreemptive_ne_rr alg halg),
      ?_, tl_np_slices_idx _ _ _, tl_np_slices_after_arrival _ _ _,
      tl_np_slices_chain_self _ _ _, ?_⟩
    · rw [tl_np_slices_length, hlen]
    · intro k hk
      obtain ⟨h1, _⟩ := np_loop_step list _ k hp hk
      refine ⟨_, h1, ?_⟩
      exact tl_np_slices_get list (schedule_order list alg quantum_ms) k
        { time := 0, total_wait := 0, total_turn := 0 } (by omega)

theorem nonpreemptive_start_after_arrival_and_previous_witness :
    ∃ slices, build_timeline 0 [mkPatient 0 100, mkPatient 0 200, mkPatient 50 50] ALG_SJF 3
        = .ok slices ∧
      slices.length = [mkPatient 0 100, mkPatient 0 200, mkPatient 50 50].length ∧
      slices.map Slice.idx
        = schedule_order [mkPatient 0 100, mkPatient 0 200, mkPatient 50 50] ALG_SJF 3 ∧
      (∀ x ∈ slices,
        (item [mkPatient 0 100, mkPatient 0 200, mkPatient 50 50] x.idx).arrival_ms
          ≤ x.start_ms) ∧
      slices.Chain' (fun a b => a.end_ms ≤ b.start_ms) := by
  obtain ⟨slices, h1, h2, h3, h4, h5, _⟩ :=
    (nonpreemptive_start_after_arrival_and_previous 0
      [mkPatient 0 100, mkPatient 0 200, mkPatient 50 50] [2, 0, 1] ALG_SJF 3
      (by decide) (Or.inr (Or.inl rfl))).2
  exact ⟨slices, h1, h2, h3, h4, h5⟩

/-! ## Resource pool -/

/-- C17: `resources_init` clamps every capacity to at least 1. A capacity
that is 0 or negative gives exactly the pool that capacity 1 gives, for each
of the three categories; after a successful initialisation every recorded
capacity is at least 1, every semaphore starts at the recorded capacity, the
mutex is free and the busy-time accumulators are 0; the recorded capacity is
the requested one when that is positive and 1 otherwise; and the
initialisation succeeds for all capacities an `int` can hold. -/
theorem resources_init_clamps :
    (∀ d m r : Int, d ≤ 0 → resources_init d m r = resources_init 1 m r) ∧
    (∀ d m r : Int, m ≤ 0 → resources_init d m r = resources_init d 1 r) ∧
    (∀ d m r : Int, r ≤ 0 → resources_init d m r = resources_init d m 1) ∧
    (∀ (d m r : Int) (rp : ResourcePool), resources_init d m r = some rp →
      1 ≤ rp.num_doctors ∧ 1 ≤ rp.num_machines ∧ 1 ≤ rp.num_rooms ∧
      (rp.doctors : Int) = rp.num_doctors ∧ (rp.machines : Int) = rp.num_machines ∧
      (rp.rooms : Int) = rp.num_rooms ∧ rp.log_mutex = false ∧
      rp.busy_doctors_ms = 0 ∧ rp.busy_machines_ms = 0 ∧ rp.busy_rooms_ms = 0) ∧
    (∀ (d m r : Int) (rp : ResourcePool), resources_init d m r = some rp →
      rp.num_doctors = (if d > 0 then d else 1) ∧
      rp.num_machines = (if m > 0 then m else 1) ∧
      rp.num_rooms = (if r > 0 then r else 1)) ∧
    (∀ d m r : Int, d ≤ SEM_VALUE_MAX → m ≤ SEM_VALUE_MAX → r ≤ SEM_VALUE_MAX →
      ∃ rp, resources_init d m r = some rp) ∧
    resources_init 0 0 0
      = some { doctors := 1, machines := 1, rooms := 1, log_mutex := false,
               num_doctors := 1, num_machines := 1, num_rooms := 1,
               busy_doctors_ms := 0, busy_machines_ms := 0, busy_rooms_ms := 0 } := by
  refine ⟨?_, ?_, ?_, ?_, ?_, ?_, by decide⟩
  · intro d m r h
    have : ¬ d > 0 := by omega
    simp [resources_init, this]
  · intro d m r h
    have : ¬ m > 0 := by omega
    simp [resources_init, this]
  · intro d m r h
    have : ¬ r > 0 := by omega
    simp [resources_init, this]
  · intro d m r rp h
    simp only [resources_init, sem_init, bind, Option.bind, pure] at h
    split_ifs at h <;> simp at h <;> subst h <;> simp <;> omega
  · intro d m r rp h
    simp only [resources_init, sem_init, bind, Option.bind, pure] at h
    split_ifs at h <;> simp at h <;> subst h <;> simp [*]
  · intro d m r hd hm hr
    simp only [resources_init, sem_init, SEM_VALUE_MAX, bind, Option.bind, pure] at hd hm hr ⊢
    split_ifs <;> simp <;> omega

/-! ## Empty input -/

/-- C18: for an empty request collection `compute_metrics` returns an average
wait of 0 and an average turnaround of 0, for every order argument, algorithm
and quantum; the division by the count is not reached. -/
theorem compute_metrics_empty (fuel : Nat) (order : List Nat) (alg : Algorithm)
    (quantum_ms : Nat) :
    compute_metrics fuel [] order alg quantum_ms
      = .ok { avg_wait_ms := 0, avg_turnaround_ms := 0 } := by
  simp [compute_metrics]

/-! ## Busy time -/

/-- C19: starting from a freshly initialised pool, once the completion
updates of all workers have been applied, in whatever order, each busy-time
accumulator equals the sum of `required_time_ms` over the requests of its
category (Consultation for doctors, LabTest for machines, Treatment for
rooms); a single update adds the required time to the accumulator of the
category of its request and changes nothing else in the pool. The list has at
most `2 ^ 32` requests and the required times are `unsigned` values. -/
theorem busy_time_totals (d m r : Int) (rp : ResourcePool) (list done : List Patient)
    (hinit : resources_init d m r = some rp) (hperm : done.Perm list)
    (hreq : ∀ p ∈ list, p.required_time_ms < UINT_MOD) (hlen : list.length ≤ UINT_MOD) :
    ((List.foldl patient_thread_accumulate rp done).busy_doctors_ms
      = ((list.filter (fun p => decide (p.service = ServiceType.SERVICE_CONSULTATION))).map
          (fun p => p.required_time_ms)).sum ∧
     (List.foldl patient_thread_accumulate rp done).busy_machines_ms
      = ((list.filter (fun p => decide (p.service = ServiceType.SERVICE_LAB_TEST))).map
          (fun p => p.required_time_ms)).sum ∧
     (List.foldl patient_thread_accumulate rp done).busy_rooms_ms
      = ((list.filter (fun p => decide (p.service = ServiceType.SERVICE_TREATMENT))).map
          (fun p => p.required_time_ms)).sum) ∧
    ∀ (rp0 : ResourcePool) (p : Patient),
      (p.service = ServiceType.SERVICE_CONSULTATION →
        patient_thread_accumulate rp0 p
          = { rp0 with busy_doctors_ms :=
                (rp0.busy_doctors_ms + p.required_time_ms) % ULLONG_MOD }) ∧
      (p.service = ServiceType.SERVICE_LAB_TEST →
        patient_thread_accumulate rp0 p
          = { rp0 with busy_machines_ms :=
                (rp0.busy_machines_ms + p.required_time_ms) % ULLONG_MOD }) ∧
      (p.service = ServiceType.SERVICE_TREATMENT →
        patient_thread_accumulate rp0 p
          = { rp0 with busy_rooms_ms :=
                (rp0.busy_rooms_ms + p.required_time_ms) % ULLONG_MOD }) := by
  constructor
  · obtain ⟨z1, z2, z3⟩ := resources_init_busy_zero d m r rp hinit
    have hpos : 0 < ULLONG_MOD := by decide
    obtain ⟨a1, a2, a3⟩ := accumulate_foldl done rp (by rw [z1]; exact hpos)
      (by rw [z2]; exact hpos) (by rw [z3]; exact hpos)
    have hsum : ∀ c : ServiceType,
        ((done.filter (fun p => decide (p.service = c))).map
            (fun p => p.required_time_ms)).sum
          = ((list.filter (fun p => decide (p.service = c))).map
            (fun p => p.required_time_ms)).sum :=
      fun c => ((hperm.filter _).map _).sum_eq
    have hbound : ∀ c : ServiceType,
        ((list.filter (fun p => decide (p.service = c))).map
            (fun p => p.required_time_ms)).sum < ULLONG_MOD := by
      intro c
      have h1 := sum_required_le list c hreq
      have h2 : list.length * (UINT_MOD - 1) ≤ UINT_MOD * (UINT_MOD - 1) :=
        Nat.mul_le_mul_right _ hlen
      have h3 : UINT_MOD * (UINT_MOD - 1) < ULLONG_MOD := by decide
      omega
    rw [a1, a2, a3, z1, z2, z3, hsum, hsum, hsum]
    simp only [Nat.zero_add]
    exact ⟨Nat.mod_eq_of_lt (hbound _), Nat.mod_eq_of_lt (hbound _),
      Nat.mod_eq_of_lt (hbound _)⟩
  · intro rp0 p
    refine ⟨?_, ?_, ?_⟩ <;> intro hs <;> simp [patient_thread_accumulate, hs]

theorem busy_time_totals_witness :
    (List.foldl patient_thread_accumulate
        { doctors := 3, machines := 2, rooms := 4, log_mutex := false,
          num_doctors := 3, num_machines := 2, num_rooms := 4,
          busy_doctors_ms := 0, busy_machines_ms := 0, busy_rooms_ms := 0 }
        [mkServicePatient ServiceType.SERVICE_TREATMENT 0 50,
         mkServicePatient ServiceType.SERVICE_CONSULTATION 5 30,
         mkServicePatient ServiceType.SERVICE_LAB_TEST 0 200,
         mkServicePatient ServiceType.SERVICE_CONSULTATION 0 100]).busy_doctors_ms
      = (([mkServicePatient ServiceType.SERVICE_CONSULTATION 0 100,
           mkServicePatient ServiceType.SERVICE_LAB_TEST 0 200,
           mkServicePatient ServiceType.SERVICE_TREATMENT 0 50,
           mkServicePatient ServiceType.SERVICE_CONSULTATION 5 30].filter
            (fun p => decide (p.service = ServiceType.SERVICE_CONSULTATION))).map
          (fun p => p.required_time_ms)).sum :=
  (busy_time_totals 3 2 4
    { doctors := 3, machines := 2, rooms := 4, log_mutex := false,
      num_doctors := 3, num_machines := 2, num_rooms := 4,
      busy_doctors_ms := 0, busy_machines_ms := 0, busy_rooms_ms := 0 }
    [mkServicePatient ServiceType.SERVICE_CONSULTATION 0 100,
     mkServicePatient ServiceType.SERVICE_LAB_TEST 0 200,
     mkServicePatient ServiceType.SERVICE_TREATMENT 0 50,
     mkServicePatient ServiceType.SERVICE_CONSULTATION 5 30]
    [mkServicePatient ServiceType.SERVICE_TREATMENT 0 50,
     mkServicePatient ServiceType.SERVICE_CONSULTATION 5 30,
     mkServicePatient ServiceType.SERVICE_LAB_TEST 0 200,
     mkServicePatient ServiceType.SERVICE_CONSULTATION 0 100]
    (by decide) (by decide) (by decide) (by decide)).1.1

/-- C20: over any sequence of worker completions in which the accumulator
being added to never wraps around `2 ^ 64`, the three busy-time accumulators
never decrease: their values after `j` updates are at most their values after
`k` updates whenever `j ≤ k`; in particular each single update leaves each
accumulator at least as large as before. -/
theorem busy_time_monotone (rp : ResourcePool) (ps : List Patient)
    (hno : ∀ k, k < ps.length →
      accumulate_no_wrap (List.foldl patient_thread_accumulate rp (ps.take k))
        (ps.getD k default)) :
    ∀ j k, j ≤ k → k ≤ ps.length →
      (List.foldl patient_thread_accumulate rp (ps.take j)).busy_doctors_ms
        ≤ (List.foldl patient_thread_accumulate rp (ps.take k)).busy_doctors_ms ∧
      (List.foldl patient_thread_accumulate rp (ps.take j)).busy_machines_ms
        ≤ (List.foldl patient_thread_accumulate rp (ps.take k)).busy_machines_ms ∧
      (List.foldl patient_thread_accumulate rp (ps.take j)).busy_rooms_ms
        ≤ (List.foldl patient_thread_accumulate rp (ps.take k)).busy_rooms_ms := by
  intro j k hjk
  induction k with
  | zero =>
    intro _
    have : j = 0 := by omega
    subst this
    exact ⟨le_refl _, le_refl _, le_refl _⟩
  | succ k ih =>
    intro hk
    by_cases hj : j = k + 1
    · subst hj
      exact ⟨le_refl _, le_refl _, le_refl _⟩
    · obtain ⟨i1, i2, i3⟩ := ih (by omega) (by omega)
      obtain ⟨s1, s2, s3⟩ := accumulate_le _ _ (hno k (by omega))
      rw [foldl_take_succ rp ps k (by omega)]
      exact ⟨le_trans i1 s1, le_trans i2 s2, le_trans i3 s3⟩

theorem busy_time_monotone_witness :
    (List.foldl patient_thread_accumulate
        { doctors := 3, machines := 2, rooms := 4, log_mutex := false,
          num_doctors := 3, num_machines := 2, num_rooms := 4,
          busy_doctors_ms := 0, busy_machines_ms := 0, busy_rooms_ms := 0 }
        ([mkServicePatient ServiceType.SERVICE_CONSULTATION 0 100,
          mkServicePatient ServiceType.SERVICE_LAB_TEST 0 200].take 1)).busy_machines_ms
      ≤ (List.foldl patient_thread_accumulate
        { doctors := 3, machines := 2, rooms := 4, log_mutex := false,
          num_doctors := 3, num_machines := 2, num_rooms := 4,
          busy_doctors_ms := 0, busy_machines_ms := 0, busy_rooms_ms := 0 }
        ([mkServicePatient ServiceType.SERVICE_CONSULTATION 0 100,
          mkServicePatient ServiceType.SERVICE_LAB_TEST 0 200].take 2)).busy_machines_ms :=
  (busy_time_monotone
    { doctors := 3, machines := 2, rooms := 4, log_mutex := false,
      num_doctors := 3, num_machines := 2, num_rooms := 4,
      busy_doctors_ms := 0, busy_machines_ms := 0, busy_rooms_ms := 0 }
    [mkServicePatient ServiceType.SERVICE_CONSULTATION 0 100,
     mkServicePatient ServiceType.SERVICE_LAB_TEST 0 200]
    (by decide) 1 2 (by decide) (by decide)).2.1

/-! ## Execution engine: launch order and events -/

theorem launch_workers_eq (list : PatientList) (order : List Nat) (fifo_fd : Int) :
    ∀ (rest pre : List Nat) (m : Nat) (launched : List WorkerArgs), order = pre ++ rest →
      (∀ i ∈ rest, i < list.length) → m ≤ rest.length →
      launch_workers list order fifo_fd m pre.length launched
        = .ok (launched ++ (rest.take m).map
            (fun i => { patient := item list i, fifo_fd := fifo_fd })) := by
  intro rest
  induction rest with
  | nil =>
    intro pre m launched _ _ hm
    have : m = 0 := by simpa using hm
    subst this
    simp [launch_workers]
  | cons i rest ih =>
    intro pre m launched ho hr hm
    cases m with
    | zero => simp [launch_workers]
    | succ m =>
      have hi : i < list.length := hr i (List.mem_cons_self _ _)
      have hk : pre.length < order.length := by rw [ho]; simp
      have hget : order.get ⟨pre.length, hk⟩ = i := by
        subst ho; simp [List.getElem_append_right]
      have ih2 := ih (pre ++ [i]) m (launched ++ [{ patient := item list i, fifo_fd := fifo_fd }])
        (by simp [ho]) (fun j hj => hr j (List.mem_cons_of_mem _ hj)) (by simpa using hm)
      simp only [List.length_append, List.length_singleton] at ih2
      unfold launch_workers
      rw [rd_ok order _ hk, hget]
      simp only [bind, Except.bind]
      rw [rd_ok list _ hi]
      simp only [← item_eq_get list i hi]
      rw [ih2]
      simp

/-- C21: the workers are launched in scheduler order: the launch succeeds,
`n` workers are created, and for every `k` below `n` the `k`-th worker
created holds a copy of the request at index `order[k]` of the collection,
`order` being the result of `schedule_order` for the algorithm selected. -/
theorem launch_follows_schedule_order (list : PatientList) (alg : Algorithm)
    (quantum_ms : Nat) (fifo_fd : Int) :
    ∃ workers, run_launch list alg quantum_ms fifo_fd = .ok workers ∧
      workers.length = list.length ∧
      workers.map (fun w => w.patient)
        = (schedule_order list alg quantum_ms).map (item list) ∧
      ∀ k, k < list.length →
        ∃ (w : WorkerArgs) (idx : Nat) (p : Patient),
          workers[k]? = some w ∧ (schedule_order list alg quantum_ms)[k]? = some idx ∧
          list[idx]? = some p ∧ w.patient = p ∧ w.fifo_fd = fifo_fd := by
  have hp := schedule_order_perm list alg quantum_ms
  have hlen : (schedule_order list alg quantum_ms).length = list.length := by
    simpa using hp.length_eq
  have h := launch_workers_eq list (schedule_order list alg quantum_ms) fifo_fd
    (schedule_order list alg quantum_ms) [] list.length [] (by simp)
    (fun i hi => List.mem_range.mp (hp.subset hi)) (by omega)
  simp only [List.length_nil, List.nil_append] at h
  rw [← hlen, List.take_length] at h
  refine ⟨_, by unfold run_launch; rw [← hlen]; exact h, by simp [hlen], by simp, ?_⟩
  intro k hk
  have hk2 : k < (schedule_order list alg quantum_ms).length := by omega
  have hidx : (schedule_order list alg quantum_ms)[k] < list.length :=
    List.mem_range.mp (hp.subset (List.getElem_mem _))
  refine ⟨{ patient := item list (schedule_order list alg quantum_ms)[k], fifo_fd := fifo_fd },
    (schedule_order list alg quantum_ms)[k], list[(schedule_order list alg quantum_ms)[k]],
    ?_, List.getElem?_eq_getElem hk2, List.getElem?_eq_getElem hidx, ?_, rfl⟩
  · rw [List.getElem?_map, List.getElem?_eq_getElem hk2]
    rfl
  · simp [item, List.getD, List.getElem?_eq_getElem hidx]

theorem snprintf_of_short (size : Nat) (text : String) (h : text.length < size) :
    snprintf size text = text := by
  unfold snprintf
  have : text.data.take (size - 1) = text.data :=
    List.take_of_length_le (by rw [String.length] at h; omega)
  rw [this]

/-- The decimal text of an `int` has at most 11 characters. -/
theorem int_toString_length (i : Int) (h1 : -2 ^ 31 ≤ i) (h2 : i < 2 ^ 31) :
    (toString i).length ≤ 11 := by
  cases i with
  | ofNat m =>
    have hm : m < 10 ^ 10 := by
      have : (m : Int) < 2 ^ 31 := h2
      omega
    have := Nat.repr_length m 10 (by decide) hm
    show (Nat.repr m).length ≤ 11
    omega
  | negSucc m =>
    have hm : m + 1 < 10 ^ 10 := by
      have : -2 ^ 31 ≤ Int.negSucc m := h1
      rw [Int.negSucc_eq] at this
      omega
    have := Nat.repr_length (m + 1) 10 (by decide) hm
    show ("-" ++ Nat.repr (m + 1)).length ≤ 11
    rw [String.length_append]
    have : "-".length = 1 := rfl
    omega

theorem service_name_length (s : ServiceType) : (service_name s).length ≤ 12 := by
  cases s <;> decide

/-- C22 as stated fails: the texts written for the request with id 1, name
`A` and category Consultation are `START id=1 name=A service=Consultation`
and `FINISH id=1 name=A service=Consultation`, each ended by a newline; the
key before the category is `service=`, not `category=`. -/
theorem events_use_service_key :
    written (patient_thread
        { patient := { id := 1, name := "A", priority := 1,
                       service := ServiceType.SERVICE_CONSULTATION,
                       required_time_ms := 5, arrival_ms := 0 },
          fifo_fd := 3 })
      = ["START id=1 name=A service=Consultation\n",
         "FINISH id=1 name=A service=Consultation\n"] ∧
    written (patient_thread
        { patient := { id := 1, name := "A", priority := 1,
                       service := ServiceType.SERVICE_CONSULTATION,
                       required_time_ms := 5, arrival_ms := 0 },
          fifo_fd := 3 })
      ≠ ["START id=1 name=A category=Consultation\n",
         "FINISH id=1 name=A category=Consultation\n"] ∧
    written (patient_thread
        { patient := { id := 1, name := "A", priority := 1,
                       service := ServiceType.SERVICE_CONSULTATION,
                       required_time_ms := 5, arrival_ms := 0 },
          fifo_fd := 3 })
      ≠ ["START id=1 name=A category=Consultation",
         "FINISH id=1 name=A category=Consultation"] := by
  decide

/-- C22 amended: a worker writes exactly two texts to the event sink, as the
first and as the last of its calls: first `START id=<id> name=<name>
service=<service>` and then `FINISH id=<id> name=<name> service=<service>`,
each followed by a newline, with the id, the name and the name of the
category (`Consultation`, `LabTest` or `Treatment`) of its own request. The
id is an `int` and the name has fewer than 64 characters, as the fields of
`Patient` have. -/
theorem worker_events (wa : WorkerArgs) (hname : wa.patient.name.length < 64)
    (hid1 : -2 ^ 31 ≤ wa.patient.id) (hid2 : wa.patient.id < 2 ^ 31) :
    written (patient_thread wa)
      = ["START id=" ++ toString wa.patient.id ++ " name=" ++ wa.patient.name ++ " service="
           ++ service_name wa.patient.service ++ "\n",
         "FINISH id=" ++ toString wa.patient.id ++ " name=" ++ wa.patient.name ++ " service="
           ++ service_name wa.patient.service ++ "\n"] ∧
    (patient_thread wa).head?
      = some (Action.write wa.fifo_fd
          ("START id=" ++ toString wa.patient.id ++ " name=" ++ wa.patient.name ++ " service="
            ++ service_name wa.patient.service ++ "\n")) ∧
    (patient_thread wa).getLast?
      = some (Action.write wa.fifo_fd
          ("FINISH id=" ++ toString wa.patient.id ++ " name=" ++ wa.patient.name
            ++ " service=" ++ service_name wa.patient.service ++ "\n")) := by
  have h1 := int_toString_length wa.patient.id hid1 hid2
  have h2 := service_name_length wa.patient.service
  have e1 : snprintf 256 ("START id=" ++ toString wa.patient.id ++ " name=" ++ wa.patient.name
      ++ " service=" ++ service_name wa.patient.service ++ "\n")
      = "START id=" ++ toString wa.patient.id ++ " name=" ++ wa.patient.name ++ " service="
        ++ service_name wa.patient.service ++ "\n" := by
    apply snprintf_of_short
    simp only [String.length_append]
    have a1 : "START id=".length = 9 := rfl
    have a2 : " name=".length = 6 := rfl
    have a3 : " service=".length = 9 := rfl
    have a4 : "\n".length = 1 := rfl
    omega
  have e2 : snprintf 256 ("FINISH id=" ++ toString wa.patient.id ++ " name=" ++ wa.patient.name
      ++ " service=" ++ service_name wa.patient.service ++ "\n")
      = "FINISH id=" ++ toString wa.patient.id ++ " name=" ++ wa.patient.name ++ " service="
        ++ service_name wa.patient.service ++ "\n" := by
    apply snprintf_of_short
    simp only [String.length_append]
    have a1 : "FINISH id=".length = 10 := rfl
    have a2 : " name=".length = 6 := rfl
    have a3 : " service=".length = 9 := rfl
    have a4 : "\n".length = 1 := rfl
    omega
  simp only [patient_thread, written, e1, e2, List.head?, List.getLast?, List.getLast]
  exact ⟨trivial, trivial, trivial⟩

theorem worker_events_witness :
    written (patient_thread
        { patient := { id := 1, name := "A", priority := 1,
                       service := ServiceType.SERVICE_LAB_TEST,
                       required_time_ms := 5, arrival_ms := 0 },
          fifo_fd := 3 })
      = ["START id=" ++ toString (1 : Int) ++ " name=" ++ "A" ++ " service="
           ++ service_name ServiceType.SERVICE_LAB_TEST ++ "\n",
         "FINISH id=" ++ toString (1 : Int) ++ " name=" ++ "A" ++ " service="
           ++ service_name ServiceType.SERVICE_LAB_TEST ++ "\n"] :=
  (worker_events
    { patient := { id := 1, name := "A", priority := 1,
                   service := ServiceType.SERVICE_LAB_TEST,
                   required_time_ms := 5, arrival_ms := 0 },
      fifo_fd := 3 } (by decide) (by decide) (by decide)).1

/-! ## Timeline and metrics of the non-preemptive algorithms -/

/-- The totals of the non-preemptive loop of `compute_metrics` are the sums
of `start_ms - arrival_ms` and of `end_ms - arrival_ms` over the slices of
the timeline. -/
theorem np_foldl_eq_slices (list : PatientList) (is : List Nat) : ∀ s : NPState,
    (List.foldl np_step s (is.map (item list))).total_wait
      = s.total_wait + ((tl_np_slices list s.time is).map
          (fun x => usub x.start_ms (item list x.idx).arrival_ms)).sum ∧
    (List.foldl np_step s (is.map (item list))).total_turn
      = s.total_turn + ((tl_np_slices list s.time is).map
          (fun x => usub x.end_ms (item list x.idx).arrival_ms)).sum := by
  induction is with
  | nil => intro s; simp [tl_np_slices]
  | cons i is ih =>
    intro s
    obtain ⟨h1, h2⟩ := ih (np_step s (item list i))
    have ht : (np_step s (item list i)).time
        = uadd (np_start s.time (item list i)) (item list i).required_time_ms := rfl
    have hw : (np_step s (item list i)).total_wait
        = s.total_wait + usub (np_start s.time (item list i)) (item list i).arrival_ms := rfl
    have hu : (np_step s (item list i)).total_turn
        = s.total_turn + usub (uadd (np_start s.time (item list i))
            (item list i).required_time_ms) (item list i).arrival_ms := rfl
    simp only [List.map_cons, List.foldl_cons, tl_np_slices, List.sum_cons]
    rw [h1, h2, ht, hw, hu]
    constructor <;> ring

theorem tl_np_slices_end (list : PatientList) (is : List Nat) :
    ∀ time, ∀ x ∈ tl_np_slices list time is,
      x.end_ms = uadd x.start_ms (item list x.idx).required_time_ms := by
  induction is with
  | nil => intro time x hx; simp [tl_np_slices] at hx
  | cons i is ih =>
    intro time x hx
    simp only [tl_np_slices, List.mem_cons] at hx
    rcases hx with rfl | hx
    · rfl
    · exact ih _ x hx

/-- C28: for FCFS, SJF and Priority and a non-empty list, `build_timeline`
and `compute_metrics` (on the order of `schedule_order`) agree: the timeline
has exactly `n` slices, the `k`-th slice belongs to the request `order[k]`
and ends at its start plus the required time of that request (unsigned
arithmetic), the mean of `start_ms - arrival_ms` over the slices is the
average wait and the mean of `end_ms - arrival_ms` is the average
turnaround. -/
theorem build_timeline_agrees_with_metrics (fuel1 fuel2 : Nat) (list : PatientList)
    (alg : Algorithm) (quantum_ms : Nat) (hn : list ≠ [])
    (halg : alg = ALG_FCFS ∨ alg = ALG_SJF ∨ alg = ALG_PRIORITY) :
    ∃ slices m,
      build_timeline fuel1 list alg quantum_ms = .ok slices ∧
      compute_metrics fuel2 list (schedule_order list alg quantum_ms) alg quantum_ms = .ok m ∧
      slices.length = list.length ∧
      slices.map Slice.idx = schedule_order list alg quantum_ms ∧
      (∀ x ∈ slices, x.end_ms = uadd x.start_ms (item list x.idx).required_time_ms) ∧
      m.avg_wait_ms
        = (((slices.map (fun x => usub x.start_ms (item list x.idx).arrival_ms)).sum : Nat) : ℚ)
            / (list.length : ℚ) ∧
      m.avg_turnaround_ms
        = (((slices.map (fun x => usub x.end_ms (item list x.idx).arrival_ms)).sum : Nat) : ℚ)
            / (list.length : ℚ) := by
  have hp := schedule_order_perm list alg quantum_ms
  have hlen : (schedule_order list alg quantum_ms).length = list.length := by
    simpa using hp.length_eq
  have hne := nonpreemptive_ne_rr alg halg
  obtain ⟨h1, h2⟩ := np_foldl_eq_slices list (schedule_order list alg quantum_ms)
    { time := 0, total_wait := 0, total_turn := 0 }
  refine ⟨_, _, build_timeline_np_eq fuel1 list alg quantum_ms hne,
    compute_metrics_np_eq fuel2 list _ alg quantum_ms hn hp hne, ?_,
    tl_np_slices_idx _ _ _, tl_np_slices_end _ _ _, ?_, ?_⟩
  · rw [tl_np_slices_length, hlen]
  · simp only [h1, Nat.zero_add]
  · simp only [h2, Nat.zero_add]

theorem build_timeline_agrees_with_metrics_witness :
    ∃ slices m,
      build_timeline 0 [mkPatient 0 100, mkPatient 0 200, mkPatient 50 50] ALG_SJF 3
        = .ok slices ∧
      compute_metrics 0 [mkPatient 0 100, mkPatient 0 200, mkPatient 50 50]
        (schedule_order [mkPatient 0 100, mkPatient 0 200, mkPatient 50 50] ALG_SJF 3)
        ALG_SJF 3 = .ok m ∧
      slices.length = [mkPatient 0 100, mkPatient 0 200, mkPatient 50 50].length := by
  obtain ⟨slices, m, h1, h2, h3, _⟩ := build_timeline_agrees_with_metrics 0 0
    [mkPatient 0 100, mkPatient 0 200, mkPatient 50 50] ALG_SJF 3 (by decide)
    (Or.inr (Or.inl rfl))
  exact ⟨slices, m, h1, h2, h3⟩

/-! ## Shortest job first -/

theorem waiting_sum_orderedInsert (x : Nat) (s : List Nat) :
    waiting_sum (List.orderedInsert (fun a b : Nat => a ≤ b) x s) ≤ waiting_sum (x :: s) := by
  induction s with
  | nil => simp [waiting_sum]
  | cons y ys ih =>
    by_cases h : x ≤ y
    · simp [List.orderedInsert, h]
    · have hlen : (List.orderedInsert (fun a b : Nat => a ≤ b) x ys).length = ys.length + 1 :=
        List.orderedInsert_length _ _ _
      simp only [List.orderedInsert, h, if_false, waiting_sum, hlen, List.length_cons] at ih ⊢
      have hyx : y ≤ x := by omega
      nlinarith [ih, hyx]

theorem waiting_sum_insertionSort (l : List Nat) :
    waiting_sum (List.insertionSort (fun a b : Nat => a ≤ b) l) ≤ waiting_sum l := by
  induction l with
  | nil => simp
  | cons x xs ih =>
    have h1 := waiting_sum_orderedInsert x (List.insertionSort (fun a b : Nat => a ≤ b) xs)
    have hlen : (List.insertionSort (fun a b : Nat => a ≤ b) xs).length = xs.length :=
      List.length_insertionSort _ _
    simp only [List.insertionSort, waiting_sum, hlen] at h1 ⊢
    omega

/-- Among the rearrangements of a list of required times the sorted one has
the least total waiting time. -/
theorem waiting_sum_sorted_le (s l : List Nat) (hs : s.Pairwise (fun a b => a ≤ b))
    (hp : s.Perm l) : waiting_sum s ≤ waiting_sum l := by
  have he : s = List.insertionSort (fun a b : Nat => a ≤ b) l :=
    List.eq_of_perm_of_sorted (hp.trans (List.perm_insertionSort _ l).symm) hs
      (List.sorted_insertionSort _ l)
  rw [he]
  exact waiting_sum_insertionSort l

/-- With all requests arrived by the time the cursor stands at and no wrap,
the loop adds to the total wait the time already elapsed for each request and
the waiting sum of the required times. -/
theorem np_foldl_same_arrival (a : Nat) (ps : List Patient) : ∀ s : NPState,
    (∀ p ∈ ps, p.arrival_ms = a) → a ≤ s.time →
    s.time + (ps.map (fun p => p.required_time_ms)).sum < UINT_MOD →
    (List.foldl np_step s ps).total_wait
      = s.total_wait + ps.length * (s.time - a)
        + waiting_sum (ps.map (fun p => p.required_time_ms)) := by
  induction ps with
  | nil => intro s _ _ _; simp [waiting_sum]
  | cons p ps ih =>
    intro s hall ha hno
    have hpa : p.arrival_ms = a := hall p (List.mem_cons_self _ _)
    simp only [List.map_cons, List.sum_cons] at hno
    have hmax : max s.time p.arrival_ms = s.time := by rw [hpa]; exact max_eq_left ha
    obtain ⟨b1, b2, _⟩ := np_body_nowrap s.time p (by rw [hmax]; omega)
    rw [hmax] at b1 b2
    have ht : (np_step s p).time = s.time + p.required_time_ms := b1
    have hw : (np_step s p).total_wait = s.total_wait + (s.time - p.arrival_ms) := by
      show s.total_wait + (np_body s.time p).waiting = _
      rw [b2]
    have h := ih (np_step s p) (fun q hq => hall q (List.mem_cons_of_mem _ hq))
      (by rw [ht]; omega) (by rw [ht]; omega)
    simp only [List.foldl_cons, List.map_cons, waiting_sum, List.length_cons, List.length_map]
    rw [h, ht, hw, hpa]
    have e : s.time + p.required_time_ms - a = (s.time - a) + p.required_time_ms := by omega
    rw [e]
    ring

theorem np_step_raise (a : Nat) (s : NPState) (p : Patient) (hp : p.arrival_ms = a)
    (hs : s.time ≤ a) : np_step s p = np_step { s with time := a } p := by
  have e1 : (if p.arrival_ms > s.time then p.arrival_ms else s.time) = a := by
    rw [hp]; split_ifs <;> omega
  have e2 : (if p.arrival_ms > a then p.arrival_ms else a) = a := by
    rw [hp]; simp
  simp only [np_step, np_body, e1, e2]

/-- The total wait the loop computes from the initial state for requests that
all arrive at `a`, when `a` plus all required times does not wrap. -/
theorem np_total_wait_same_arrival (a : Nat) (ps : List Patient)
    (hall : ∀ p ∈ ps, p.arrival_ms = a)
    (hno : a + (ps.map (fun p => p.required_time_ms)).sum < UINT_MOD) :
    (List.foldl np_step { time := 0, total_wait := 0, total_turn := 0 } ps).total_wait
      = waiting_sum (ps.map (fun p => p.required_time_ms)) := by
  cases ps with
  | nil => simp [waiting_sum]
  | cons p ps =>
    have hp : p.arrival_ms = a := hall p (List.mem_cons_self _ _)
    have h := np_foldl_same_arrival a (p :: ps) { time := a, total_wait := 0, total_turn := 0 }
      hall (le_refl _) hno
    simp only [List.foldl_cons] at h ⊢
    rw [np_step_raise a _ p hp (Nat.zero_le _)]
    rw [h]
    simp

/-- C27: when all requests have the same arrival time and that time plus all
the required times stays below `2 ^ 32`, the order of `schedule_order` for
SJF gives the least average wait: for every permutation `p` of `[0, n)`, the
average wait `compute_metrics` returns on its non-preemptive path for the SJF
order is at most the one it returns for `p`. -/
theorem sjf_minimises_average_wait (fuel1 fuel2 : Nat) (list : PatientList) (p : List Nat)
    (alg : Algorithm) (quantum1 quantum2 quantum3 : Nat) (a : Nat)
    (hsame : ∀ x ∈ list, x.arrival_ms = a)
    (hperm : p.Perm (List.range list.length))
    (halg : alg = ALG_FCFS ∨ alg = ALG_SJF ∨ alg = ALG_PRIORITY)
    (hno : a + (list.map (fun x => x.required_time_ms)).sum < UINT_MOD) :
    ∃ m1 m2,
      compute_metrics fuel1 list (schedule_order list ALG_SJF quantum1) alg quantum2 = .ok m1 ∧
      compute_metrics fuel2 list p alg quantum3 = .ok m2 ∧
      m1.avg_wait_ms ≤ m2.avg_wait_ms := by
  by_cases hne : list = []
  · subst hne
    exact ⟨{ avg_wait_ms := 0, avg_turnaround_ms := 0 }, { avg_wait_ms := 0, avg_turnaround_ms := 0 },
      by simp [compute_metrics], by simp [compute_metrics], le_refl _⟩
  · have hps := schedule_order_perm list ALG_SJF quantum1
    have hne2 := nonpreemptive_ne_rr alg halg
    have hitem : ∀ (o : List Nat), o.Perm (List.range list.length) →
        (o.map (item list)).Perm list := by
      intro o ho
      have := ho.map (item list)
      rwa [map_item_range] at this
    have htot : ∀ (o : List Nat), o.Perm (List.range list.length) →
        (List.foldl np_step { time := 0, total_wait := 0, total_turn := 0 }
          (o.map (item list))).total_wait
          = waiting_sum ((o.map (item list)).map (fun x => x.required_time_ms)) := by
      intro o ho
      apply np_total_wait_same_arrival a
      · intro x hx
        exact hsame x ((hitem o ho).subset hx)
      · rw [sum_required_perm list o ho]
        exact hno
    refine ⟨_, _, compute_metrics_np_eq fuel1 list _ alg quantum2 hne hps hne2,
      compute_metrics_np_eq fuel2 list p alg quantum3 hne hperm hne2, ?_⟩
    simp only [htot _ hps, htot _ hperm]
    have hsorted : (((schedule_order list ALG_SJF quantum1).map (item list)).map
        (fun x => x.required_time_ms)).Pairwise (fun x y => x ≤ y) := by
      rw [List.map_map, List.pairwise_map]
      have h := qsort_pairwise (cmp_sjf list) (cmp_sjf_total list) (cmp_sjf_trans list)
        (List.range list.length)
      simp only [cmp_sjf_le] at h
      have h2 : (schedule_order list ALG_SJF quantum1).Pairwise
          (fun a b => (item list a).required_time_ms < (item list b).required_time_ms ∨
            ((item list a).required_time_ms = (item list b).required_time_ms ∧ a ≤ b)) := by
        simpa [schedule_order] using h
      refine h2.imp ?_
      intro x y hxy
      simp only [Function.comp]
      omega
    have hpm : (((schedule_order list ALG_SJF quantum1).map (item list)).map
        (fun x => x.required_time_ms)).Perm
        ((p.map (item list)).map (fun x => x.required_time_ms)) :=
      (((hitem _ hps).trans (hitem _ hperm).symm).map _)
    have hle := waiting_sum_sorted_le _ _ hsorted hpm
    have hn0 : (0 : ℚ) ≤ (list.length : ℚ) := by positivity
    exact div_le_div_of_nonneg_right (by exact_mod_cast hle) hn0

theorem sjf_minimises_average_wait_witness :
    ∃ m1 m2,
      compute_metrics 0 [mkPatient 0 100, mkPatient 0 200, mkPatient 0 50]
        (schedule_order [mkPatient 0 100, mkPatient 0 200, mkPatient 0 50] ALG_SJF 3)
        ALG_SJF 3 = .ok m1 ∧
      compute_metrics 0 [mkPatient 0 100, mkPatient 0 200, mkPatient 0 50] [1, 0, 2]
        ALG_SJF 3 = .ok m2 ∧
      m1.avg_wait_ms ≤ m2.avg_wait_ms :=
  sjf_minimises_average_wait 0 0 [mkPatient 0 100, mkPatient 0 200, mkPatient 0 50] [1, 0, 2]
    ALG_SJF 3 3 3 0 (by decide) (by decide) (Or.inr (Or.inl rfl)) (by decide)

/-! ## Storage: saving and loading -/

theorem digitChar_isDigit (k : Nat) (hk : k < 10) :
    (Nat.digitChar k).isDigit = true ∧ (Nat.digitChar k).toNat - 48 = k := by
  interval_cases k <;> decide

/-- The characters `Nat.toDigitsCore` puts in front of `ds` are decimal
digits, at least one, and read back as `n`. -/
theorem toDigitsCore_spec (fuel : Nat) : ∀ (n : Nat) (ds : List Char), n < fuel →
    ∃ pre, Nat.toDigitsCore 10 fuel n ds = pre ++ ds ∧ pre ≠ [] ∧
      (∀ c ∈ pre, c.isDigit = true) ∧
      ∀ v, digits_value v pre = v * 10 ^ pre.length + n := by
  induction fuel with
  | zero => intro n ds h; omega
  | succ fuel ih =>
    intro n ds h
    obtain ⟨d1, d2⟩ := digitChar_isDigit (n % 10) (Nat.mod_lt _ (by decide))
    unfold Nat.toDigitsCore
    by_cases h0 : n / 10 = 0
    · simp only [h0, if_true]
      refine ⟨[Nat.digitChar (n % 10)], rfl, by simp, ?_, ?_⟩
      · intro c hc
        simp only [List.mem_singleton] at hc
        rw [hc]; exact d1
      · intro v
        simp only [digits_value, List.foldl_cons, List.foldl_nil, d2, List.length_singleton,
          pow_one]
        have : n % 10 = n := Nat.mod_eq_of_lt (by omega)
        omega
    · simp only [h0, if_false]
      obtain ⟨pre, e, hne, hdig, hval⟩ := ih (n / 10) (Nat.digitChar (n % 10) :: ds) (by omega)
      refine ⟨pre ++ [Nat.digitChar (n % 10)], by rw [e]; simp, by simp, ?_, ?_⟩
      · intro c hc
        rcases List.mem_append.mp hc with hc | hc
        · exact hdig c hc
        · simp only [List.mem_singleton] at hc
          rw [hc]; exact d1
      · intro v
        have hv := hval v
        simp only [digits_value] at hv ⊢
        rw [List.foldl_append, hv]
        simp only [List.foldl_cons, List.foldl_nil, d2, List.length_append,
          List.length_singleton, pow_succ]
        have := Nat.div_add_mod n 10
        nlinarith [this]

theorem nat_repr_spec (n : Nat) :
    (Nat.repr n).data ≠ [] ∧ (∀ c ∈ (Nat.repr n).data, c.isDigit = true) ∧
    digits_value 0 (Nat.repr n).data = n := by
  obtain ⟨pre, e, hne, hdig, hval⟩ := toDigitsCore_spec (n + 1) n [] (by omega)
  have hd : (Nat.repr n).data = pre := by
    show (Nat.toDigits 10 n).asString.data = pre
    unfold Nat.toDigits
    rw [e]
    simp [List.asString]
  rw [hd]
  exact ⟨hne, hdig, by rw [hval 0]; simp⟩

theorem isDigit_not_special (c : Char) (h : c.isDigit = true) :
    isspace c = false ∧ c ≠ '-' ∧ c ≠ '+' ∧ c ≠ ',' ∧ c ≠ '\n' ∧ c ≠ '#' := by
  have hne : ∀ d : Char, d.isDigit = false → c ≠ d := by
    intro d hd hcd
    rw [hcd, hd] at h
    exact Bool.noConfusion h
  refine ⟨?_, hne _ (by decide), hne _ (by decide), hne _ (by decide), hne _ (by decide),
    hne _ (by decide)⟩
  simp only [isspace, decide_eq_false_iff_not, not_or]
  exact ⟨hne _ (by decide), hne _ (by decide), hne _ (by decide), hne _ (by decide),
    hne _ (by decide), hne _ (by decide)⟩

theorem takeWhile_all {α : Type} (p : α → Bool) (l : List α) (h : ∀ c ∈ l, p c = true) :
    l.takeWhile p = l := by
  induction l with
  | nil => rfl
  | cons x xs ih =>
    have hx := h x (List.mem_cons_self _ _)
    simp [List.takeWhile, hx, ih (fun c hc => h c (List.mem_cons_of_mem _ hc))]

/-- The library function `atoi` reads back the decimal text of a natural
number that fits an `int`. -/
theorem atoi_nat_repr (n : Nat) (h : n < 2 ^ 31) : atoi (Nat.repr n).data = .ok (n : Int) := by
  obtain ⟨hne, hdig, hval⟩ := nat_repr_spec n
  obtain ⟨c, cs, hcs⟩ := List.exists_cons_of_ne_nil hne
  have hc := isDigit_not_special c (hdig c (by rw [hcs]; exact List.mem_cons_self _ _))
  have h1 : (Nat.repr n).data.dropWhile isspace = (Nat.repr n).data := by
    rw [hcs]; simp [List.dropWhile, hc.1]
  have h2 : (Nat.repr n).data.head? = some c := by rw [hcs]; rfl
  have h3 : ((Nat.repr n).data.takeWhile Char.isDigit) = (Nat.repr n).data :=
    takeWhile_all _ _ hdig
  unfold atoi
  simp only [h1, h2, Option.some.injEq, hc.2.1, hc.2.2.1, or_self, if_false, h3, hval,
    decide_False]
  simp only [Int.reduceNeg, Int.reducePow, ite_eq_left_iff, not_and, not_lt, reduceCtorEq,
    imp_false, Classical.not_imp, not_le]
  constructor <;> omega

theorem strtok_token (tok : List Char) (d : Char) (rest : List Char) (hne : tok ≠ [])
    (hnd : ∀ c ∈ tok, c ≠ ',' ∧ c ≠ '\n') (hd : d = ',' ∨ d = '\n') :
    strtok (tok ++ d :: rest) = some (tok, rest) := by
  obtain ⟨c, cs, rfl⟩ := List.exists_cons_of_ne_nil hne
  have hc := hnd c (List.mem_cons_self _ _)
  have h1 : ((c :: cs) ++ d :: rest).dropWhile (fun c => decide (c = ',' ∨ c = '\n'))
      = (c :: cs) ++ d :: rest := by
    simp [List.dropWhile, hc.1, hc.2]
  have h2 : ∀ l : List Char, (∀ x ∈ l, x ≠ ',' ∧ x ≠ '\n') →
      (l ++ d :: rest).takeWhile (fun c => decide ¬ (c = ',' ∨ c = '\n')) = l ∧
      (l ++ d :: rest).dropWhile (fun c => decide ¬ (c = ',' ∨ c = '\n')) = d :: rest := by
    intro l
    induction l with
    | nil => intro _; simp [List.takeWhile, List.dropWhile, hd]
    | cons x xs ih =>
      intro hx
      have hx1 := hx x (List.mem_cons_self _ _)
      obtain ⟨i1, i2⟩ := ih (fun y hy => hx y (List.mem_cons_of_mem _ hy))
      have e : (x :: xs) ++ d :: rest = x :: (xs ++ d :: rest) := rfl
      rw [e, List.takeWhile_cons, List.dropWhile_cons]
      have hp : (decide ¬ (x = ',' ∨ x = '\n')) = true := by simp [hx1.1, hx1.2]
      rw [if_pos hp, if_pos hp, i1, i2]
      exact ⟨rfl, rfl⟩
  obtain ⟨t1, t2⟩ := h2 (c :: cs) hnd
  unfold strtok
  simp only [h1, t1, t2]
  simp

theorem fgets_line (body rest : List Char) (hb : ∀ c ∈ body, c ≠ '\n')
    (hlen : body.length < 511) :
    fgets 512 (body ++ '\n' :: rest) = some (body ++ ['\n'], rest) := by
  have h1 : ∀ (l : List Char) (m : Nat), (∀ c ∈ l, c ≠ '\n') → l.length < m →
      ((l ++ '\n' :: rest).take m).takeWhile (fun c => decide (c ≠ '\n')) = l := by
    intro l
    induction l with
    | nil =>
      intro m _ hm
      cases m with
      | zero => omega
      | succ m => simp [List.takeWhile]
    | cons x xs ih =>
      intro m hx hm
      cases m with
      | zero => omega
      | succ m =>
        have hx1 := hx x (List.mem_cons_self _ _)
        have := ih m (fun y hy => hx y (List.mem_cons_of_mem _ hy))
          (by simp at hm; omega)
        simpa [List.takeWhile, hx1] using this
  have hb2 := h1 body 511 hb hlen
  unfold fgets
  have hne : body ++ '\n' :: rest ≠ [] := by simp
  simp only [hne, if_false, hb2, Nat.add_one_sub_one]
  have hget : (body ++ '\n' :: rest)[body.length]? = some '\n' := by
    rw [List.getElem?_append_right (le_refl _)]
    simp
  simp [hlen, hget]

theorem int_toString_nonneg (i : Int) (h : 0 ≤ i) : toString i = Nat.repr i.toNat := by
  cases i with
  | ofNat m => rfl
  | negSucc m => exact absurd h (by simp [Int.negSucc_lt_zero])

theorem repr_token (n : Nat) :
    (Nat.repr n).data ≠ [] ∧ (∀ c ∈ (Nat.repr n).data, c ≠ ',' ∧ c ≠ '\n') ∧
    (Nat.repr n).data.head? ≠ some '#' := by
  obtain ⟨hne, hdig, _⟩ := nat_repr_spec n
  refine ⟨hne, ?_, ?_⟩
  · intro c hc
    have := isDigit_not_special c (hdig c hc)
    exact ⟨this.2.2.2.1, this.2.2.2.2.1⟩
  · obtain ⟨c, cs, hcs⟩ := List.exists_cons_of_ne_nil hne
    have := isDigit_not_special c (hdig c (by rw [hcs]; exact List.mem_cons_self _ _))
    rw [hcs]
    simp only [List.head?, ne_eq, Option.some.injEq]
    exact this.2.2.2.2.2

theorem parse_service_name (s : ServiceType) :
    parse_service (service_name_storage s) = .ok s := by
  cases s <;> rfl

theorem service_name_storage_token (s : ServiceType) :
    (service_name_storage s).data ≠ [] ∧
    (∀ c ∈ (service_name_storage s).data, c ≠ ',' ∧ c ≠ '\n') ∧
    (service_name_storage s).length ≤ 12 := by
  cases s <;> decide

theorem int_to_unsigned_nat (n : Nat) (h : n < 2 ^ 31) : int_to_unsigned (n : Int) = n := by
  unfold int_to_unsigned
  have : ((n : Int) % (2 ^ 32 : Int)) = (n : Int) := Int.emod_eq_of_lt (by omega) (by omega)
  rw [this]
  simp

/-- The characters of the line written for a record, field by field. -/
theorem save_line_data (p : Patient) :
    (save_line p).data
      = (toString p.id).data ++ ',' :: ((p.name.data) ++ ',' ::
          ((service_name_storage p.service).data ++ ',' ::
            ((toString p.priority).data ++ ',' ::
              ((toString p.required_time_ms).data ++ ',' ::
                ((toString p.arrival_ms).data ++ ['\n']))))) := by
  simp [save_line, String.data_append]

theorem save_line_body (p : Patient) (h : well_formed_record p) :
    ∃ body, (save_line p).data = body ++ ['\n'] ∧ (∀ c ∈ body, c ≠ '\n') ∧
      body.length < 511 ∧ 2 ≤ body.length := by
  obtain ⟨h1, h2, h3, h4, h5, h6, h7, h8, h9⟩ := h
  have e1 := int_toString_nonneg p.id (le_of_lt h1)
  have e2 := int_toString_nonneg p.priority h6
  have hid : p.id.toNat < 10 ^ 10 := by omega
  have hpr : p.priority.toNat < 10 ^ 10 := by omega
  have l1 := Nat.repr_length p.id.toNat 10 (by decide) hid
  have l2 := Nat.repr_length p.priority.toNat 10 (by decide) hpr
  have l3 := Nat.repr_length p.required_time_ms 10 (by decide) (by omega)
  have l4 := Nat.repr_length p.arrival_ms 10 (by decide) (by omega)
  obtain ⟨s1, s2, s3⟩ := service_name_storage_token p.service
  obtain ⟨a1, a2, _⟩ := repr_token p.id.toNat
  obtain ⟨b1, b2, _⟩ := repr_token p.priority.toNat
  obtain ⟨c1, c2, _⟩ := repr_token p.required_time_ms
  obtain ⟨d1, d2, _⟩ := repr_token p.arrival_ms
  have t3 : toString p.required_time_ms = Nat.repr p.required_time_ms := rfl
  have t4 : toString p.arrival_ms = Nat.repr p.arrival_ms := rfl
  refine ⟨(toString p.id).data ++ ',' :: ((p.name.data) ++ ',' ::
          ((service_name_storage p.service).data ++ ',' ::
            ((toString p.priority).data ++ ',' ::
              ((toString p.required_time_ms).data ++ ',' ::
                (toString p.arrival_ms).data)))), ?_, ?_, ?_, ?_⟩
  · rw [save_line_data]; simp
  · intro c hc
    have hcomma : (',' : Char) ≠ '\n' := by decide
    simp only [List.mem_append, List.mem_cons, e1, e2, t3, t4] at hc
    rcases hc with hc | rfl | hc | rfl | hc | rfl | hc | rfl | hc | rfl | hc
    · exact (a2 c hc).2
    · exact hcomma
    · exact (h5 c hc).2
    · exact hcomma
    · exact (s2 c hc).2
    · exact hcomma
    · exact (b2 c hc).2
    · exact hcomma
    · exact (c2 c hc).2
    · exact hcomma
    · exact (d2 c hc).2
  · have h4b : p.name.data.length < 64 := h4
    have s3b : (service_name_storage p.service).data.length ≤ 12 := s3
    have l1b : (Nat.repr p.id.toNat).data.length ≤ 10 := l1
    have l2b : (Nat.repr p.priority.toNat).data.length ≤ 10 := l2
    have l3b : (Nat.repr p.required_time_ms).data.length ≤ 10 := l3
    have l4b : (Nat.repr p.arrival_ms).data.length ≤ 10 := l4
    simp only [List.length_append, List.length_cons, e1, e2, t3, t4]
    omega
  · simp only [List.length_append, List.length_cons]
    omega

/-- Reading the line written for a well-formed record gives the record
back. -/
theorem load_line_save_line (p : Patient) (count : Nat) (h : well_formed_record p) :
    load_line (save_line p).data count = .ok (some p) := by
  obtain ⟨body, hb, _, _, hb2⟩ := save_line_body p h
  obtain ⟨h1, h2, h3, h4, h5, h6, h7, h8, h9⟩ := h
  have e1 := int_toString_nonneg p.id (le_of_lt h1)
  have e2 := int_toString_nonneg p.priority h6
  have t3 : toString p.required_time_ms = Nat.repr p.required_time_ms := rfl
  have t4 : toString p.arrival_ms = Nat.repr p.arrival_ms := rfl
  obtain ⟨s1, s2, s3⟩ := service_name_storage_token p.service
  obtain ⟨a1, a2, a3⟩ := repr_token p.id.toNat
  obtain ⟨b1, b2, _⟩ := repr_token p.priority.toNat
  obtain ⟨c1, c2, _⟩ := repr_token p.required_time_ms
  obtain ⟨d1, d2, _⟩ := repr_token p.arrival_ms
  have hhead : (save_line p).data.head? ≠ some '#' := by
    rw [save_line_data, e1]
    obtain ⟨c, cs, hcs⟩ := List.exists_cons_of_ne_nil a1
    rw [hcs] at a3 ⊢
    exact a3
  have hlen : ¬ (save_line p).data.length < 3 := by
    rw [hb]; simp; omega
  have k1 := strtok_token _ ',' ((p.name.data) ++ ',' ::
          ((service_name_storage p.service).data ++ ',' ::
            ((toString p.priority).data ++ ',' ::
              ((toString p.required_time_ms).data ++ ',' ::
                ((toString p.arrival_ms).data ++ ['\n']))))) a1 a2 (Or.inl rfl)
  have k2 := strtok_token _ ',' ((service_name_storage p.service).data ++ ',' ::
            ((toString p.priority).data ++ ',' ::
              ((toString p.required_time_ms).data ++ ',' ::
                ((toString p.arrival_ms).data ++ ['\n'])))) h3 h5 (Or.inl rfl)
  have k3 := strtok_token _ ',' ((toString p.priority).data ++ ',' ::
              ((toString p.required_time_ms).data ++ ',' ::
                ((toString p.arrival_ms).data ++ ['\n']))) s1 s2 (Or.inl rfl)
  have k4 := strtok_token _ ',' ((toString p.required_time_ms).data ++ ',' ::
                ((toString p.arrival_ms).data ++ ['\n'])) b1 b2 (Or.inl rfl)
  have k5 := strtok_token _ ',' ((toString p.arrival_ms).data ++ ['\n']) c1 c2 (Or.inl rfl)
  have k6 := strtok_token _ '\n' [] d1 d2 (Or.inr rfl)
  have v1 := atoi_nat_repr p.id.toNat (by omega)
  have v2 := atoi_nat_repr p.priority.toNat (by omega)
  have v3 := atoi_nat_repr p.required_time_ms h8
  have v4 := atoi_nat_repr p.arrival_ms h9
  have n1 : snprintf 64 (String.mk p.name.data) = p.name :=
    snprintf_of_short 64 _ h4
  have n2 : snprintf 64 (String.mk (service_name_storage p.service).data)
      = service_name_storage p.service :=
    snprintf_of_short 64 _ (by
      have s3b : (service_name_storage p.service).data.length ≤ 12 := s3
      show (service_name_storage p.service).data.length < 64
      omega)
  have i1 : ((p.id.toNat : Nat) : Int) = p.id := Int.toNat_of_nonneg (le_of_lt h1)
  have i2 : ((p.priority.toNat : Nat) : Int) = p.priority := Int.toNat_of_nonneg h6
  unfold load_line
  simp only [hhead, hlen, or_self, if_false]
  rw [save_line_data]
  simp only [e1, e2, t3, t4] at k1 k2 k3 k4 k5 k6 ⊢
  simp only [k1, v1, bind, Except.bind, k2, k3, k4, v2, k5, v3, k6, v4, n1, n2,
    parse_service_name, pure, Except.pure, i1, i2, h1, if_true,
    int_to_unsigned_nat _ h8, int_to_unsigned_nat _ h9]

theorem save_foldl_data (ps : List Patient) : ∀ t : String,
    (List.foldl (fun text p => text ++ save_line p) t ps).data
      = t.data ++ List.foldr (fun p rest => (save_line p).data ++ rest) [] ps := by
  induction ps with
  | nil => intro t; simp
  | cons p ps ih =>
    intro t
    simp only [List.foldl_cons, List.foldr_cons]
    rw [ih (t ++ save_line p), String.data_append, List.append_assoc]

theorem save_lines_length (ps : List Patient) (h : ∀ p ∈ ps, well_formed_record p) :
    ps.length ≤ (List.foldr (fun p rest => (save_line p).data ++ rest) [] ps).length := by
  induction ps with
  | nil => simp
  | cons p ps ih =>
    obtain ⟨body, hb, _, _, hb2⟩ := save_line_body p (h p (List.mem_cons_self _ _))
    have := ih (fun q hq => h q (List.mem_cons_of_mem _ hq))
    simp only [List.foldr_cons, List.length_append, List.length_cons, hb]
    simp
    omega

/-- Reading the lines written for well-formed records appends the records
to those read so far. -/
theorem load_loop_saved (ps : List Patient) : ∀ (items : List Patient) (fuel : Nat),
    (∀ p ∈ ps, well_formed_record p) → ps.length ≤ fuel →
    load_loop fuel (List.foldr (fun p rest => (save_line p).data ++ rest) [] ps) items
      = .ok (items ++ ps) := by
  induction ps with
  | nil =>
    intro items fuel _ _
    cases fuel with
    | zero => simp [load_loop]
    | succ f => simp [load_loop, fgets]
  | cons p ps ih =>
    intro items fuel h hf
    cases fuel with
    | zero => simp at hf
    | succ f =>
      have hp := h p (List.mem_cons_self _ _)
      obtain ⟨body, hb, hb1, hb2, _⟩ := save_line_body p hp
      have hl := load_line_save_line p items.length hp
      have hfg := fgets_line body
        (List.foldr (fun p rest => (save_line p).data ++ rest) [] ps) hb1 hb2
      have hin : (save_line p).data
          ++ List.foldr (fun p rest => (save_line p).data ++ rest) [] ps
          = body ++ '\n' :: List.foldr (fun p rest => (save_line p).data ++ rest) [] ps := by
        rw [hb]; simp
      simp only [List.foldr_cons, load_loop]
      rw [hin, hfg]
      simp only [← hb, hl, bind, Except.bind]
      rw [ih (items ++ [p]) f (fun q hq => h q (List.mem_cons_of_mem _ hq))
        (by simp at hf; omega)]
      simp

/-- C30: saving and loading are inverse on well-formed lists.
`parse_service` gives back each of the three service types from the name
`service_name_storage` writes for it, and for every list of well-formed
records (positive id, a name that is not empty, is shorter than 64
characters and has no comma and no newline, priority, required time and
arrival time in the non-negative range of `int`) `load_patients_csv` applied
to the text `save_patients_csv` writes returns the same list: the same count
and the same fields in the same order. -/
theorem save_load_roundtrip (list : PatientList)
    (h : ∀ p ∈ list, well_formed_record p) :
    (∀ s : ServiceType, parse_service (service_name_storage s) = .ok s) ∧
    load_patients_csv (save_patients_csv list) = .ok list := by
  refine ⟨parse_service_name, ?_⟩
  have hd := save_foldl_data list "# id,name,service,priority,required_ms,arrival_ms\n"
  have hlen := save_lines_length list h
  have hheader : ("# id,name,service,priority,required_ms,arrival_ms\n" : String).data
      = "# id,name,service,priority,required_ms,arrival_ms".data ++ ['\n'] := by decide
  have hfg := fgets_line "# id,name,service,priority,required_ms,arrival_ms".data
    (List.foldr (fun p rest => (save_line p).data ++ rest) [] list) (by decide) (by decide)
  have hskip : ∀ count, load_line
      ("# id,name,service,priority,required_ms,arrival_ms".data ++ ['\n']) count
      = .ok none := by
    intro count
    rfl
  have hfuel : ∃ f, (save_patients_csv list).length = f + 1 ∧ list.length ≤ f := by
    refine ⟨(save_patients_csv list).length - 1, ?_, ?_⟩
    · have : 0 < (save_patients_csv list).length := by
        show 0 < (save_patients_csv list).data.length
        unfold save_patients_csv
        rw [hd, hheader]
        simp
      omega
    · show list.length ≤ (save_patients_csv list).data.length - 1
      unfold save_patients_csv
      rw [hd, hheader]
      simp only [List.length_append, List.length_cons, List.length_nil]
      omega
  obtain ⟨f, hf1, hf2⟩ := hfuel
  unfold load_patients_csv
  rw [hf1]
  unfold save_patients_csv
  rw [hd, hheader]
  have hin : "# id,name,service,priority,required_ms,arrival_ms".data ++ ['\n']
      ++ List.foldr (fun p rest => (save_line p).data ++ rest) [] list
      = "# id,name,service,priority,required_ms,arrival_ms".data
        ++ '\n' :: List.foldr (fun p rest => (save_line p).data ++ rest) [] list := by
    simp
  rw [hin]
  simp only [load_loop, hfg, hskip, bind, Except.bind]
  rw [load_loop_saved list [] f h hf2]
  simp

theorem save_load_roundtrip_witness :
    load_patients_csv (save_patients_csv
        [{ id := 1, name := "Ann Lee", priority := 2,
           service := ServiceType.SERVICE_LAB_TEST, required_time_ms := 300,
           arrival_ms := 0 },
         { id := 7, name := "B", priority := 5,
           service := ServiceType.SERVICE_TREATMENT, required_time_ms := 0,
           arrival_ms := 12 }])
      = .ok [{ id := 1, name := "Ann Lee", priority := 2,
               service := ServiceType.SERVICE_LAB_TEST, required_time_ms := 300,
               arrival_ms := 0 },
             { id := 7, name := "B", priority := 5,
               service := ServiceType.SERVICE_TREATMENT, required_time_ms := 0,
               arrival_ms := 12 }] :=
  (save_load_roundtrip
    [{ id := 1, name := "Ann Lee", priority := 2,
       service := ServiceType.SERVICE_LAB_TEST, required_time_ms := 300, arrival_ms := 0 },
     { id := 7, name := "B", priority := 5,
       service := ServiceType.SERVICE_TREATMENT, required_time_ms := 0, arrival_ms := 12 }]
    (by decide)).2

/-! ## Round-Robin: the ready queue -/

theorem mod_add_ne (n h j k : Nat) (hjk : j < k) (hk : k < n) :
    (h + j) % n ≠ (h + k) % n := by
  intro he
  have h1 : j % n = k % n := Nat.ModEq.add_left_cancel' h he
  rw [Nat.mod_eq_of_lt (by omega), Nat.mod_eq_of_lt hk] at h1
  omega

theorem mod_succ_add (n h j : Nat) : ((h + 1) % n + j) % n = (h + (j + 1)) % n := by
  rw [Nat.mod_add_mod]
  congr 1
  omega

/-- Enqueueing on a buffer that is not full appends to the queue. -/
theorem ring_enqueue (n : Nat) (s : RRState) (ready : List Nat) (pid : Nat)
    (h : ring_holds n s ready) (hlt : ready.length < n) (hn : n < SIZE_MOD) :
    ring_holds n (rr_enqueue n s pid) (ready ++ [pid]) := by
  obtain ⟨h1, h2, h3, h4, h5, h6⟩ := h
  have htail : s.tail < s.queue.length := by
    rw [h5, h1]; exact Nat.mod_lt _ (by omega)
  refine ⟨by simp [rr_enqueue, h1], h2, ?_, by simp; omega, ?_, ?_⟩
  · simp only [rr_enqueue, h3, List.length_append, List.length_singleton]
    exact Nat.mod_eq_of_lt (by omega)
  · simp only [rr_enqueue, h5, List.length_append, List.length_singleton]
    rw [Nat.mod_add_mod]
    rfl
  · intro j hj
    simp only [List.length_append, List.length_singleton] at hj
    by_cases hjl : j < ready.length
    · have hne : s.tail ≠ (s.head + j) % n := by
        rw [h5]; exact (mod_add_ne n s.head j ready.length hjl hlt).symm
      simp only [rr_enqueue]
      rw [List.getElem?_set_ne hne, h6 j hjl, List.getElem?_append_left hjl]
    · have hje : j = ready.length := by omega
      subst hje
      simp only [rr_enqueue]
      rw [← h5]
      simp [htail]

/-- Dequeueing from a buffer that holds `pid :: ready` reads `pid` and leaves
`ready`. -/
theorem ring_dequeue (n : Nat) (s : RRState) (pid : Nat) (ready : List Nat)
    (h : ring_holds n s (pid :: ready)) (hn : n < SIZE_MOD) :
    rdq s.queue s.head = .ok pid ∧
    ring_holds n
      { s with head := (s.head + 1) % n, qcount := (s.qcount + SIZE_MOD - 1) % SIZE_MOD }
      ready := by
  obtain ⟨h1, h2, h3, h4, h5, h6⟩ := h
  simp only [List.length_cons] at h3 h4 h5
  constructor
  · have := h6 0 (by simp)
    simp only [Nat.add_zero, Nat.mod_eq_of_lt h2, List.getElem?_cons_zero] at this
    simp [rdq, this]
  · refine ⟨h1, Nat.mod_lt _ (by omega), ?_, by omega, ?_, ?_⟩
    · show (s.qcount + SIZE_MOD - 1) % SIZE_MOD = ready.length
      rw [h3]
      have : ready.length + 1 + SIZE_MOD - 1 = ready.length + SIZE_MOD := by omega
      rw [this, Nat.add_mod_right]
      exact Nat.mod_eq_of_lt (by omega)
    · show s.tail = ((s.head + 1) % n + ready.length) % n
      rw [h5, mod_succ_add]
    · intro j hj
      show s.queue[((s.head + 1) % n + j) % n]? = some (ready[j]?)
      rw [mod_succ_add, h6 (j + 1) (by simp; omega)]
      simp

theorem rd_getD (xs : List Nat) (i : Nat) (h : i < xs.length) : rd xs i = .ok (xs.getD i 0) := by
  simp [rd, List.getD, List.getElem?_eq_getElem h]

theorem fifo_admitted_of_ge (arrival ao : List Nat) (time next : Nat) (h : ao.length ≤ next) :
    fifo_admitted arrival ao time next = [] := by
  simp [fifo_admitted, List.drop_eq_nil_of_le h]

theorem fifo_admitted_step (arrival ao : List Nat) (time next : Nat) (h : next < ao.length) :
    fifo_admitted arrival ao time next
      = if arrival.getD (ao.getD next 0) 0 ≤ time then
          ao.getD next 0 :: fifo_admitted arrival ao time (next + 1)
        else [] := by
  have hd : ao.drop next = ao.getD next 0 :: ao.drop (next + 1) := by
    rw [List.drop_eq_getElem_cons h]
    simp [List.getD, List.getElem?_eq_getElem h]
  simp only [fifo_admitted, hd, List.takeWhile_cons]
  by_cases hc : arrival.getD (ao.getD next 0) 0 ≤ time
  · simp only [hc, decide_True, if_true]
  · simp only [hc, decide_False, if_false, Bool.false_eq_true]

/-- The admission loop of the C code appends to the buffer what the
admission on the list queue appends, and changes nothing else. -/
theorem rr_admit_refines (n : Nat) (arrival ao : List Nat) (hao : ao.length = n)
    (hall : ∀ pid ∈ ao, pid < n) (harr : arrival.length = n) (hn : n < SIZE_MOD) :
    ∀ (fuel : Nat) (s : RRState) (ready : List Nat), ring_holds n s ready →
      s.next_arrival + fuel = n → ready.length + fuel ≤ n →
      ∃ s1, rr_admit n arrival ao fuel s = .ok s1 ∧
        ring_holds n s1 (ready ++ fifo_admitted arrival ao s.time s.next_arrival) ∧
        s1.next_arrival
          = s.next_arrival + (fifo_admitted arrival ao s.time s.next_arrival).length ∧
        s1.remaining = s.remaining ∧ s1.time = s.time ∧ s1.completed = s.completed ∧
        s1.waiting = s.waiting ∧ s1.finish = s.finish := by
  intro fuel
  induction fuel with
  | zero =>
    intro s ready hr hf _
    have : fifo_admitted arrival ao s.time s.next_arrival = [] :=
      fifo_admitted_of_ge _ _ _ _ (by omega)
    exact ⟨s, rfl, by rw [this]; simpa using hr, by rw [this]; rfl, rfl, rfl, rfl, rfl, rfl⟩
  | succ fuel ih =>
    intro s ready hr hf hlen
    have hlt : s.next_arrival < n := by omega
    have hlt2 : s.next_arrival < ao.length := by omega
    have hpid : ao.getD s.next_arrival 0 < n := by
      apply hall
      rw [List.getD_eq_getElem _ _ hlt2]
      exact List.getElem_mem _
    have hstep := fifo_admitted_step arrival ao s.time s.next_arrival hlt2
    unfold rr_admit
    simp only [hlt, if_true, rd_getD ao _ hlt2, bind, Except.bind,
      rd_getD arrival _ (by omega : ao.getD s.next_arrival 0 < arrival.length)]
    by_cases ha : arrival.getD (ao.getD s.next_arrival 0) 0 ≤ s.time
    · simp only [ha, if_true] at hstep ⊢
      have hr1 := ring_enqueue n s ready (ao.getD s.next_arrival 0) hr (by omega) hn
      obtain ⟨s1, e1, r1, n1, m1, t1, c1, w1, f1⟩ :=
        ih { rr_enqueue n s (ao.getD s.next_arrival 0) with
              next_arrival := s.next_arrival + 1 }
          (ready ++ [ao.getD s.next_arrival 0]) hr1 (by simp; omega) (by simp; omega)
      refine ⟨s1, e1, ?_, ?_, m1, t1, c1, w1, f1⟩
      · rw [hstep]
        simpa [rr_enqueue] using r1
      · rw [hstep, n1]
        simp [rr_enqueue]
        omega
    · simp only [ha, if_false] at hstep ⊢
      exact ⟨s, rfl, by rw [hstep]; simpa using hr, by rw [hstep]; rfl, rfl, rfl, rfl, rfl,
        rfl⟩

/-- The waiting loop of the C code, started at any position of the buffer,
does what `fifo_wait` does on the requests from that position on. -/
theorem rr_wait_others_from (n slice : Nat) (s : RRState) (ready : List Nat)
    (hr : ring_holds n s ready) (hq : ∀ o ∈ ready, o < n) (hrem : s.remaining.length = n) :
    ∀ (others pre w : List Nat), ready = pre ++ others → w.length = n →
      rr_wait_others n slice others.length ((s.head + pre.length) % n) { s with waiting := w }
        = .ok { s with waiting := fifo_wait slice s.remaining others w } := by
  obtain ⟨h1, h2, h3, h4, h5, h6⟩ := hr
  intro others
  induction others with
  | nil => intro pre w _ _; simp [rr_wait_others, fifo_wait]
  | cons o os ih =>
    intro pre w hpre hw
    have hj : pre.length < ready.length := by rw [hpre]; simp
    have hslot := h6 pre.length hj
    have hget : ready[pre.length]? = some o := by
      rw [hpre, List.getElem?_append_right (le_refl _)]
      simp
    rw [hget] at hslot
    have ho : o < n := hq o (by rw [hpre]; simp)
    have hnext : ((s.head + pre.length) % n + 1) % n = (s.head + (pre ++ [o]).length) % n := by
      rw [Nat.mod_add_mod]
      simp [Nat.add_assoc]
    simp only [List.length_cons, rr_wait_others, rdq, hslot, bind, Except.bind,
      rd_getD s.remaining o (by omega)]
    by_cases hpos : s.remaining.getD o 0 > 0
    · simp only [hpos, if_true, rd_getD w o (by omega)]
      have := ih (pre ++ [o]) (w.set o (uadd (w.getD o 0) slice)) (by simp [hpre])
        (by simp [hw])
      rw [hnext, this]
      simp only [fifo_wait, List.foldl_cons, hpos, if_true]
    · simp only [hpos, if_false]
      have := ih (pre ++ [o]) w (by simp [hpre]) hw
      rw [hnext, this]
      simp only [fifo_wait, List.foldl_cons, hpos, if_false]

theorem rr_wait_others_refines (n slice : Nat) (s : RRState) (ready : List Nat)
    (hr : ring_holds n s ready) (hq : ∀ o ∈ ready, o < n) (hrem : s.remaining.length = n)
    (hw : s.waiting.length = n) :
    rr_wait_others n slice s.qcount s.head s
      = .ok { s with waiting := fifo_wait slice s.remaining ready s.waiting } := by
  have h := rr_wait_others_from n slice s ready hr hq hrem ready [] s.waiting (by simp) hw
  obtain ⟨_, h2, h3, _, _, _⟩ := hr
  simp only [List.length_nil, Nat.add_zero, Nat.mod_eq_of_lt h2, ← h3] at h
  exact h

/-! ### What the admission loop admits -/

theorem takeWhile_drop_length {α : Type} (p : α → Bool) (l : List α) :
    l = l.takeWhile p ++ l.drop (l.takeWhile p).length := by
  induction l with
  | nil => simp
  | cons x xs ih =>
    by_cases hx : p x = true
    · simp only [List.takeWhile_cons, hx, if_true, List.length_cons, List.drop_succ_cons,
        List.cons_append]
      rw [← ih]
    · simp [List.takeWhile_cons, hx]

theorem takeWhile_stop {α : Type} (p : α → Bool) (d : α) (l : List α)
    (h : (l.takeWhile p).length < l.length) :
    p (l.getD (l.takeWhile p).length d) = false := by
  induction l with
  | nil => simp at h
  | cons x xs ih =>
    by_cases hx : p x = true
    · simp only [List.takeWhile_cons, hx, if_true, List.length_cons] at h ⊢
      rw [List.getD_cons_succ]
      exact ih (by omega)
    · simp only [List.takeWhile_cons, hx, if_false, List.length_nil, List.getD_cons_zero,
        Bool.false_eq_true]

theorem fifo_admitted_split (arrival ao : List Nat) (time next : Nat) :
    ao.drop next = fifo_admitted arrival ao time next
      ++ ao.drop (next + (fifo_admitted arrival ao time next).length) := by
  have h := takeWhile_drop_length (fun pid => decide (arrival.getD pid 0 ≤ time)) (ao.drop next)
  rw [List.drop_drop] at h
  exact h

theorem fifo_admitted_take (arrival ao : List Nat) (time next : Nat) :
    ao.take (next + (fifo_admitted arrival ao time next).length)
      = ao.take next ++ fifo_admitted arrival ao time next := by
  rw [List.take_add]
  congr 1
  conv_lhs => rw [fifo_admitted_split arrival ao time next]
  exact List.take_left _ _

theorem fifo_admitted_length (arrival ao : List Nat) (time next : Nat) (h : next ≤ ao.length) :
    next + (fifo_admitted arrival ao time next).length ≤ ao.length := by
  have h1 : (fifo_admitted arrival ao time next).length ≤ (ao.drop next).length :=
    (List.takeWhile_sublist _).length_le
  simp only [List.length_drop] at h1
  omega

theorem fifo_admitted_arrived (arrival ao : List Nat) (time next : Nat) :
    ∀ pid ∈ fifo_admitted arrival ao time next, arrival.getD pid 0 ≤ time := by
  intro pid hp
  have := List.mem_takeWhile_imp hp
  simpa using this

theorem fifo_admitted_mem_drop (arrival ao : List Nat) (time next : Nat) :
    ∀ pid ∈ fifo_admitted arrival ao time next, pid ∈ ao.drop next := by
  intro pid hp
  exact (List.takeWhile_sublist _).subset hp

/-- The request at which the admission loop stops has not arrived. -/
theorem fifo_admitted_stop (arrival ao : List Nat) (time next : Nat)
    (h : next + (fifo_admitted arrival ao time next).length < ao.length) :
    time < arrival.getD (ao.getD (next + (fifo_admitted arrival ao time next).length) 0) 0 := by
  have h1 : ((ao.drop next).takeWhile (fun pid => decide (arrival.getD pid 0 ≤ time))).length
      < (ao.drop next).length := by
    have : (fifo_admitted arrival ao time next).length
        = ((ao.drop next).takeWhile
            (fun pid => decide (arrival.getD pid 0 ≤ time))).length := rfl
    rw [List.length_drop]
    omega
  have h2 := takeWhile_stop (fun pid => decide (arrival.getD pid 0 ≤ time)) 0 (ao.drop next) h1
  have h3 : (ao.drop next).getD
      ((ao.drop next).takeWhile (fun pid => decide (arrival.getD pid 0 ≤ time))).length 0
      = ao.getD (next + (fifo_admitted arrival ao time next).length) 0 := by
    unfold fifo_admitted
    simp only [List.getD_eq_getElem?_getD, List.getElem?_drop]
  rw [h3] at h2
  simpa using h2

/-! ### The queue invariant -/

theorem rr_setting_order (n q : Nat) (arrival required ao : List Nat)
    (h : rr_setting n q arrival required ao) :
    ao.length = n ∧ ao.Nodup ∧ ∀ pid ∈ ao, pid < n := by
  obtain ⟨_, _, _, _, _, hp, _⟩ := h
  exact ⟨by simpa using hp.length_eq, hp.nodup_iff.mpr (List.nodup_range n),
    fun pid hpid => List.mem_range.mp (hp.subset hpid)⟩

theorem not_mem_drop_of_mem_take (ao : List Nat) (hnd : ao.Nodup) (k pid : Nat)
    (h : pid ∈ ao.take k) : pid ∉ ao.drop k :=
  fun hd => (List.disjoint_take_drop hnd (le_refl k)) h hd

/-- The queue invariant does not depend on the order of the queue, nor on the
clock, the waiting times and the finish times. -/
theorem fifo_inv_congr (n : Nat) (required ao : List Nat) (a b : FifoState)
    (h : fifo_inv n required ao a) (hr : b.remaining = a.remaining)
    (hq : b.ready.Perm a.ready) (hc : b.completed = a.completed)
    (hx : b.next_arrival = a.next_arrival) : fifo_inv n required ao b := by
  obtain ⟨i1, i2, i3, i4, i5, i6, i7, i8⟩ := h
  refine ⟨by rw [hr]; exact i1, by rw [hx]; exact i2, by rw [hc, hx, hq.length_eq]; exact i3,
    hq.nodup_iff.mpr i4, ?_, ?_, ?_, ?_⟩
  · intro pid hp
    rw [hx, hr]
    exact i5 pid (hq.subset hp)
  · intro pid hp hpos
    rw [hx] at hp
    rw [hr] at hpos
    exact hq.symm.subset (i6 pid hp hpos)
  · intro pid hp
    rw [hx] at hp
    rw [hr]
    exact i7 pid hp
  · intro i hi
    rw [hr]
    exact i8 i hi

/-- The admission loop preserves the queue invariant. -/
theorem fifo_inv_admission (n q : Nat) (arrival required ao : List Nat)
    (hs : rr_setting n q arrival required ao) (a : FifoState)
    (h : fifo_inv n required ao a) : fifo_inv n required ao (fifo_admission arrival ao a) := by
  obtain ⟨hlen, hnd, hlt⟩ := rr_setting_order n q arrival required ao hs
  obtain ⟨_, _, _, _, _, _, hreq⟩ := hs
  obtain ⟨i1, i2, i3, i4, i5, i6, i7, i8⟩ := h
  have htake := fifo_admitted_take arrival ao a.time a.next_arrival
  have hsplit := fifo_admitted_split arrival ao a.time a.next_arrival
  have hle := fifo_admitted_length arrival ao a.time a.next_arrival (by omega)
  have hadm_drop := fifo_admitted_mem_drop arrival ao a.time a.next_arrival
  refine ⟨i1, by simp only [fifo_admission]; omega, ?_, ?_, ?_, ?_, ?_, i8⟩
  · simp only [fifo_admission, List.length_append]
    omega
  · simp only [fifo_admission]
    refine List.Nodup.append i4 ?_ ?_
    · exact (List.takeWhile_sublist _).nodup (hnd.sublist (List.drop_sublist _ _))
    · intro pid h1 h2
      exact not_mem_drop_of_mem_take ao hnd _ pid (i5 pid h1).1 (hadm_drop pid h2)
  · intro pid hp
    simp only [fifo_admission, List.mem_append] at hp ⊢
    rw [htake, List.mem_append]
    rcases hp with hp | hp
    · exact ⟨Or.inl (i5 pid hp).1, (i5 pid hp).2⟩
    · refine ⟨Or.inr hp, ?_⟩
      have hd := hadm_drop pid hp
      rw [i7 pid hd]
      exact hreq pid (hlt pid ((List.drop_sublist _ _).subset hd))
  · intro pid hp hpos
    simp only [fifo_admission] at hp hpos ⊢
    rw [htake, List.mem_append] at hp
    rw [List.mem_append]
    rcases hp with hp | hp
    · exact Or.inl (i6 pid hp hpos)
    · exact Or.inr hp
  · intro pid hp
    simp only [fifo_admission] at hp ⊢
    exact i7 pid (by rw [hsplit]; exact List.mem_append_right _ hp)

theorem getD_set_self (l : List Nat) (i v : Nat) (h : i < l.length) :
    (l.set i v).getD i 0 = v := by
  simp [List.getD_eq_getElem?_getD, List.getElem?_set_self h]

theorem getD_set_other (l : List Nat) (i j v : Nat) (h : i ≠ j) :
    (l.set i v).getD j 0 = l.getD j 0 := by
  simp [List.getD_eq_getElem?_getD, List.getElem?_set_ne h]

/-- One pass preserves the queue invariant. -/
theorem fifo_inv_iter (n q : Nat) (arrival required ao : List Nat)
    (hs : rr_setting n q arrival required ao) (a : FifoState)
    (h : fifo_inv n required ao a) : fifo_inv n required ao (fifo_iter q arrival ao a) := by
  obtain ⟨hlen, hnd, hlt⟩ := rr_setting_order n q arrival required ao hs
  have h1 := fifo_inv_admission n q arrival required ao hs a h
  unfold fifo_iter
  simp only []
  cases hq : (fifo_admission arrival ao a).ready with
  | nil =>
    simp only []
    exact fifo_inv_congr n required ao _ _ h1 rfl (by simp [hq]) rfl rfl
  | cons pid rest =>
    simp only []
    obtain ⟨i1, i2, i3, i4, i5, i6, i7, i8⟩ := h1
    rw [hq] at i3 i4 i5 i6
    have hpid := i5 pid (List.mem_cons_self _ _)
    have hpidn : pid < n := hlt pid ((List.take_sublist _ _).subset hpid.1)
    have hpid_rest : pid ∉ rest := (List.nodup_cons.mp i4).1
    have hrest_nd : rest.Nodup := (List.nodup_cons.mp i4).2
    set a1 := fifo_admission arrival ao a with ha1
    set rem := a1.remaining.getD pid 0 with hrem
    set slice := (if rem > q then q else rem) with hslice
    have hslice_le : slice ≤ rem := by rw [hslice]; split_ifs <;> omega
    by_cases hfin : rem - slice > 0
    · simp only [hfin, if_true]
      -- the request goes back to the queue
      have hb : fifo_inv n required ao
          { a1 with ready := pid :: rest,
                    waiting := fifo_wait slice a1.remaining rest a1.waiting,
                    time := uadd a1.time slice,
                    remaining := a1.remaining.set pid (rem - slice) } := by
        refine ⟨by simp [i1], i2, by simpa using i3, i4, ?_, ?_, ?_, ?_⟩
        · intro x hx
          refine ⟨(i5 x hx).1, ?_⟩
          by_cases hxp : x = pid
          · subst hxp
            rw [getD_set_self _ _ _ (by omega)]
            exact hfin
          · rw [getD_set_other _ _ _ _ (Ne.symm hxp)]
            exact (i5 x hx).2
        · intro x hx _
          by_cases hxp : x = pid
          · subst hxp; exact List.mem_cons_self _ _
          · apply i6 x hx
            have := (‹0 < (a1.remaining.set pid (rem - slice)).getD x 0›)
            rwa [getD_set_other _ _ _ _ (Ne.symm hxp)] at this
        · intro x hx
          have hxp : pid ≠ x := by
            intro he
            subst he
            exact not_mem_drop_of_mem_take ao hnd _ _ hpid.1 hx
          show (a1.remaining.set pid (rem - slice)).getD x 0 = required.getD x 0
          rw [getD_set_other _ _ _ _ hxp]
          exact i7 x hx
        · intro i hi
          show (a1.remaining.set pid (rem - slice)).getD i 0 ≤ required.getD i 0
          by_cases hip : i = pid
          · subst hip
            rw [getD_set_self _ _ _ (by omega)]
            have := i8 i hi
            omega
          · rw [getD_set_other _ _ _ _ (Ne.symm hip)]
            exact i8 i hi
      have hb2 := fifo_inv_admission n q arrival required ao hs _ hb
      refine fifo_inv_congr n required ao _ _ hb2 rfl ?_ rfl rfl
      simp only [fifo_admission, List.cons_append]
      exact (List.perm_append_singleton _ _)
    · simp only [hfin, if_false]
      have hzero : rem - slice = 0 := by omega
      have hb : fifo_inv n required ao
          { a1 with ready := rest,
                    waiting := fifo_wait slice a1.remaining rest a1.waiting,
                    time := uadd a1.time slice,
                    remaining := a1.remaining.set pid (rem - slice),
                    completed := a1.completed + 1 } := by
        refine ⟨by simp [i1], i2, by simp at i3 ⊢; omega, hrest_nd, ?_, ?_, ?_, ?_⟩
        · intro x hx
          have hxp : pid ≠ x := fun he => hpid_rest (he ▸ hx)
          refine ⟨(i5 x (List.mem_cons_of_mem _ hx)).1, ?_⟩
          show 0 < (a1.remaining.set pid (rem - slice)).getD x 0
          rw [getD_set_other _ _ _ _ hxp]
          exact (i5 x (List.mem_cons_of_mem _ hx)).2
        · intro x hx hpos
          have hpos2 : 0 < (a1.remaining.set pid (rem - slice)).getD x 0 := hpos
          have hxp : pid ≠ x := by
            intro he
            subst he
            rw [getD_set_self _ _ _ (by omega), hzero] at hpos2
            omega
          rw [getD_set_other _ _ _ _ hxp] at hpos2
          rcases List.mem_cons.mp (i6 x hx hpos2) with he | hm
          · exact absurd he.symm hxp
          · exact hm
        · intro x hx
          have hxp : pid ≠ x := by
            intro he
            subst he
            exact not_mem_drop_of_mem_take ao hnd _ _ hpid.1 hx
          show (a1.remaining.set pid (rem - slice)).getD x 0 = required.getD x 0
          rw [getD_set_other _ _ _ _ hxp]
          exact i7 x hx
        · intro i hi
          show (a1.remaining.set pid (rem - slice)).getD i 0 ≤ required.getD i 0
          by_cases hip : i = pid
          · subst hip
            rw [getD_set_self _ _ _ (by omega)]
            have := i8 i hi
            omega
          · rw [getD_set_other _ _ _ _ (Ne.symm hip)]
            exact i8 i hi
      have hb2 := fifo_inv_admission n q arrival required ao hs _ hb
      exact fifo_inv_congr n required ao _ _ hb2 rfl (List.Perm.refl _) rfl rfl

/-! ### One pass of the C loop against one pass on the list queue -/

theorem fifo_wait_length (slice : Nat) (remaining others waiting : List Nat) :
    (fifo_wait slice remaining others waiting).length = waiting.length := by
  unfold fifo_wait
  induction others generalizing waiting with
  | nil => rfl
  | cons o os ih =>
    simp only [List.foldl_cons]
    rw [ih]
    split_ifs <;> simp

theorem ring_holds_congr (n : Nat) (s t : RRState) (ready : List Nat) (h : ring_holds n s ready)
    (h1 : t.queue = s.queue) (h2 : t.head = s.head) (h3 : t.tail = s.tail)
    (h4 : t.qcount = s.qcount) : ring_holds n t ready := by
  unfold ring_holds at h ⊢
  rw [h1, h2, h3, h4]
  exact h

theorem rr_iter_jump (n q : Nat) (arrival ao : List Nat) (s s1 : RRState) (pid a : Nat)
    (e1 : rr_admit n arrival ao (n - s.next_arrival) s = .ok s1)
    (hq : s1.qcount = 0) (hx : s1.next_arrival < n)
    (e2 : rd ao s1.next_arrival = .ok pid) (e3 : rd arrival pid = .ok a) :
    rr_iter n q arrival ao s = .ok { s1 with time := a } := by
  unfold rr_iter
  rw [e1]
  show (if s1.qcount = 0 ∧ s1.next_arrival < n then _ else _) = _
  rw [if_pos ⟨hq, hx⟩, e2]
  show (do let a ← rd arrival pid; pure { s1 with time := a }) = _
  rw [e3]
  rfl

theorem rr_iter_serve (n q : Nat) (arrival ao : List Nat) (s s1 s3 s5 : RRState)
    (pid rem rem5 : Nat)
    (e1 : rr_admit n arrival ao (n - s.next_arrival) s = .ok s1)
    (hq : ¬ (s1.qcount = 0 ∧ s1.next_arrival < n))
    (e2 : rdq s1.queue s1.head = .ok pid)
    (e3 : rd s1.remaining pid = .ok rem) (hrem : rem ≠ 0)
    (e4 : rr_wait_others n (if rem > q then q else rem)
        ((s1.qcount + SIZE_MOD - 1) % SIZE_MOD) ((s1.head + 1) % n)
        { s1 with head := (s1.head + 1) % n, qcount := (s1.qcount + SIZE_MOD - 1) % SIZE_MOD }
        = .ok s3)
    (e5 : rr_admit n arrival ao (n - s3.next_arrival)
        { s3 with time := uadd s3.time (if rem > q then q else rem),
                  remaining := s3.remaining.set pid (rem - (if rem > q then q else rem)) }
        = .ok s5)
    (e6 : rd s5.remaining pid = .ok rem5) :
    rr_iter n q arrival ao s
      = .ok (if rem5 > 0 then rr_enqueue n s5 pid
             else { s5 with finish := s5.finish.set pid s5.time,
                            completed := s5.completed + 1 }) := by
  unfold rr_iter
  rw [e1]
  show (if s1.qcount = 0 ∧ s1.next_arrival < n then _ else _) = _
  rw [if_neg hq, e2]
  show (do
    let rem ← rd s1.remaining pid
    if rem = 0 then pure _ else _) = _
  rw [e3]
  show (if rem = 0 then _ else _) = _
  rw [if_neg hrem, e4]
  show (do let s5 ← rr_admit n arrival ao (n - s3.next_arrival) _; _) = _
  rw [e5]
  show (do let rem5 ← rd s5.remaining pid; _) = _
  rw [e6]
  show (if rem5 > 0 then _ else _) = _
  split_ifs <;> rfl

theorem fifo_iter_nil (q : Nat) (arrival ao : List Nat) (a : FifoState)
    (h : (fifo_admission arrival ao a).ready = []) :
    fifo_iter q arrival ao a
      = { fifo_admission arrival ao a with
          time := arrival.getD (ao.getD (fifo_admission arrival ao a).next_arrival 0) 0 } := by
  unfold fifo_iter
  simp only []
  split
  · rfl
  · rename_i pid rest h2
    rw [h] at h2
    cases h2

/-- The state of the list queue after the slice of `pid`, before the second
admission. -/
theorem fifo_iter_cons (q : Nat) (arrival ao : List Nat) (a : FifoState) (pid : Nat)
    (rest : List Nat) (h : (fifo_admission arrival ao a).ready = pid :: rest) :
    fifo_iter q arrival ao a
      = (let a1 := fifo_admission arrival ao a
         let rem := a1.remaining.getD pid 0
         let slice := if rem > q then q else rem
         let a3 := fifo_admission arrival ao
           { a1 with ready := rest,
                     waiting := fifo_wait slice a1.remaining rest a1.waiting,
                     time := uadd a1.time slice,
                     remaining := a1.remaining.set pid (rem - slice) }
         if rem - slice > 0 then { a3 with ready := a3.ready ++ [pid] }
         else { a3 with finish := a3.finish.set pid a3.time, completed := a3.completed + 1 }) := by
  unfold fifo_iter
  simp only []
  split
  · rename_i h2
    rw [h] at h2
    cases h2
  · rename_i pid2 rest2 h2
    rw [h] at h2
    cases h2
    rfl

/-- One pass of the loop of `compute_metrics` computes what one pass on the
list queue computes. -/
theorem rr_iter_refines (n q : Nat) (arrival required ao : List Nat)
    (hs : rr_setting n q arrival required ao) (s : RRState) (a : FifoState)
    (hr : refines n s a) (hi : fifo_inv n required ao a) (hw : a.waiting.length = n)
    (hc : a.completed < n) :
    ∃ s1, rr_iter n q arrival ao s = .ok s1 ∧ refines n s1 (fifo_iter q arrival ao a) := by
  obtain ⟨hlen, hnd, hlt⟩ := rr_setting_order n q arrival required ao hs
  have hi1 := fifo_inv_admission n q arrival required ao hs a hi
  have hi2 := fifo_inv_iter n q arrival required ao hs a hi
  obtain ⟨hn0, hnS, hq0, harr, hreqlen, hperm, hreq⟩ := hs
  obtain ⟨⟨hring, hrem, htime, hcomp, hnext⟩, hwait, hfin⟩ := hr
  obtain ⟨i1, i2, i3, i4, i5, i6, i7, i8⟩ := hi
  obtain ⟨s1, e1, r1, n1, rem1, t1, c1, w1, f1⟩ :=
    rr_admit_refines n arrival ao hlen hlt harr hnS (n - s.next_arrival) s a.ready hring
      (by omega) (by omega)
  rw [htime, hnext] at r1 n1
  obtain ⟨j1, j2, j3, j4, j5, j6, j7, j8⟩ := hi1
  have hnx : s1.next_arrival = (fifo_admission arrival ao a).next_arrival := n1
  have hrem1 : s1.remaining = a.remaining := rem1.trans hrem
  cases hq : (fifo_admission arrival ao a).ready with
  | nil =>
    rw [hq] at j3
    have hq2 : a.ready ++ fifo_admitted arrival ao a.time a.next_arrival = [] := hq
    rw [hq2] at r1
    have hqc : s1.qcount = 0 := r1.2.2.1
    have hnx2 : s1.next_arrival < n := by
      rw [hnx]
      have : (fifo_admission arrival ao a).completed = a.completed := rfl
      simp only [List.length_nil] at j3
      omega
    have hpid : ao.getD s1.next_arrival 0 < n := by
      apply hlt
      rw [List.getD_eq_getElem _ _ (by omega)]
      exact List.getElem_mem _
    refine ⟨_, rr_iter_jump n q arrival ao s s1 _ _ e1 hqc hnx2 (rd_getD ao _ (by omega))
      (rd_getD arrival _ (by omega)), ?_⟩
    rw [fifo_iter_nil q arrival ao a hq]
    refine ⟨⟨?_, ?_, ?_, ?_, ?_⟩, ?_, ?_⟩
    · show ring_holds n _ (fifo_admission arrival ao a).ready
      rw [hq]
      exact ring_holds_congr n s1 _ [] r1 rfl rfl rfl rfl
    · exact hrem1
    · show arrival.getD (ao.getD s1.next_arrival 0) 0 = _
      rw [hnx]
    · exact c1.trans hcomp
    · exact hnx
    · exact w1.trans hwait
    · exact f1.trans hfin
  | cons pid rest =>
    have hq2 : a.ready ++ fifo_admitted arrival ao a.time a.next_arrival = pid :: rest := hq
    rw [hq2] at r1
    rw [hq] at j3 j4 j5
    have hqc : s1.qcount = rest.length + 1 := r1.2.2.1
    obtain ⟨d1, d2⟩ := ring_dequeue n s1 pid rest r1 hnS
    have hpidmem := j5 pid (List.mem_cons_self _ _)
    have hpidn : pid < n := hlt pid ((List.take_sublist _ _).subset hpidmem.1)
    have hremlen : s1.remaining.length = n := by rw [hrem1]; exact i1
    have hrempos : 0 < s1.remaining.getD pid 0 := by rw [hrem1]; exact hpidmem.2
    have hne : ¬ (s1.qcount = 0 ∧ s1.next_arrival < n) := by omega
    have hrestn : ∀ o ∈ rest, o < n := fun o ho =>
      hlt o ((List.take_sublist _ _).subset (j5 o (List.mem_cons_of_mem _ ho)).1)
    have hw1 : s1.waiting.length = n := by rw [w1, hwait]; exact hw
    have e4 := rr_wait_others_refines n
      (if s1.remaining.getD pid 0 > q then q else s1.remaining.getD pid 0)
      { s1 with head := (s1.head + 1) % n, qcount := (s1.qcount + SIZE_MOD - 1) % SIZE_MOD }
      rest d2 hrestn hremlen hw1
    have hnx3 : (fifo_admission arrival ao a).next_arrival ≤ n := j2
    have hcnt : (fifo_admission arrival ao a).completed + (rest.length + 1)
        = (fifo_admission arrival ao a).next_arrival := by simpa using j3
    obtain ⟨s5, e5, r5, n5, rem5, t5, c5, w5, f5⟩ :=
      rr_admit_refines n arrival ao hlen hlt harr hnS (n - s1.next_arrival)
        { s1 with head := (s1.head + 1) % n, qcount := (s1.qcount + SIZE_MOD - 1) % SIZE_MOD,
                  waiting := fifo_wait
                    (if s1.remaining.getD pid 0 > q then q else s1.remaining.getD pid 0)
                    s1.remaining rest s1.waiting,
                  time := uadd s1.time
                    (if s1.remaining.getD pid 0 > q then q else s1.remaining.getD pid 0),
                  remaining := s1.remaining.set pid (s1.remaining.getD pid 0 -
                    (if s1.remaining.getD pid 0 > q then q else s1.remaining.getD pid 0)) }
        rest (ring_holds_congr n _ _ rest d2 rfl rfl rfl rfl)
        (by show s1.next_arrival + (n - s1.next_arrival) = n; omega)
        (by rw [hnx]; omega)
    have e6 : rd s5.remaining pid = .ok (s1.remaining.getD pid 0 -
        (if s1.remaining.getD pid 0 > q then q else s1.remaining.getD pid 0)) := by
      rw [rd_getD s5.remaining pid (by rw [rem5]; simp; omega), rem5]
      exact congrArg Except.ok (getD_set_self _ _ _ (by omega))
    refine ⟨_, rr_iter_serve n q arrival ao s s1 _ s5 pid _ _ e1 hne d1
      (rd_getD s1.remaining pid (by omega)) (by omega) e4 e5 e6, ?_⟩
    rw [fifo_iter_cons q arrival ao a pid rest hq]
    simp only []
    have hrA : (fifo_admission arrival ao a).remaining = s1.remaining := hrem1.symm
    have htA : (fifo_admission arrival ao a).time = s1.time := (t1.trans htime).symm
    have hwA : (fifo_admission arrival ao a).waiting = s1.waiting := (w1.trans hwait).symm
    have hfA : (fifo_admission arrival ao a).finish = s1.finish := (f1.trans hfin).symm
    have hcA : (fifo_admission arrival ao a).completed = s1.completed := (c1.trans hcomp).symm
    rw [hrA, htA, hwA, ← hnx]
    have hadm := fifo_admitted_length arrival ao
      (uadd s1.time (if s1.remaining.getD pid 0 > q then q else s1.remaining.getD pid 0))
      s1.next_arrival (by omega)
    rw [← hnx] at hcnt
    by_cases hpos : (s1.remaining.getD pid 0 -
        if s1.remaining.getD pid 0 > q then q else s1.remaining.getD pid 0) > 0
    · simp only [hpos, if_true]
      refine ⟨⟨?_, ?_, ?_, ?_, ?_⟩, ?_, ?_⟩
      · have hlen5 : (rest ++ fifo_admitted arrival ao
            (uadd s1.time (if s1.remaining.getD pid 0 > q then q else s1.remaining.getD pid 0))
            s1.next_arrival).length < n := by
          rw [List.length_append]
          omega
        exact ring_enqueue n s5 _ pid r5 hlen5 hnS
      · exact rem5
      · exact t5
      · exact c5.trans hcA.symm
      · exact n5
      · exact w5
      · exact f5.trans hfA.symm
    · simp only [hpos, if_false]
      refine ⟨⟨?_, ?_, ?_, ?_, ?_⟩, ?_, ?_⟩
      · exact ring_holds_congr n s5 _ _ r5 rfl rfl rfl rfl
      · exact rem5
      · exact t5
      · show s5.completed + 1 = (fifo_admission arrival ao a).completed + 1
        rw [c5]
        exact congrArg (· + 1) hcA.symm
      · exact n5
      · exact w5
      · show s5.finish.set pid s5.time = (fifo_admission arrival ao a).finish.set pid _
        rw [f5, t5, hfA]
        rfl

/-! ### The whole loop -/

theorem ite_field {α β : Type} (f : α → β) (c : Prop) [Decidable c] (x y : α) (r : β)
    (hx : f x = r) (hy : f y = r) : f (if c then x else y) = r := by
  split_ifs <;> assumption

theorem fifo_iter_waiting_length (q : Nat) (arrival ao : List Nat) (a : FifoState) :
    (fifo_iter q arrival ao a).waiting.length = a.waiting.length := by
  cases hq : (fifo_admission arrival ao a).ready with
  | nil => rw [fifo_iter_nil q arrival ao a hq]; rfl
  | cons pid rest =>
    rw [fifo_iter_cons q arrival ao a pid rest hq]
    exact ite_field (fun (b : FifoState) => b.waiting.length) _ _ _ _
      (fifo_wait_length _ _ _ _) (fifo_wait_length _ _ _ _)

theorem fifo_iter_remaining_cons (q : Nat) (arrival ao : List Nat) (a : FifoState) (pid : Nat)
    (rest : List Nat) (h : (fifo_admission arrival ao a).ready = pid :: rest) :
    (fifo_iter q arrival ao a).remaining
      = a.remaining.set pid (a.remaining.getD pid 0 -
          (if a.remaining.getD pid 0 > q then q else a.remaining.getD pid 0)) := by
  rw [fifo_iter_cons q arrival ao a pid rest h]
  exact ite_field FifoState.remaining _ _ _ _ rfl rfl

theorem fifo_run_inv (n q : Nat) (arrival required ao : List Nat)
    (hs : rr_setting n q arrival required ao) :
    ∀ (k : Nat) (a : FifoState), fifo_inv n required ao a →
      fifo_inv n required ao (fifo_run n q arrival ao k a) := by
  intro k
  induction k with
  | zero => intro a h; exact h
  | succ k ih =>
    intro a h
    unfold fifo_run
    split_ifs
    · exact ih _ (fifo_inv_iter n q arrival required ao hs a h)
    · exact h

theorem fifo_run_waiting_length (n q : Nat) (arrival ao : List Nat) :
    ∀ (k : Nat) (a : FifoState),
      (fifo_run n q arrival ao k a).waiting.length = a.waiting.length := by
  intro k
  induction k with
  | zero => intro a; rfl
  | succ k ih =>
    intro a
    unfold fifo_run
    split_ifs
    · rw [ih, fifo_iter_waiting_length]
    · rfl

/-- The passes of the loop of `compute_metrics` compute what the passes on
the list queue compute; in particular none of them is undefined. -/
theorem rr_passes_refines (n q : Nat) (arrival required ao : List Nat)
    (hs : rr_setting n q arrival required ao) :
    ∀ (k : Nat) (s : RRState) (a : FifoState), refines n s a → fifo_inv n required ao a →
      a.waiting.length = n →
      ∃ s1, rr_passes n q arrival ao k s = .ok s1 ∧
        refines n s1 (fifo_run n q arrival ao k a) := by
  intro k
  induction k with
  | zero => intro s a hr _ _; exact ⟨s, rfl, hr⟩
  | succ k ih =>
    intro s a hr hi hw
    have hc : s.completed = a.completed := hr.1.2.2.2.1
    unfold rr_passes fifo_run
    by_cases hlt : a.completed < n
    · obtain ⟨s1, e1, r1⟩ := rr_iter_refines n q arrival required ao hs s a hr hi hw hlt
      obtain ⟨s2, e2, r2⟩ := ih s1 _ r1 (fifo_inv_iter n q arrival required ao hs a hi)
        (by rw [fifo_iter_waiting_length]; exact hw)
      refine ⟨s2, ?_, ?_⟩
      · rw [if_pos (by rw [hc]; exact hlt), e1]
        exact e2
      · rw [if_pos hlt]
        exact r2
    · refine ⟨s, ?_, ?_⟩
      · rw [if_neg (by rw [hc]; exact hlt)]
      · rw [if_neg hlt]
        exact hr

theorem rr_start_refines (n : Nat) (arrival required ao : List Nat) (hn : 0 < n) :
    refines n (rr_start n arrival required ao) (fifo_start n arrival required ao) := by
  refine ⟨⟨⟨?_, hn, rfl, Nat.zero_le _, ?_, ?_⟩, rfl, rfl, rfl, rfl⟩, rfl, rfl⟩
  · simp [rr_start]
  · show 0 = (0 + 0) % n
    simp
  · intro j hj
    simp [fifo_start] at hj

theorem fifo_start_inv (n : Nat) (arrival required ao : List Nat) (hr : required.length = n) :
    fifo_inv n required ao (fifo_start n arrival required ao) := by
  refine ⟨hr, Nat.zero_le _, rfl, List.nodup_nil, ?_, ?_, ?_, ?_⟩
  · intro pid hp
    simp [fifo_start] at hp
  · intro pid hp
    simp [fifo_start] at hp
  · intro pid _
    rfl
  · intro i _
    exact le_refl _

theorem sum_set (l : List Nat) : ∀ (i v : Nat), i < l.length →
    (l.set i v).sum + l.getD i 0 = l.sum + v := by
  induction l with
  | nil => intro i v h; simp at h
  | cons x xs ih =>
    intro i v h
    cases i with
    | zero => simp; omega
    | succ i =>
      have := ih i v (by simpa using h)
      simp only [List.set_cons_succ, List.sum_cons, List.getD_cons_succ]
      omega

theorem getD_le_sum (l : List Nat) : ∀ (i : Nat), l.getD i 0 ≤ l.sum := by
  induction l with
  | nil => intro i; simp
  | cons x xs ih =>
    intro i
    cases i with
    | zero => simp
    | succ i =>
      have := ih i
      simp only [List.sum_cons, List.getD_cons_succ]
      omega

/-- Every pass lowers a measure: twice the remaining work, plus one when the
pass is to be a jump of the clock. -/
theorem fifo_iter_measure (n q : Nat) (arrival required ao : List Nat)
    (hs : rr_setting n q arrival required ao) (a : FifoState)
    (hi : fifo_inv n required ao a) (hc : a.completed < n) :
    2 * (fifo_iter q arrival ao a).remaining.sum
        + (if (fifo_admission arrival ao (fifo_iter q arrival ao a)).ready = [] then 1 else 0)
      < 2 * a.remaining.sum + (if (fifo_admission arrival ao a).ready = [] then 1 else 0) := by
  obtain ⟨hlen, hnd, hlt⟩ := rr_setting_order n q arrival required ao hs
  obtain ⟨j1, j2, j3, j4, j5, j6, j7, j8⟩ := fifo_inv_admission n q arrival required ao hs a hi
  obtain ⟨hn0, hnS, hq0, harr, hreqlen, hperm, hreq⟩ := hs
  cases hq : (fifo_admission arrival ao a).ready with
  | nil =>
    rw [hq] at j3
    have hnx : (fifo_admission arrival ao a).next_arrival < ao.length := by
      have : (fifo_admission arrival ao a).completed = a.completed := rfl
      simp only [List.length_nil] at j3
      omega
    have hne : (fifo_admission arrival ao (fifo_iter q arrival ao a)).ready ≠ [] := by
      rw [fifo_iter_nil q arrival ao a hq]
      show (fifo_admission arrival ao a).ready ++ fifo_admitted arrival ao _ _ ≠ []
      rw [hq, List.nil_append]
      show fifo_admitted arrival ao
        (arrival.getD (ao.getD (fifo_admission arrival ao a).next_arrival 0) 0)
        (fifo_admission arrival ao a).next_arrival ≠ []
      rw [fifo_admitted_step arrival ao _ _ hnx, if_pos (le_refl _)]
      exact List.cons_ne_nil _ _
    have hrem : (fifo_iter q arrival ao a).remaining = a.remaining := by
      rw [fifo_iter_nil q arrival ao a hq]
      rfl
    rw [if_neg hne, hrem, if_pos rfl]
    omega
  | cons pid rest =>
    rw [hq] at j5
    have hp := j5 pid (List.mem_cons_self _ _)
    have hpidn : pid < n := hlt pid ((List.take_sublist _ _).subset hp.1)
    have hpos : 0 < a.remaining.getD pid 0 := hp.2
    have hl : a.remaining.length = n := j1
    rw [fifo_iter_remaining_cons q arrival ao a pid rest hq, if_neg (List.cons_ne_nil _ _)]
    have hsum := sum_set a.remaining pid (a.remaining.getD pid 0 -
      (if a.remaining.getD pid 0 > q then q else a.remaining.getD pid 0)) (by omega)
    have hle := getD_le_sum a.remaining pid
    split_ifs at hsum ⊢ <;> omega

/-- The loop on the list queue has ended after as many passes as the measure
of its first state. -/
theorem fifo_run_done (n q : Nat) (arrival required ao : List Nat)
    (hs : rr_setting n q arrival required ao) :
    ∀ (k : Nat) (a : FifoState), fifo_inv n required ao a →
      2 * a.remaining.sum + (if (fifo_admission arrival ao a).ready = [] then 1 else 0) ≤ k →
      ¬ (fifo_run n q arrival ao k a).completed < n := by
  intro k
  induction k with
  | zero =>
    intro a hi hm hc
    have := fifo_iter_measure n q arrival required ao hs a hi hc
    omega
  | succ k ih =>
    intro a hi hm
    unfold fifo_run
    by_cases hc : a.completed < n
    · rw [if_pos hc]
      have := fifo_iter_measure n q arrival required ao hs a hi hc
      exact ih _ (fifo_inv_iter n q arrival required ao hs a hi) (by omega)
    · rw [if_neg hc]
      exact hc

theorem rr_loop_of_passes (n q : Nat) (arrival ao : List Nat) :
    ∀ (k : Nat) (s s1 : RRState), rr_passes n q arrival ao k s = .ok s1 →
      ¬ s1.completed < n → rr_loop n q arrival ao k s = .ok s1 := by
  intro k
  induction k with
  | zero =>
    intro s s1 h hc
    simp only [rr_passes, Except.ok.injEq] at h
    subst h
    simp only [rr_loop, hc, if_false]
  | succ k ih =>
    intro s s1 h hc
    unfold rr_passes at h
    unfold rr_loop
    by_cases hlt : s.completed < n
    · rw [if_pos hlt] at h ⊢
      cases hi : rr_iter n q arrival ao s with
      | error e => rw [hi] at h; cases h
      | ok s2 =>
        rw [hi] at h
        exact ih s2 s1 h hc
    · rw [if_neg hlt] at h ⊢
      exact h

/-- The Round-Robin loop of `compute_metrics` ends, within twice the total
required time plus one passes, in a state that the list queue describes. -/
theorem rr_loop_ends (n q : Nat) (arrival required ao : List Nat)
    (hs : rr_setting n q arrival required ao) :
    ∃ s, rr_loop n q arrival ao (2 * required.sum + 1) (rr_start n arrival required ao) = .ok s ∧
      refines n s (fifo_run n q arrival ao (2 * required.sum + 1)
        (fifo_start n arrival required ao)) ∧
      ¬ s.completed < n := by
  have hn0 : 0 < n := hs.1
  have hreq : required.length = n := hs.2.2.2.2.1
  have hinv := fifo_start_inv n arrival required ao hreq
  obtain ⟨s, e, r⟩ := rr_passes_refines n q arrival required ao hs (2 * required.sum + 1) _ _
    (rr_start_refines n arrival required ao hn0) hinv (by simp [fifo_start])
  have hdone := fifo_run_done n q arrival required ao hs (2 * required.sum + 1) _ hinv
    (by
      have : (fifo_start n arrival required ao).remaining = required := rfl
      rw [this]
      split_ifs <;> omega)
  have hc : s.completed = _ := r.1.2.2.2.1
  have hd : ¬ s.completed < n := by rw [hc]; exact hdone
  exact ⟨s, rr_loop_of_passes n q arrival ao _ _ s e hd, r, hd⟩

/-! ### The ready queue of `compute_metrics` (C24) -/

theorem rr_setting_of_list (list : PatientList) (q : Nat) (ao : List Nat)
    (hne : list ≠ []) (hsize : list.length < SIZE_MOD)
    (hpos : ∀ p ∈ list, 0 < p.required_time_ms) (hq : 0 < q)
    (hperm : ao.Perm (List.range list.length)) :
    rr_setting list.length q (list.map (fun p => p.arrival_ms))
      (list.map (fun p => p.required_time_ms)) ao := by
  refine ⟨List.length_pos.mpr hne, hsize, hq, by simp, by simp, hperm, ?_⟩
  intro i hi
  rw [List.getD_eq_getElem _ _ (by simpa using hi), List.getElem_map]
  exact hpos _ (List.getElem_mem _)

/-- The Round-Robin branch of `compute_metrics` is the loop started in
`rr_start` with the FCFS order as arrival order. -/
theorem rr_simulate_eq_loop (fuel : Nat) (list : PatientList) (order : List Nat) (q : Nat)
    (hne : list ≠ []) (hperm : order.Perm (List.range list.length)) :
    rr_simulate fuel list order q
      = rr_loop list.length q (list.map (fun p => p.arrival_ms))
          (qsort (cmp_fcfs list) (List.range list.length)) fuel
          (rr_start list.length (list.map (fun p => p.arrival_ms))
            (list.map (fun p => p.required_time_ms))
            (qsort (cmp_fcfs list) (List.range list.length))) := by
  have hn : 0 < list.length := List.length_pos.mpr hne
  have hp := qsort_perm (cmp_fcfs list) (List.range list.length)
  have hl : (qsort (cmp_fcfs list) (List.range list.length)).length = list.length := by
    simpa using hp.length_eq
  have hpid : (qsort (cmp_fcfs list) (List.range list.length)).getD 0 0 < list.length := by
    apply List.mem_range.mp
    apply hp.subset
    rw [List.getD_eq_getElem _ _ (by omega)]
    exact List.getElem_mem _
  unfold rr_simulate
  rw [rr_arrival_order_of_perm list order hperm]
  simp only [bind, Except.bind, hn, if_true, rd_getD _ _ (by omega :
    0 < (qsort (cmp_fcfs list) (List.range list.length)).length),
    rd_getD (list.map (fun p => p.arrival_ms)) _ (by simpa using hpid)]
  rw [rd_getD (list.map (fun p => p.arrival_ms)) _ (by simpa using hpid)]
  rfl

theorem queue_safe_of_refines (n : Nat) (required ao : List Nat) (s : RRState) (a : FifoState)
    (hr : refines_core n s a) (hi : fifo_inv n required ao a) : queue_safe n ao s a.ready := by
  obtain ⟨hring, hrem, _, _, hnext⟩ := hr
  obtain ⟨_, _, _, i4, i5, _⟩ := hi
  refine ⟨hring, i4, ?_⟩
  rw [hrem, hnext]
  exact i5

theorem rr_admit_refines_core (n q : Nat) (arrival required ao : List Nat)
    (hs : rr_setting n q arrival required ao) (s : RRState) (a : FifoState)
    (hr : refines_core n s a) (hi : fifo_inv n required ao a) :
    ∃ s1, rr_admit n arrival ao (n - s.next_arrival) s = .ok s1 ∧
      refines_core n s1 (fifo_admission arrival ao a) := by
  obtain ⟨hlen, hnd, hlt⟩ := rr_setting_order n q arrival required ao hs
  obtain ⟨hn0, hnS, hq0, harr, hreqlen, hperm, hreq⟩ := hs
  obtain ⟨hring, hrem, htime, hcomp, hnext⟩ := hr
  obtain ⟨i1, i2, i3, i4, i5, i6, i7, i8⟩ := hi
  obtain ⟨s1, e1, r1, n1, rem1, t1, c1, w1, f1⟩ :=
    rr_admit_refines n arrival ao hlen hlt harr hnS (n - s.next_arrival) s a.ready hring
      (by omega) (by omega)
  rw [htime, hnext] at r1 n1
  exact ⟨s1, e1, r1, rem1.trans hrem, t1.trans htime, c1.trans hcomp, n1⟩

/-- C24: in the Round-Robin simulation of `compute_metrics`, for a request
list with positive required times and a positive quantum, the simulation
ends, and at the start of every pass of its loop, and again after the
admission loop of the pass, the circular ready queue holds at most `n`
entries, no request index twice, and only admitted unfinished requests; the
queue is not empty when the pass goes on to dequeue; and no pass reads a
queue slot that was not written (no pass is undefined). -/
theorem rr_ready_queue_safe (list : PatientList) (order : List Nat) (quantum_ms : Nat)
    (hne : list ≠ []) (hsize : list.length < SIZE_MOD)
    (hperm : order.Perm (List.range list.length))
    (hpos : ∀ p ∈ list, 0 < p.required_time_ms) (hq : 0 < quantum_ms) :
    ∃ ao, rr_arrival_order list order = .ok ao ∧
      (∀ fuel, rr_simulate fuel list order quantum_ms
        = rr_loop list.length quantum_ms (list.map (fun p => p.arrival_ms)) ao fuel
            (rr_start list.length (list.map (fun p => p.arrival_ms))
              (list.map (fun p => p.required_time_ms)) ao)) ∧
      (∃ fuel s, rr_simulate fuel list order quantum_ms = .ok s) ∧
      ∀ k, ∃ s ready,
        rr_passes list.length quantum_ms (list.map (fun p => p.arrival_ms)) ao k
            (rr_start list.length (list.map (fun p => p.arrival_ms))
              (list.map (fun p => p.required_time_ms)) ao) = .ok s ∧
        queue_safe list.length ao s ready ∧ ready.length ≤ list.length ∧
        (s.completed < list.length →
          ∃ s1 ready1,
            rr_admit list.length (list.map (fun p => p.arrival_ms)) ao
              (list.length - s.next_arrival) s = .ok s1 ∧
            queue_safe list.length ao s1 ready1 ∧ ready1.length ≤ list.length ∧
            (s1.qcount = 0 → s1.next_arrival < list.length)) := by
  have hs := rr_setting_of_list list quantum_ms (qsort (cmp_fcfs list) (List.range list.length))
    hne hsize hpos hq (qsort_perm _ _)
  refine ⟨_, rr_arrival_order_of_perm list order hperm,
    fun fuel => rr_simulate_eq_loop fuel list order quantum_ms hne hperm, ?_, ?_⟩
  · obtain ⟨s, e, _, _⟩ := rr_loop_ends _ _ _ _ _ hs
    exact ⟨_, s, by rw [rr_simulate_eq_loop _ list order quantum_ms hne hperm]; exact e⟩
  · intro k
    have hinv0 := fifo_start_inv list.length (list.map (fun p => p.arrival_ms))
      (list.map (fun p => p.required_time_ms)) (qsort (cmp_fcfs list) (List.range list.length))
      (by simp)
    obtain ⟨s, e, r⟩ := rr_passes_refines _ _ _ _ _ hs k _ _
      (rr_start_refines list.length (list.map (fun p => p.arrival_ms))
        (list.map (fun p => p.required_time_ms))
        (qsort (cmp_fcfs list) (List.range list.length)) hs.1) hinv0 (by simp [fifo_start])
    have hinv := fifo_run_inv _ _ _ _ _ hs k _ hinv0
    refine ⟨s, _, e, queue_safe_of_refines _ _ _ s _ r.1 hinv, r.1.1.2.2.2.1, ?_⟩
    intro hc
    obtain ⟨s1, e1, r1⟩ := rr_admit_refines_core _ _ _ _ _ hs s _ r.1 hinv
    have hinv1 := fifo_inv_admission _ _ _ _ _ hs _ hinv
    refine ⟨s1, _, e1, queue_safe_of_refines _ _ _ s1 _ r1 hinv1, r1.1.2.2.2.1, ?_⟩
    intro hq0
    have h3 := hinv1.2.2.1
    have hlen0 : (fifo_admission (list.map (fun p => p.arrival_ms))
        (qsort (cmp_fcfs list) (List.range list.length))
        (fifo_run list.length quantum_ms (list.map (fun p => p.arrival_ms))
          (qsort (cmp_fcfs list) (List.range list.length)) k
          (fifo_start list.length (list.map (fun p => p.arrival_ms))
            (list.map (fun p => p.required_time_ms))
            (qsort (cmp_fcfs list) (List.range list.length))))).ready.length = 0 := by
      rw [← r1.1.2.2.1]; exact hq0
    rw [hlen0] at h3
    rw [r1.2.2.2.2, ← h3]
    have hc2 : s.completed = _ := r.1.2.2.2.1
    rw [hc2] at hc
    exact hc

theorem rr_ready_queue_safe_witness :
    ∃ ao, rr_arrival_order [mkPatient 0 3, mkPatient 1 2] [0, 1] = .ok ao ∧
      (∀ fuel, rr_simulate fuel [mkPatient 0 3, mkPatient 1 2] [0, 1] 2
        = rr_loop 2 2 [0, 1] ao fuel (rr_start 2 [0, 1] [3, 2] ao)) ∧
      (∃ fuel s, rr_simulate fuel [mkPatient 0 3, mkPatient 1 2] [0, 1] 2 = .ok s) ∧
      ∀ k, ∃ s ready,
        rr_passes 2 2 [0, 1] ao k (rr_start 2 [0, 1] [3, 2] ao) = .ok s ∧
        queue_safe 2 ao s ready ∧ ready.length ≤ 2 ∧
        (s.completed < 2 →
          ∃ s1 ready1,
            rr_admit 2 [0, 1] ao (2 - s.next_arrival) s = .ok s1 ∧
            queue_safe 2 ao s1 ready1 ∧ ready1.length ≤ 2 ∧
            (s1.qcount = 0 → s1.next_arrival < 2)) :=
  rr_ready_queue_safe [mkPatient 0 3, mkPatient 1 2] [0, 1] 2 (by decide) (by decide)
    (by decide) (by decide) (by decide)

/-! ## Round-Robin: waiting times and turnarounds -/

/-! ### Waiting times and turnarounds of Round-Robin without overflow -/

/-- The waiting times after the loop over the queue: every queued request has
the slice added once, the others are unchanged. -/
theorem fifo_wait_getD (slice : Nat) (remaining : List Nat) :
    ∀ (others waiting : List Nat), others.Nodup →
      (∀ o ∈ others, 0 < remaining.getD o 0) → (∀ o ∈ others, o < waiting.length) →
      ∀ i, (fifo_wait slice remaining others waiting).getD i 0
        = if i ∈ others then uadd (waiting.getD i 0) slice else waiting.getD i 0 := by
  intro others
  induction others with
  | nil => intro waiting _ _ _ i; simp [fifo_wait]
  | cons o os ih =>
    intro waiting hnd hpos hlt i
    have hstep : fifo_wait slice remaining (o :: os) waiting
        = fifo_wait slice remaining os (waiting.set o (uadd (waiting.getD o 0) slice)) := by
      simp only [fifo_wait, List.foldl_cons]
      rw [if_pos (hpos o (List.mem_cons_self _ _))]
    rw [hstep, ih _ (List.nodup_cons.mp hnd).2
      (fun x hx => hpos x (List.mem_cons_of_mem _ hx))
      (fun x hx => by rw [List.length_set]; exact hlt x (List.mem_cons_of_mem _ hx))]
    by_cases hio : i = o
    · subst hio
      rw [if_neg (List.nodup_cons.mp hnd).1, if_pos (List.mem_cons_self _ _),
        getD_set_self _ _ _ (hlt i (List.mem_cons_self _ _))]
    · rw [getD_set_other _ _ _ _ (Ne.symm hio)]
      by_cases him : i ∈ os
      · rw [if_pos him, if_pos (List.mem_cons_of_mem _ him)]
      · rw [if_neg him, if_neg (by simp [hio, him])]

theorem fifo_acc_congr (n bound : Nat) (arrival required ao : List Nat) (a b : FifoState)
    (h : fifo_acc n bound arrival required ao a) (hr : b.remaining = a.remaining)
    (hw : b.waiting = a.waiting) (hf : b.finish = a.finish) (ht : b.time = a.time)
    (hx : b.next_arrival = a.next_arrival) (hq : ∀ pid, pid ∈ b.ready → pid ∈ a.ready) :
    fifo_acc n bound arrival required ao b := by
  obtain ⟨c1, c2, c3, c4, c5, c6, c7⟩ := h
  unfold fifo_acc
  rw [hr, hw, hf, ht, hx]
  exact ⟨c1, c2, c3, c4, fun pid hp => c5 pid (hq pid hp), c6, c7⟩

/-- The admission loop keeps the accounting. -/
theorem fifo_acc_admission (n q bound : Nat) (arrival required ao : List Nat)
    (hs : rr_setting n q arrival required ao) (a : FifoState)
    (h : fifo_acc n bound arrival required ao a)
    (h7 : ∀ pid ∈ ao.drop a.next_arrival, a.remaining.getD pid 0 = required.getD pid 0) :
    fifo_acc n bound arrival required ao (fifo_admission arrival ao a) := by
  obtain ⟨hlen, hnd, hlt⟩ := rr_setting_order n q arrival required ao hs
  obtain ⟨_, _, _, _, _, _, hreq⟩ := hs
  obtain ⟨c1, c2, c3, c4, c5, c6, c7⟩ := h
  have hdrop := fifo_admitted_mem_drop arrival ao a.time a.next_arrival
  refine ⟨c1, c2, c3, c4, ?_, ?_, ?_⟩
  · intro pid hp
    simp only [fifo_admission, List.mem_append] at hp ⊢
    rcases hp with hp | hp
    · exact c5 pid hp
    · have h1 := fifo_admitted_arrived arrival ao a.time a.next_arrival pid hp
      have h2 := c7 pid (hdrop pid hp)
      have h3 := h7 pid (hdrop pid hp)
      omega
  · intro pid hp hz
    simp only [fifo_admission] at hp hz ⊢
    rw [fifo_admitted_take, List.mem_append] at hp
    rcases hp with hp | hp
    · exact c6 pid hp hz
    · have h3 := h7 pid (hdrop pid hp)
      have h4 := hreq pid (hlt pid ((List.drop_sublist _ _).subset (hdrop pid hp)))
      omega
  · intro pid hp
    simp only [fifo_admission] at hp ⊢
    exact c7 pid (by
      rw [fifo_admitted_split arrival ao a.time a.next_arrival]
      exact List.mem_append_right _ hp)

theorem uint_mod_eq : UINT_MOD = 4294967296 := by decide

/-- One pass keeps the accounting, as long as the clock stays at or below
`bound`, which is below `UINT_MOD`. -/
theorem fifo_acc_iter (n q bound : Nat) (arrival required ao : List Nat)
    (hs : rr_setting n q arrival required ao)
    (hB : ∀ i, i < n → arrival.getD i 0 + required.sum ≤ bound) (hM : bound < UINT_MOD)
    (a : FifoState) (hi : fifo_inv n required ao a)
    (h : fifo_acc n bound arrival required ao a) (hc : a.completed < n) :
    fifo_acc n bound arrival required ao (fifo_iter q arrival ao a) := by
  obtain ⟨hlen, hnd, hlt⟩ := rr_setting_order n q arrival required ao hs
  have hi1 := fifo_inv_admission n q arrival required ao hs a hi
  have h1 := fifo_acc_admission n q bound arrival required ao hs a h hi.2.2.2.2.2.2.1
  obtain ⟨hn0, hnS, hq0, harr, hreqlen, hperm, hreq⟩ := id hs
  obtain ⟨j1, j2, j3, j4, j5, j6, j7, j8⟩ := hi1
  obtain ⟨c1, c2, c3, c4, c5, c6, c7⟩ := h1
  rw [uint_mod_eq] at hM
  cases hq : (fifo_admission arrival ao a).ready with
  | nil =>
    rw [fifo_iter_nil q arrival ao a hq]
    rw [hq] at j3
    have hnx : (fifo_admission arrival ao a).next_arrival < n := by
      have : (fifo_admission arrival ao a).completed = a.completed := rfl
      simp only [List.length_nil] at j3
      omega
    have hpid : ao.getD (fifo_admission arrival ao a).next_arrival 0 < n := by
      apply hlt
      rw [List.getD_eq_getElem _ _ (by omega)]
      exact List.getElem_mem _
    refine ⟨c1, c2, c3, ?_, ?_, c6, c7⟩
    · have := hB _ hpid
      show arrival.getD (ao.getD (fifo_admission arrival ao a).next_arrival 0) 0
        + (fifo_admission arrival ao a).remaining.sum ≤ bound
      omega
    · intro pid hp
      have hp2 : pid ∈ (fifo_admission arrival ao a).ready := hp
      rw [hq] at hp2
      cases hp2
  | cons pid rest =>
    rw [fifo_iter_cons q arrival ao a pid rest hq]
    simp only []
    rw [hq] at j3 j4 j5 c5
    set a1 := fifo_admission arrival ao a with ha1
    have hp := j5 pid (List.mem_cons_self _ _)
    have hpidn : pid < n := hlt pid ((List.take_sublist _ _).subset hp.1)
    have hpid_rest : pid ∉ rest := (List.nodup_cons.mp j4).1
    have hrest_nd : rest.Nodup := (List.nodup_cons.mp j4).2
    have hrest_pos : ∀ o ∈ rest, 0 < a1.remaining.getD o 0 :=
      fun o ho => (j5 o (List.mem_cons_of_mem _ ho)).2
    have hrest_lt : ∀ o ∈ rest, o < a1.waiting.length := fun o ho => by
      rw [c1]
      exact hlt o ((List.take_sublist _ _).subset (j5 o (List.mem_cons_of_mem _ ho)).1)
    have hpos : 0 < a1.remaining.getD pid 0 := hp.2
    have hle_sum := getD_le_sum a1.remaining pid
    have hle_req := j8 pid hpidn
    have hWpid := c5 pid (List.mem_cons_self _ _)
    set rem := a1.remaining.getD pid 0 with hrem
    set slice := (if rem > q then q else rem) with hslice
    have hslice_le : slice ≤ rem := by rw [hslice]; split_ifs <;> omega
    have hslice_pos : 0 < slice := by rw [hslice]; split_ifs <;> omega
    have htime : uadd a1.time slice = a1.time + slice := by
      unfold uadd
      rw [uint_mod_eq]
      omega
    have hsum := sum_set a1.remaining pid (rem - slice) (by omega)
    have hwait : ∀ i, (fifo_wait slice a1.remaining rest a1.waiting).getD i 0
        = if i ∈ rest then a1.waiting.getD i 0 + slice else a1.waiting.getD i 0 := by
      intro i
      rw [fifo_wait_getD slice a1.remaining rest a1.waiting hrest_nd hrest_pos hrest_lt i]
      by_cases him : i ∈ rest
      · rw [if_pos him, if_pos him]
        have := c5 i (List.mem_cons_of_mem _ him)
        unfold uadd
        rw [uint_mod_eq]
        omega
      · rw [if_neg him, if_neg him]
    have hnot_rest : ∀ x, a1.remaining.getD x 0 = 0 → x ∉ rest := fun x hx hm => by
      have := hrest_pos x hm
      omega
    have hdrop_rest : ∀ x ∈ ao.drop a1.next_arrival, x ∉ rest ∧ x ≠ pid := fun x hx => by
      constructor
      · intro hm
        exact not_mem_drop_of_mem_take ao hnd _ _ (j5 x (List.mem_cons_of_mem _ hm)).1 hx
      · intro he
        subst he
        exact not_mem_drop_of_mem_take ao hnd _ _ hp.1 hx
    have h7b : ∀ x ∈ ao.drop a1.next_arrival,
        (a1.remaining.set pid (rem - slice)).getD x 0 = required.getD x 0 := fun x hx => by
      rw [getD_set_other _ _ _ _ (Ne.symm (hdrop_rest x hx).2)]
      exact j7 x hx
    by_cases hfin : rem - slice > 0
    · rw [if_pos hfin]
      have hb : fifo_acc n bound arrival required ao
          { a1 with ready := pid :: rest,
                    waiting := fifo_wait slice a1.remaining rest a1.waiting,
                    time := uadd a1.time slice,
                    remaining := a1.remaining.set pid (rem - slice) } := by
        refine ⟨by simp [fifo_wait_length, c1], c2, ?_, ?_, ?_, ?_, ?_⟩
        · show (a1.remaining.set pid (rem - slice)).sum ≤ required.sum
          omega
        · show uadd a1.time slice + (a1.remaining.set pid (rem - slice)).sum ≤ bound
          rw [htime]
          omega
        · intro x hx
          show arrival.getD x 0 + (fifo_wait slice a1.remaining rest a1.waiting).getD x 0
            + (required.getD x 0 - (a1.remaining.set pid (rem - slice)).getD x 0)
            ≤ uadd a1.time slice
          rw [hwait, htime]
          by_cases hxp : x = pid
          · subst hxp
            rw [if_neg hpid_rest, getD_set_self _ _ _ (by omega)]
            omega
          · have hxr : x ∈ rest := by
              rcases List.mem_cons.mp hx with he | hm
              · exact absurd he hxp
              · exact hm
            rw [if_pos hxr, getD_set_other _ _ _ _ (Ne.symm hxp)]
            have := c5 x hx
            omega
        · intro x hx hz
          have hz2 : (a1.remaining.set pid (rem - slice)).getD x 0 = 0 := hz
          have hxp : x ≠ pid := by
            intro he
            subst he
            rw [getD_set_self _ _ _ (by omega)] at hz2
            omega
          rw [getD_set_other _ _ _ _ (Ne.symm hxp)] at hz2
          show arrival.getD x 0 + (fifo_wait slice a1.remaining rest a1.waiting).getD x 0
            + required.getD x 0 ≤ a1.finish.getD x 0 ∧ a1.finish.getD x 0 ≤ bound
          rw [hwait, if_neg (hnot_rest x hz2)]
          exact c6 x hx hz2
        · intro x hx
          show (fifo_wait slice a1.remaining rest a1.waiting).getD x 0 = 0
          rw [hwait, if_neg (hdrop_rest x hx).1]
          exact c7 x hx
      have hb2 := fifo_acc_admission n q bound arrival required ao hs _ hb h7b
      refine fifo_acc_congr n bound arrival required ao _ _ hb2 rfl rfl rfl rfl rfl ?_
      intro x hx
      simp only [fifo_admission, List.mem_append, List.mem_cons, List.mem_singleton,
        List.not_mem_nil, or_false] at hx ⊢
      tauto
    · rw [if_neg hfin]
      have hzero : slice = rem := by omega
      have hb : fifo_acc n bound arrival required ao
          { a1 with ready := rest,
                    waiting := fifo_wait slice a1.remaining rest a1.waiting,
                    time := uadd a1.time slice,
                    remaining := a1.remaining.set pid (rem - slice),
                    finish := a1.finish.set pid (uadd a1.time slice),
                    completed := a1.completed + 1 } := by
        refine ⟨by simp [fifo_wait_length, c1], by simp [c2], ?_, ?_, ?_, ?_, ?_⟩
        · show (a1.remaining.set pid (rem - slice)).sum ≤ required.sum
          omega
        · show uadd a1.time slice + (a1.remaining.set pid (rem - slice)).sum ≤ bound
          rw [htime]
          omega
        · intro x hx
          have hxr : x ∈ rest := hx
          have hxp : x ≠ pid := fun he => hpid_rest (he ▸ hxr)
          show arrival.getD x 0 + (fifo_wait slice a1.remaining rest a1.waiting).getD x 0
            + (required.getD x 0 - (a1.remaining.set pid (rem - slice)).getD x 0)
            ≤ uadd a1.time slice
          rw [hwait, htime, if_pos hxr, getD_set_other _ _ _ _ (Ne.symm hxp)]
          have := c5 x (List.mem_cons_of_mem _ hxr)
          omega
        · intro x hx hz
          have hz2 : (a1.remaining.set pid (rem - slice)).getD x 0 = 0 := hz
          show arrival.getD x 0 + (fifo_wait slice a1.remaining rest a1.waiting).getD x 0
            + required.getD x 0 ≤ (a1.finish.set pid (uadd a1.time slice)).getD x 0
            ∧ (a1.finish.set pid (uadd a1.time slice)).getD x 0 ≤ bound
          by_cases hxp : x = pid
          · subst hxp
            rw [hwait, if_neg hpid_rest, getD_set_self _ _ _ (by omega), htime]
            omega
          · rw [getD_set_other _ _ _ _ (Ne.symm hxp)] at hz2
            rw [hwait, if_neg (hnot_rest x hz2), getD_set_other _ _ _ _ (Ne.symm hxp)]
            exact c6 x hx hz2
        · intro x hx
          show (fifo_wait slice a1.remaining rest a1.waiting).getD x 0 = 0
          rw [hwait, if_neg (hdrop_rest x hx).1]
          exact c7 x hx
      have hb2 := fifo_acc_admission n q bound arrival required ao hs _ hb h7b
      exact fifo_acc_congr n bound arrival required ao _ _ hb2 rfl rfl rfl rfl rfl
        (fun x hx => hx)

theorem fifo_run_acc (n q bound : Nat) (arrival required ao : List Nat)
    (hs : rr_setting n q arrival required ao)
    (hB : ∀ i, i < n → arrival.getD i 0 + required.sum ≤ bound) (hM : bound < UINT_MOD) :
    ∀ (k : Nat) (a : FifoState), fifo_inv n required ao a →
      fifo_acc n bound arrival required ao a →
      fifo_acc n bound arrival required ao (fifo_run n q arrival ao k a) := by
  intro k
  induction k with
  | zero => intro a _ h; exact h
  | succ k ih =>
    intro a hi h
    unfold fifo_run
    split_ifs with hc
    · exact ih _ (fifo_inv_iter n q arrival required ao hs a hi)
        (fifo_acc_iter n q bound arrival required ao hs hB hM a hi h hc)
    · exact h

theorem getD_replicate_zero (n i : Nat) : (List.replicate n 0).getD i 0 = 0 := by
  by_cases h : i < n
  · rw [List.getD_eq_getElem _ _ (by simpa using h)]
    simp
  · rw [List.getD_eq_default _ _ (by simpa using h)]

theorem fifo_start_acc (n q bound : Nat) (arrival required ao : List Nat)
    (hs : rr_setting n q arrival required ao)
    (hB : ∀ i, i < n → arrival.getD i 0 + required.sum ≤ bound) :
    fifo_acc n bound arrival required ao (fifo_start n arrival required ao) := by
  obtain ⟨hlen, hnd, hlt⟩ := rr_setting_order n q arrival required ao hs
  have hn0 : 0 < n := hs.1
  have hpid : ao.getD 0 0 < n := by
    apply hlt
    rw [List.getD_eq_getElem _ _ (by omega)]
    exact List.getElem_mem _
  refine ⟨by simp [fifo_start], by simp [fifo_start], le_refl _, hB _ hpid, ?_, ?_, ?_⟩
  · intro pid hp
    simp [fifo_start] at hp
  · intro pid hp
    simp [fifo_start] at hp
  · intro pid _
    exact getD_replicate_zero n pid

/-- When the loop has ended every request is admitted and finished. -/
theorem fifo_done_facts (n q : Nat) (arrival required ao : List Nat)
    (hs : rr_setting n q arrival required ao) (a : FifoState)
    (hi : fifo_inv n required ao a) (hc : ¬ a.completed < n) :
    ∀ i, i < n → i ∈ ao.take a.next_arrival ∧ a.remaining.getD i 0 = 0 := by
  obtain ⟨hlen, hnd, hlt⟩ := rr_setting_order n q arrival required ao hs
  obtain ⟨_, _, _, _, _, hperm, _⟩ := hs
  obtain ⟨i1, i2, i3, i4, i5, i6, i7, i8⟩ := hi
  have hnext : a.next_arrival = n := by omega
  have hready : a.ready = [] := List.length_eq_zero.mp (by omega)
  intro i hin
  have hmem : i ∈ ao.take a.next_arrival := by
    rw [hnext, ← hlen, List.take_length]
    exact hperm.symm.subset (List.mem_range.mpr hin)
  refine ⟨hmem, ?_⟩
  by_contra hne
  have := i6 i hmem (by omega)
  rw [hready] at this
  cases this

theorem rr_totals_eq (arrival : List Nat) (s : RRState) :
    ∀ (m i : Nat) (acc : Nat × Nat), i + m ≤ s.finish.length → i + m ≤ arrival.length →
      i + m ≤ s.waiting.length →
      rr_totals arrival s m i acc
        = .ok (acc.1 + ((List.range m).map (fun j => s.waiting.getD (i + j) 0)).sum,
               acc.2 + ((List.range m).map
                 (fun j => usub (s.finish.getD (i + j) 0) (arrival.getD (i + j) 0))).sum) := by
  intro m
  induction m with
  | zero => intro i acc _ _ _; simp [rr_totals]
  | succ m ih =>
    intro i acc h1 h2 h3
    unfold rr_totals
    rw [rd_getD s.finish i (by omega), rd_getD arrival i (by omega),
      rd_getD s.waiting i (by omega)]
    simp only [bind, Except.bind]
    rw [ih (i + 1) _ (by omega) (by omega) (by omega)]
    simp only [List.range_succ_eq_map, List.map_cons, List.sum_cons, List.map_map,
      Nat.add_zero]
    have e1 : ((fun j => s.waiting.getD (i + 1 + j) 0))
        = ((fun j => s.waiting.getD (i + j) 0) ∘ Nat.succ) := by
      funext j
      show s.waiting.getD (i + 1 + j) 0 = s.waiting.getD (i + (j + 1)) 0
      rw [Nat.add_assoc, Nat.add_comm 1 j]
    have e2 : ((fun j => usub (s.finish.getD (i + 1 + j) 0) (arrival.getD (i + 1 + j) 0)))
        = ((fun j => usub (s.finish.getD (i + j) 0) (arrival.getD (i + j) 0)) ∘ Nat.succ) := by
      funext j
      show usub (s.finish.getD (i + 1 + j) 0) (arrival.getD (i + 1 + j) 0)
        = usub (s.finish.getD (i + (j + 1)) 0) (arrival.getD (i + (j + 1)) 0)
      rw [Nat.add_assoc, Nat.add_comm 1 j]
    rw [e1, e2]
    simp only [Nat.add_assoc]

theorem sum_map_add_le (l : List Nat) (f g h : Nat → Nat)
    (hle : ∀ j ∈ l, f j + g j ≤ h j) : (l.map f).sum + (l.map g).sum ≤ (l.map h).sum := by
  induction l with
  | nil => simp
  | cons x xs ih =>
    have h1 := hle x (List.mem_cons_self _ _)
    have h2 := ih (fun j hj => hle j (List.mem_cons_of_mem _ hj))
    simp only [List.map_cons, List.sum_cons]
    omega

theorem map_getD_range (l : List Nat) : (List.range l.length).map (fun j => l.getD j 0) = l := by
  apply List.ext_getElem
  · simp
  · intro i h1 h2
    simp [List.getD, List.getElem?_eq_getElem h2]

theorem length_le_sum (l : List Nat) (h : ∀ x ∈ l, 0 < x) : l.length ≤ l.sum := by
  induction l with
  | nil => simp
  | cons x xs ih =>
    have h1 := h x (List.mem_cons_self _ _)
    have h2 := ih (fun y hy => h y (List.mem_cons_of_mem _ hy))
    simp only [List.length_cons, List.sum_cons]
    omega

theorem getD_map_arrival (list : PatientList) (i : Nat) (h : i < list.length) :
    (list.map (fun p => p.arrival_ms)).getD i 0 = (item list i).arrival_ms := by
  rw [List.getD_eq_getElem _ _ (by simpa using h), List.getElem_map, item_eq_get list i h]
  rfl

theorem getD_map_required (list : PatientList) (i : Nat) (h : i < list.length) :
    (list.map (fun p => p.required_time_ms)).getD i 0 = (item list i).required_time_ms := by
  rw [List.getD_eq_getElem _ _ (by simpa using h), List.getElem_map, item_eq_get list i h]
  rfl

theorem size_mod_eq : SIZE_MOD = 18446744073709551616 := by decide

/-- The final state of the Round-Robin simulation of `compute_metrics` when
nothing overflows: the simulation ends, and every request has its waiting
time and its required time between its arrival and its finish. -/
theorem rr_simulate_accounting (list : PatientList) (order : List Nat) (q : Nat)
    (hne : list ≠ []) (hperm : order.Perm (List.range list.length))
    (hpos : ∀ p ∈ list, 0 < p.required_time_ms) (hq : 0 < q)
    (hno : ∀ p ∈ list,
      p.arrival_ms + (list.map (fun p => p.required_time_ms)).sum < UINT_MOD) :
    ∃ s, rr_simulate (2 * (list.map (fun p => p.required_time_ms)).sum + 1) list order q
        = .ok s ∧
      s.waiting.length = list.length ∧ s.finish.length = list.length ∧
      ∀ i, i < list.length →
        (item list i).arrival_ms + s.waiting.getD i 0 + (item list i).required_time_ms
          ≤ s.finish.getD i 0 ∧ s.finish.getD i 0 < UINT_MOD := by
  have hsum : (list.map (fun p => p.required_time_ms)).sum < UINT_MOD := by
    obtain ⟨p, hp⟩ := List.exists_mem_of_ne_nil list hne
    have := hno p hp
    omega
  have hsize : list.length < SIZE_MOD := by
    have := length_le_sum (list.map (fun p => p.required_time_ms)) (by
      intro x hx
      obtain ⟨p, hp, rfl⟩ := List.mem_map.mp hx
      exact hpos p hp)
    rw [List.length_map] at this
    rw [uint_mod_eq] at hsum
    rw [size_mod_eq]
    omega
  have hs := rr_setting_of_list list q (qsort (cmp_fcfs list) (List.range list.length))
    hne hsize hpos hq (qsort_perm _ _)
  have hB : ∀ i, i < list.length → (list.map (fun p => p.arrival_ms)).getD i 0
      + (list.map (fun p => p.required_time_ms)).sum ≤ UINT_MOD - 1 := by
    intro i hi
    rw [getD_map_arrival list i hi, item_eq_get list i hi]
    have := hno _ (List.get_mem list i hi)
    omega
  have hM : UINT_MOD - 1 < UINT_MOD := by rw [uint_mod_eq]; omega
  obtain ⟨s, e, r, hd⟩ := rr_loop_ends _ _ _ _ _ hs
  have hinv := fifo_run_inv _ _ _ _ _ hs (2 * (list.map (fun p => p.required_time_ms)).sum + 1) _
    (fifo_start_inv list.length (list.map (fun p => p.arrival_ms))
      (list.map (fun p => p.required_time_ms)) (qsort (cmp_fcfs list) (List.range list.length))
      (by simp))
  have hacc := fifo_run_acc _ _ _ _ _ _ hs hB hM
    (2 * (list.map (fun p => p.required_time_ms)).sum + 1) _
    (fifo_start_inv list.length (list.map (fun p => p.arrival_ms))
      (list.map (fun p => p.required_time_ms)) (qsort (cmp_fcfs list) (List.range list.length))
      (by simp))
    (fifo_start_acc _ _ _ _ _ _ hs hB)
  have hc : s.completed = _ := r.1.2.2.2.1
  rw [hc] at hd
  have hfacts := fifo_done_facts _ _ _ _ _ hs _ hinv hd
  obtain ⟨c1, c2, _, _, _, c6, _⟩ := hacc
  refine ⟨s, ?_, by rw [r.2.1]; exact c1, by rw [r.2.2]; exact c2, ?_⟩
  · rw [rr_simulate_eq_loop _ list order q hne hperm]
    exact e
  · intro i hi
    obtain ⟨hm, hz⟩ := hfacts i hi
    have := c6 i hm hz
    rw [getD_map_arrival list i hi, getD_map_required list i hi] at this
    rw [r.2.1, r.2.2]
    exact ⟨this.1, by omega⟩

/-! ### Round-Robin when all requests arrive together -/

theorem fifo_admitted_all (arrival ao : List Nat) (time next : Nat)
    (h : ∀ pid ∈ ao.drop next, arrival.getD pid 0 ≤ time) :
    fifo_admitted arrival ao time next = ao.drop next := by
  unfold fifo_admitted
  rw [List.takeWhile_eq_self_iff]
  intro pid hp
  simpa using h pid hp

theorem fifo_cong_congr (n arr : Nat) (required ao : List Nat) (a b : FifoState)
    (h : fifo_cong n arr required ao a) (hr : b.remaining = a.remaining)
    (hw : b.waiting = a.waiting) (hf : b.finish = a.finish) (ht : b.time = a.time)
    (hx : b.next_arrival = a.next_arrival) (hq : ∀ pid, pid ∈ b.ready → pid ∈ a.ready) :
    fifo_cong n arr required ao b := by
  obtain ⟨c1, c2, c3, c4, c5, c6, c7⟩ := h
  unfold fifo_cong
  rw [hr, hw, hf, ht, hx]
  exact ⟨c1, c2, c3, c4, fun pid hp => c5 pid (hq pid hp), c6, c7⟩

theorem fifo_cong_admission (n q arr : Nat) (arrival required ao : List Nat)
    (hs : rr_setting n q arrival required ao) (harr : arr < UINT_MOD) (a : FifoState)
    (h : fifo_cong n arr required ao a)
    (h7 : ∀ pid ∈ ao.drop a.next_arrival, a.remaining.getD pid 0 = required.getD pid 0) :
    fifo_cong n arr required ao (fifo_admission arrival ao a) := by
  obtain ⟨hlen, hnd, hlt⟩ := rr_setting_order n q arrival required ao hs
  obtain ⟨_, _, _, _, _, _, hreq⟩ := hs
  obtain ⟨c1, c2, c3, c4, c5, c6, c7⟩ := h
  have hdrop := fifo_admitted_mem_drop arrival ao a.time a.next_arrival
  refine ⟨c1, c2, c3, ?_, ?_, ?_, ?_⟩
  · intro hx
    apply c4
    simp only [fifo_admission] at hx
    omega
  · intro pid hp
    simp only [fifo_admission, List.mem_append] at hp ⊢
    rcases hp with hp | hp
    · exact c5 pid hp
    · have hd := hdrop pid hp
      have hnx : a.next_arrival < n := by
        by_contra hge
        rw [List.drop_eq_nil_of_le (by omega)] at hd
        cases hd
      have h2 := c7 pid hd
      have h3 := h7 pid hd
      have h4 := c4 hnx
      rw [h2, h3, h4, Nat.sub_self, Nat.add_zero]
      exact Nat.mod_eq_of_lt harr
  · intro pid hp hz
    simp only [fifo_admission] at hp hz ⊢
    rw [fifo_admitted_take, List.mem_append] at hp
    rcases hp with hp | hp
    · exact c6 pid hp hz
    · have h3 := h7 pid (hdrop pid hp)
      have h4 := hreq pid (hlt pid ((List.drop_sublist _ _).subset (hdrop pid hp)))
      omega
  · intro pid hp
    simp only [fifo_admission] at hp ⊢
    exact c7 pid (by
      rw [fifo_admitted_split arrival ao a.time a.next_arrival]
      exact List.mem_append_right _ hp)

/-- When every request arrives at `arr` and the clock is at `arr` as long as
some request is not admitted, the admission loop admits every request. -/
theorem fifo_admit_all (n q arr : Nat) (arrival required ao : List Nat)
    (hs : rr_setting n q arrival required ao) (hall : ∀ i, i < n → arrival.getD i 0 = arr)
    (a : FifoState) (hnx : a.next_arrival ≤ n) (h4 : a.next_arrival < n → a.time = arr) :
    (fifo_admission arrival ao a).next_arrival = n := by
  obtain ⟨hlen, hnd, hlt⟩ := rr_setting_order n q arrival required ao hs
  show a.next_arrival + (fifo_admitted arrival ao a.time a.next_arrival).length = n
  by_cases hc : a.next_arrival < n
  · rw [fifo_admitted_all arrival ao a.time a.next_arrival (by
      intro pid hp
      rw [hall pid (hlt pid ((List.drop_sublist _ _).subset hp)), h4 hc]), List.length_drop]
    omega
  · rw [fifo_admitted_of_ge arrival ao a.time a.next_arrival (by omega)]
    simp only [List.length_nil]
    omega

/-- One pass keeps the accounting modulo `UINT_MOD`. -/
theorem fifo_cong_iter (n q arr : Nat) (arrival required ao : List Nat)
    (hs : rr_setting n q arrival required ao) (hall : ∀ i, i < n → arrival.getD i 0 = arr)
    (harr : arr < UINT_MOD)
    (a : FifoState) (hi : fifo_inv n required ao a)
    (h : fifo_cong n arr required ao a) (hc : a.completed < n) :
    fifo_cong n arr required ao (fifo_iter q arrival ao a) := by
  obtain ⟨hlen, hnd, hlt⟩ := rr_setting_order n q arrival required ao hs
  have hi1 := fifo_inv_admission n q arrival required ao hs a hi
  have h1 := fifo_cong_admission n q arr arrival required ao hs harr a h hi.2.2.2.2.2.2.1
  have hfull := fifo_admit_all n q arr arrival required ao hs hall a hi.2.1 h.2.2.2.1
  obtain ⟨hn0, hnS, hq0, harrl, hreqlen, hperm, hreq⟩ := id hs
  obtain ⟨j1, j2, j3, j4, j5, j6, j7, j8⟩ := hi1
  obtain ⟨c1, c2, c3, c4, c5, c6, c7⟩ := h1
  rw [uint_mod_eq] at harr c3
  cases hq : (fifo_admission arrival ao a).ready with
  | nil =>
    rw [hq] at j3
    have : (fifo_admission arrival ao a).completed = a.completed := rfl
    simp only [List.length_nil] at j3
    omega
  | cons pid rest =>
    rw [fifo_iter_cons q arrival ao a pid rest hq]
    simp only []
    rw [hq] at j3 j4 j5 c5
    set a1 := fifo_admission arrival ao a with ha1
    have hp := j5 pid (List.mem_cons_self _ _)
    have hpidn : pid < n := hlt pid ((List.take_sublist _ _).subset hp.1)
    have hpid_rest : pid ∉ rest := (List.nodup_cons.mp j4).1
    have hrest_nd : rest.Nodup := (List.nodup_cons.mp j4).2
    have hrest_pos : ∀ o ∈ rest, 0 < a1.remaining.getD o 0 :=
      fun o ho => (j5 o (List.mem_cons_of_mem _ ho)).2
    have hrest_lt : ∀ o ∈ rest, o < a1.waiting.length := fun o ho => by
      rw [c1]
      exact hlt o ((List.take_sublist _ _).subset (j5 o (List.mem_cons_of_mem _ ho)).1)
    have hpos : 0 < a1.remaining.getD pid 0 := hp.2
    have hle_req := j8 pid hpidn
    have hWpid := c5 pid (List.mem_cons_self _ _)
    set rem := a1.remaining.getD pid 0 with hrem
    set slice := (if rem > q then q else rem) with hslice
    have hslice_le : slice ≤ rem := by rw [hslice]; split_ifs <;> omega
    have htime : uadd a1.time slice = (a1.time + slice) % 4294967296 := by
      unfold uadd
      rw [uint_mod_eq]
    have hwait : ∀ i, (fifo_wait slice a1.remaining rest a1.waiting).getD i 0
        = if i ∈ rest then (a1.waiting.getD i 0 + slice) % 4294967296
          else a1.waiting.getD i 0 := by
      intro i
      rw [fifo_wait_getD slice a1.remaining rest a1.waiting hrest_nd hrest_pos hrest_lt i]
      unfold uadd
      rw [uint_mod_eq]
    have hnot_rest : ∀ x, a1.remaining.getD x 0 = 0 → x ∉ rest := fun x hx hm => by
      have := hrest_pos x hm
      omega
    have hdrop_rest : ∀ x ∈ ao.drop a1.next_arrival, x ∉ rest ∧ x ≠ pid := fun x hx => by
      constructor
      · intro hm
        exact not_mem_drop_of_mem_take ao hnd _ _ (j5 x (List.mem_cons_of_mem _ hm)).1 hx
      · intro he
        subst he
        exact not_mem_drop_of_mem_take ao hnd _ _ hp.1 hx
    have h7b : ∀ x ∈ ao.drop a1.next_arrival,
        (a1.remaining.set pid (rem - slice)).getD x 0 = required.getD x 0 := fun x hx => by
      rw [getD_set_other _ _ _ _ (Ne.symm (hdrop_rest x hx).2)]
      exact j7 x hx
    have hnotlt : ¬ a1.next_arrival < n := by omega
    by_cases hfin : rem - slice > 0
    · rw [if_pos hfin]
      have hb : fifo_cong n arr required ao
          { a1 with ready := pid :: rest,
                    waiting := fifo_wait slice a1.remaining rest a1.waiting,
                    time := uadd a1.time slice,
                    remaining := a1.remaining.set pid (rem - slice) } := by
        refine ⟨by simp [fifo_wait_length, c1], c2, ?_, ?_, ?_, ?_, ?_⟩
        · show uadd a1.time slice < UINT_MOD
          rw [htime, uint_mod_eq]
          omega
        · intro hx
          exact absurd hx hnotlt
        · intro x hx
          show (arr + (fifo_wait slice a1.remaining rest a1.waiting).getD x 0
            + (required.getD x 0 - (a1.remaining.set pid (rem - slice)).getD x 0)) % UINT_MOD
            = uadd a1.time slice
          rw [hwait, htime, uint_mod_eq]
          by_cases hxp : x = pid
          · subst hxp
            rw [if_neg hpid_rest, getD_set_self _ _ _ (by omega)]
            rw [uint_mod_eq] at hWpid
            omega
          · have hxr : x ∈ rest := by
              rcases List.mem_cons.mp hx with he | hm
              · exact absurd he hxp
              · exact hm
            rw [if_pos hxr, getD_set_other _ _ _ _ (Ne.symm hxp)]
            have := c5 x hx
            rw [uint_mod_eq] at this
            omega
        · intro x hx hz
          have hz2 : (a1.remaining.set pid (rem - slice)).getD x 0 = 0 := hz
          have hxp : x ≠ pid := by
            intro he
            subst he
            rw [getD_set_self _ _ _ (by omega)] at hz2
            omega
          rw [getD_set_other _ _ _ _ (Ne.symm hxp)] at hz2
          show (arr + (fifo_wait slice a1.remaining rest a1.waiting).getD x 0
            + required.getD x 0) % UINT_MOD = a1.finish.getD x 0
          rw [hwait, if_neg (hnot_rest x hz2)]
          exact c6 x hx hz2
        · intro x hx
          show (fifo_wait slice a1.remaining rest a1.waiting).getD x 0 = 0
          rw [hwait, if_neg (hdrop_rest x hx).1]
          exact c7 x hx
      have hb2 := fifo_cong_admission n q arr arrival required ao hs (by rw [uint_mod_eq]; exact harr)
        _ hb h7b
      refine fifo_cong_congr n arr required ao _ _ hb2 rfl rfl rfl rfl rfl ?_
      intro x hx
      simp only [fifo_admission, List.mem_append, List.mem_cons, List.mem_singleton,
        List.not_mem_nil, or_false] at hx ⊢
      tauto
    · rw [if_neg hfin]
      have hzero : slice = rem := by omega
      have hb : fifo_cong n arr required ao
          { a1 with ready := rest,
                    waiting := fifo_wait slice a1.remaining rest a1.waiting,
                    time := uadd a1.time slice,
                    remaining := a1.remaining.set pid (rem - slice),
                    finish := a1.finish.set pid (uadd a1.time slice),
                    completed := a1.completed + 1 } := by
        refine ⟨by simp [fifo_wait_length, c1], by simp [c2], ?_, ?_, ?_, ?_, ?_⟩
        · show uadd a1.time slice < UINT_MOD
          rw [htime, uint_mod_eq]
          omega
        · intro hx
          exact absurd hx hnotlt
        · intro x hx
          have hxr : x ∈ rest := hx
          have hxp : x ≠ pid := fun he => hpid_rest (he ▸ hxr)
          show (arr + (fifo_wait slice a1.remaining rest a1.waiting).getD x 0
            + (required.getD x 0 - (a1.remaining.set pid (rem - slice)).getD x 0)) % UINT_MOD
            = uadd a1.time slice
          rw [hwait, htime, uint_mod_eq, if_pos hxr, getD_set_other _ _ _ _ (Ne.symm hxp)]
          have := c5 x (List.mem_cons_of_mem _ hxr)
          rw [uint_mod_eq] at this
          omega
        · intro x hx hz
          have hz2 : (a1.remaining.set pid (rem - slice)).getD x 0 = 0 := hz
          show (arr + (fifo_wait slice a1.remaining rest a1.waiting).getD x 0
            + required.getD x 0) % UINT_MOD
            = (a1.finish.set pid (uadd a1.time slice)).getD x 0
          by_cases hxp : x = pid
          · subst hxp
            rw [hwait, if_neg hpid_rest, getD_set_self _ _ _ (by omega), htime, uint_mod_eq]
            rw [uint_mod_eq] at hWpid
            omega
          · rw [getD_set_other _ _ _ _ (Ne.symm hxp)] at hz2
            rw [hwait, if_neg (hnot_rest x hz2), getD_set_other _ _ _ _ (Ne.symm hxp)]
            exact c6 x hx hz2
        · intro x hx
          show (fifo_wait slice a1.remaining rest a1.waiting).getD x 0 = 0
          rw [hwait, if_neg (hdrop_rest x hx).1]
          exact c7 x hx
      have hb2 := fifo_cong_admission n q arr arrival required ao hs (by rw [uint_mod_eq]; exact harr)
        _ hb h7b
      exact fifo_cong_congr n arr required ao _ _ hb2 rfl rfl rfl rfl rfl
        (fun x hx => hx)

theorem fifo_run_cong (n q arr : Nat) (arrival required ao : List Nat)
    (hs : rr_setting n q arrival required ao) (hall : ∀ i, i < n → arrival.getD i 0 = arr)
    (harr : arr < UINT_MOD) :
    ∀ (k : Nat) (a : FifoState), fifo_inv n required ao a → fifo_cong n arr required ao a →
      fifo_cong n arr required ao (fifo_run n q arrival ao k a) := by
  intro k
  induction k with
  | zero => intro a _ h; exact h
  | succ k ih =>
    intro a hi h
    unfold fifo_run
    split_ifs with hc
    · exact ih _ (fifo_inv_iter n q arrival required ao hs a hi)
        (fifo_cong_iter n q arr arrival required ao hs hall harr a hi h hc)
    · exact h

theorem fifo_start_cong (n q arr : Nat) (arrival required ao : List Nat)
    (hs : rr_setting n q arrival required ao) (hall : ∀ i, i < n → arrival.getD i 0 = arr)
    (harr : arr < UINT_MOD) :
    fifo_cong n arr required ao (fifo_start n arrival required ao) := by
  obtain ⟨hlen, hnd, hlt⟩ := rr_setting_order n q arrival required ao hs
  have hn0 : 0 < n := hs.1
  have hpid : ao.getD 0 0 < n := by
    apply hlt
    rw [List.getD_eq_getElem _ _ (by omega)]
    exact List.getElem_mem _
  have ht : (fifo_start n arrival required ao).time = arr := hall _ hpid
  refine ⟨by simp [fifo_start], by simp [fifo_start], by rw [ht]; exact harr,
    fun _ => ht, ?_, ?_, ?_⟩
  · intro pid hp
    simp [fifo_start] at hp
  · intro pid hp
    simp [fifo_start] at hp
  · intro pid _
    exact getD_replicate_zero n pid

/-- C26: in the Round-Robin simulation of `compute_metrics`, for a request
list in which all requests have the same `arrival_ms` and positive required
times, and a positive quantum, the simulation ends and every request
satisfies `finish[i] - arrival[i] = waiting[i] + required_time_ms[i]`: in the
unsigned arithmetic of the code in every case, and as plain numbers when
nothing overflows (the arrival time plus the total required time is below
2^32). -/
theorem rr_same_arrival_turnaround (list : PatientList) (order : List Nat) (quantum_ms : Nat)
    (hne : list ≠ []) (hsize : list.length < SIZE_MOD)
    (hperm : order.Perm (List.range list.length))
    (hpos : ∀ p ∈ list, 0 < p.required_time_ms) (hq : 0 < quantum_ms)
    (hsame : ∀ p ∈ list, ∀ r ∈ list, p.arrival_ms = r.arrival_ms)
    (hrange : ∀ p ∈ list, p.arrival_ms < UINT_MOD) :
    ∃ fuel s, rr_simulate fuel list order quantum_ms = .ok s ∧
      (∀ i, i < list.length →
        usub (s.finish.getD i 0) (item list i).arrival_ms
          = uadd (s.waiting.getD i 0) (item list i).required_time_ms) ∧
      ((∀ p ∈ list,
          p.arrival_ms + (list.map (fun p => p.required_time_ms)).sum < UINT_MOD) →
        ∀ i, i < list.length →
          (item list i).arrival_ms ≤ s.finish.getD i 0 ∧
          s.finish.getD i 0 - (item list i).arrival_ms
            = s.waiting.getD i 0 + (item list i).required_time_ms) := by
  have hn0 : 0 < list.length := List.length_pos.mpr hne
  have hs := rr_setting_of_list list quantum_ms (qsort (cmp_fcfs list) (List.range list.length))
    hne hsize hpos hq (qsort_perm _ _)
  have hitem : ∀ i, i < list.length → item list i ∈ list := fun i hi => by
    rw [item_eq_get list i hi]
    exact List.get_mem list i hi
  have hall : ∀ i, i < list.length →
      (list.map (fun p => p.arrival_ms)).getD i 0 = (item list 0).arrival_ms := by
    intro i hi
    rw [getD_map_arrival list i hi]
    exact hsame _ (hitem i hi) _ (hitem 0 hn0)
  have harr : (item list 0).arrival_ms < UINT_MOD := hrange _ (hitem 0 hn0)
  obtain ⟨s, e, r, hd⟩ := rr_loop_ends _ _ _ _ _ hs
  have hinv0 := fifo_start_inv list.length (list.map (fun p => p.arrival_ms))
      (list.map (fun p => p.required_time_ms)) (qsort (cmp_fcfs list) (List.range list.length))
      (by simp)
  have hinv := fifo_run_inv _ _ _ _ _ hs (2 * (list.map (fun p => p.required_time_ms)).sum + 1) _
    hinv0
  have hcong := fifo_run_cong _ _ _ _ _ _ hs hall harr
    (2 * (list.map (fun p => p.required_time_ms)).sum + 1) _ hinv0
    (fifo_start_cong _ _ _ _ _ _ hs hall harr)
  have hc : s.completed = _ := r.1.2.2.2.1
  rw [hc] at hd
  have hfacts := fifo_done_facts _ _ _ _ _ hs _ hinv hd
  obtain ⟨c1, c2, _, _, _, c6, _⟩ := hcong
  have hsim : rr_simulate (2 * (list.map (fun p => p.required_time_ms)).sum + 1) list order
      quantum_ms = .ok s := by
    rw [rr_simulate_eq_loop _ list order quantum_ms hne hperm]
    exact e
  have hmod : ∀ i, i < list.length →
      ((item list i).arrival_ms + s.waiting.getD i 0 + (item list i).required_time_ms)
        % UINT_MOD = s.finish.getD i 0 := by
    intro i hi
    obtain ⟨hm, hz⟩ := hfacts i hi
    have := c6 i hm hz
    rw [getD_map_required list i hi, ← r.2.1, ← r.2.2] at this
    rw [hsame _ (hitem i hi) _ (hitem 0 hn0)]
    exact this
  refine ⟨_, s, hsim, ?_, ?_⟩
  · intro i hi
    have h1 := hmod i hi
    have h2 := hrange _ (hitem i hi)
    unfold usub uadd
    rw [uint_mod_eq] at h1 h2 ⊢
    omega
  · intro hno i hi
    obtain ⟨s2, e2, _, _, hacc⟩ :=
      rr_simulate_accounting list order quantum_ms hne hperm hpos hq hno
    rw [hsim] at e2
    cases e2
    have h1 := hmod i hi
    obtain ⟨h3, h4⟩ := hacc i hi
    rw [uint_mod_eq] at h1 h4
    constructor <;> omega

theorem rr_same_arrival_turnaround_witness :
    ∃ fuel s, rr_simulate fuel [mkPatient 5 3, mkPatient 5 2] [0, 1] 2 = .ok s ∧
      (∀ i, i < [mkPatient 5 3, mkPatient 5 2].length →
        usub (s.finish.getD i 0) (item [mkPatient 5 3, mkPatient 5 2] i).arrival_ms
          = uadd (s.waiting.getD i 0) (item [mkPatient 5 3, mkPatient 5 2] i).required_time_ms) ∧
      ((∀ p ∈ [mkPatient 5 3, mkPatient 5 2],
          p.arrival_ms + ([mkPatient 5 3, mkPatient 5 2].map (fun p => p.required_time_ms)).sum
            < UINT_MOD) →
        ∀ i, i < [mkPatient 5 3, mkPatient 5 2].length →
          (item [mkPatient 5 3, mkPatient 5 2] i).arrival_ms ≤ s.finish.getD i 0 ∧
          s.finish.getD i 0 - (item [mkPatient 5 3, mkPatient 5 2] i).arrival_ms
            = s.waiting.getD i 0
              + (item [mkPatient 5 3, mkPatient 5 2] i).required_time_ms) :=
  rr_same_arrival_turnaround [mkPatient 5 3, mkPatient 5 2] [0, 1] 2 (by decide) (by decide)
    (by decide) (by decide) (by decide) (by decide) (by decide)

/-! ## Round-Robin: the timeline of the console -/

/-! ### One pass of the Round-Robin loop of `build_timeline` -/

theorem tl_rr_iter_jump (n q : Nat) (arrival ao : List Nat) (s s1 : RRState) (pid a : Nat)
    (slices : List Slice)
    (e1 : rr_admit n arrival ao (n - s.next_arrival) s = .ok s1)
    (hq : s1.qcount = 0) (hx : s1.next_arrival < n)
    (e2 : rd ao s1.next_arrival = .ok pid) (e3 : rd arrival pid = .ok a) :
    tl_rr_iter n q arrival ao s slices = .ok (true, { s1 with time := a }, slices) := by
  unfold tl_rr_iter
  rw [e1]
  show (if s1.qcount = 0 then _ else _) = _
  rw [if_pos hq, if_pos hx, e2]
  show (do let a ← rd arrival pid; pure (true, { s1 with time := a }, slices)) = _
  rw [e3]
  rfl

theorem tl_rr_iter_serve (n q : Nat) (arrival ao : List Nat) (s s1 s4 : RRState)
    (pid rem rem4 : Nat) (slices : List Slice)
    (e1 : rr_admit n arrival ao (n - s.next_arrival) s = .ok s1)
    (hq : ¬ s1.qcount = 0)
    (e2 : rdq s1.queue s1.head = .ok pid)
    (e3 : rd s1.remaining pid = .ok rem) (hrem : rem ≠ 0)
    (e5 : rr_admit n arrival ao (n - s1.next_arrival)
        { s1 with head := (s1.head + 1) % n, qcount := (s1.qcount + SIZE_MOD - 1) % SIZE_MOD,
                  time := uadd s1.time (if rem > q then q else rem),
                  remaining := s1.remaining.set pid (rem - (if rem > q then q else rem)) }
        = .ok s4)
    (e6 : rd s4.remaining pid = .ok rem4) :
    tl_rr_iter n q arrival ao s slices
      = .ok (true,
             (if rem4 > 0 then rr_enqueue n s4 pid
              else { s4 with completed := s4.completed + 1 }),
             slices ++ [{ idx := pid, start_ms := s1.time,
                          end_ms := uadd s1.time (if rem > q then q else rem) }]) := by
  unfold tl_rr_iter
  rw [e1]
  show (if s1.qcount = 0 then _ else _) = _
  rw [if_neg hq, e2]
  show (do
    let rem ← rd s1.remaining pid
    if rem = 0 then pure _ else _) = _
  rw [e3]
  show (if rem = 0 then _ else _) = _
  rw [if_neg hrem]
  show (do let s4 ← rr_admit n arrival ao (n - s1.next_arrival) _; _) = _
  rw [e5]
  show (do let rem4 ← rd s4.remaining pid; _) = _
  rw [e6]
  show (if rem4 > 0 then _ else _) = _
  split_ifs <;> rfl

theorem fifo_slice_nil (q : Nat) (arrival ao : List Nat) (a : FifoState)
    (h : (fifo_admission arrival ao a).ready = []) : fifo_slice q arrival ao a = [] := by
  unfold fifo_slice
  simp only []
  split
  · rfl
  · rename_i pid rest h2
    rw [h] at h2
    cases h2

theorem fifo_slice_cons (q : Nat) (arrival ao : List Nat) (a : FifoState) (pid : Nat)
    (rest : List Nat) (h : (fifo_admission arrival ao a).ready = pid :: rest) :
    fifo_slice q arrival ao a
      = [{ idx := pid, start_ms := a.time,
           end_ms := uadd a.time (if a.remaining.getD pid 0 > q then q
                                  else a.remaining.getD pid 0) }] := by
  unfold fifo_slice
  simp only []
  split
  · rename_i h2
    rw [h] at h2
    cases h2
  · rename_i pid2 rest2 h2
    rw [h] at h2
    cases h2
    rfl

/-- One pass of the loop of `build_timeline` computes what one pass on the
list queue computes, and appends its slice. -/
theorem tl_rr_iter_refines (n q : Nat) (arrival required ao : List Nat)
    (hs : rr_setting n q arrival required ao) (s : RRState) (a : FifoState)
    (slices : List Slice)
    (hr : refines_core n s a) (hi : fifo_inv n required ao a) (hc : a.completed < n) :
    ∃ s1, tl_rr_iter n q arrival ao s slices
        = .ok (true, s1, slices ++ fifo_slice q arrival ao a) ∧
      refines_core n s1 (fifo_iter q arrival ao a) := by
  obtain ⟨hlen, hnd, hlt⟩ := rr_setting_order n q arrival required ao hs
  have hi1 := fifo_inv_admission n q arrival required ao hs a hi
  obtain ⟨s1, e1, r1core⟩ := rr_admit_refines_core n q arrival required ao hs s a hr hi
  obtain ⟨hn0, hnS, hq0, harr, hreqlen, hperm, hreq⟩ := hs
  obtain ⟨r1, hrem1, t1, c1, hnx⟩ := r1core
  obtain ⟨i1, i2, i3, i4, i5, i6, i7, i8⟩ := hi
  obtain ⟨j1, j2, j3, j4, j5, j6, j7, j8⟩ := hi1
  have hrA : (fifo_admission arrival ao a).remaining = a.remaining := rfl
  have htA : (fifo_admission arrival ao a).time = a.time := rfl
  have hcA : (fifo_admission arrival ao a).completed = a.completed := rfl
  rw [hrA] at hrem1
  rw [htA] at t1
  rw [hcA] at c1
  cases hq : (fifo_admission arrival ao a).ready with
  | nil =>
    rw [hq] at j3 r1
    have hqc : s1.qcount = 0 := r1.2.2.1
    have hnx2 : s1.next_arrival < n := by
      rw [hnx]
      simp only [List.length_nil] at j3
      omega
    have hpid : ao.getD s1.next_arrival 0 < n := by
      apply hlt
      rw [List.getD_eq_getElem _ _ (by omega)]
      exact List.getElem_mem _
    have hstep := tl_rr_iter_jump n q arrival ao s s1 _ _ slices e1 hqc hnx2
      (rd_getD ao _ (by omega)) (rd_getD arrival _ (by omega))
    rw [fifo_slice_nil q arrival ao a hq, List.append_nil]
    refine ⟨_, hstep, ?_⟩
    · rw [fifo_iter_nil q arrival ao a hq]
      refine ⟨?_, hrem1, ?_, c1, hnx⟩
      · show ring_holds n _ (fifo_admission arrival ao a).ready
        rw [hq]
        exact ring_holds_congr n s1 _ [] r1 rfl rfl rfl rfl
      · show arrival.getD (ao.getD s1.next_arrival 0) 0 = _
        rw [hnx]
  | cons pid rest =>
    rw [hq] at j3 j4 j5 r1
    have hqc : s1.qcount = rest.length + 1 := r1.2.2.1
    obtain ⟨d1, d2⟩ := ring_dequeue n s1 pid rest r1 hnS
    have hpidmem := j5 pid (List.mem_cons_self _ _)
    have hpidn : pid < n := hlt pid ((List.take_sublist _ _).subset hpidmem.1)
    have hremlen : s1.remaining.length = n := by rw [hrem1]; exact i1
    have hrempos : 0 < s1.remaining.getD pid 0 := by rw [hrem1]; exact hpidmem.2
    have hne : ¬ s1.qcount = 0 := by omega
    have hcnt : a.completed + (rest.length + 1)
        = (fifo_admission arrival ao a).next_arrival := by simpa using j3
    obtain ⟨s4, e5, r5, n5, rem5, t5, c5, _, _⟩ :=
      rr_admit_refines n arrival ao hlen hlt harr hnS (n - s1.next_arrival)
        { s1 with head := (s1.head + 1) % n, qcount := (s1.qcount + SIZE_MOD - 1) % SIZE_MOD,
                  time := uadd s1.time
                    (if s1.remaining.getD pid 0 > q then q else s1.remaining.getD pid 0),
                  remaining := s1.remaining.set pid (s1.remaining.getD pid 0 -
                    (if s1.remaining.getD pid 0 > q then q else s1.remaining.getD pid 0)) }
        rest (ring_holds_congr n _ _ rest d2 rfl rfl rfl rfl)
        (by show s1.next_arrival + (n - s1.next_arrival) = n; omega)
        (by rw [hnx]; omega)
    have e6 : rd s4.remaining pid = .ok (s1.remaining.getD pid 0 -
        (if s1.remaining.getD pid 0 > q then q else s1.remaining.getD pid 0)) := by
      rw [rd_getD s4.remaining pid (by rw [rem5]; simp; omega), rem5]
      exact congrArg Except.ok (getD_set_self _ _ _ (by omega))
    have hstep := tl_rr_iter_serve n q arrival ao s s1 s4 pid _ _ slices e1 hne d1
      (rd_getD s1.remaining pid (by omega)) (by omega) e5 e6
    rw [fifo_slice_cons q arrival ao a pid rest hq, ← t1, ← hrem1]
    refine ⟨_, hstep, ?_⟩
    · rw [fifo_iter_cons q arrival ao a pid rest hq]
      simp only []
      rw [hrA, htA, ← hrem1, ← t1, ← hnx]
      have hadm := fifo_admitted_length arrival ao
        (uadd s1.time (if s1.remaining.getD pid 0 > q then q else s1.remaining.getD pid 0))
        s1.next_arrival (by omega)
      rw [← hnx] at hcnt
      by_cases hpos : (s1.remaining.getD pid 0 -
          if s1.remaining.getD pid 0 > q then q else s1.remaining.getD pid 0) > 0
      · simp only [hpos, if_true]
        refine ⟨?_, ?_, ?_, ?_, ?_⟩
        · have hlen5 : (rest ++ fifo_admitted arrival ao
              (uadd s1.time (if s1.remaining.getD pid 0 > q then q else s1.remaining.getD pid 0))
              s1.next_arrival).length < n := by
            rw [List.length_append]
            omega
          exact ring_enqueue n s4 _ pid r5 hlen5 hnS
        · exact rem5
        · exact t5
        · exact c5.trans c1
        · exact n5
      · simp only [hpos, if_false]
        refine ⟨?_, ?_, ?_, ?_, ?_⟩
        · exact ring_holds_congr n s4 _ _ r5 rfl rfl rfl rfl
        · exact rem5
        · exact t5
        · show s4.completed + 1 = (fifo_admission arrival ao a).completed + 1
          rw [c5]
          exact congrArg (· + 1) c1
        · exact n5

theorem fifo_iter_time_cons (q : Nat) (arrival ao : List Nat) (a : FifoState) (pid : Nat)
    (rest : List Nat) (h : (fifo_admission arrival ao a).ready = pid :: rest) :
    (fifo_iter q arrival ao a).time
      = uadd a.time (if a.remaining.getD pid 0 > q then q else a.remaining.getD pid 0) := by
  rw [fifo_iter_cons q arrival ao a pid rest h]
  exact ite_field FifoState.time _ _ _ _ rfl rfl

theorem slice_total_append (slices : List Slice) (sl : Slice) (i : Nat) :
    slice_total (slices ++ [sl]) i
      = slice_total slices i + (if sl.idx = i then slice_length sl else 0) := by
  unfold slice_total
  rw [List.filter_append, List.map_append, List.sum_append]
  by_cases h : sl.idx = i
  · simp [List.filter, h]
  · simp [List.filter, h]

theorem usub_uadd (t x : Nat) (ht : t < UINT_MOD) (hx : x < UINT_MOD) :
    usub (uadd t x) t = x := by
  unfold usub uadd
  rw [uint_mod_eq] at ht hx ⊢
  omega

/-- One pass keeps what holds of the slices. -/
theorem tl_inv_iter (n q : Nat) (arrival required ao : List Nat)
    (hs : rr_setting n q arrival required ao)
    (harrM : ∀ i, i < n → arrival.getD i 0 < UINT_MOD)
    (hreqM : ∀ i, i < n → required.getD i 0 < UINT_MOD)
    (a : FifoState) (slices : List Slice) (hi : fifo_inv n required ao a)
    (h : tl_inv q required a slices) (hc : a.completed < n) :
    tl_inv q required (fifo_iter q arrival ao a) (slices ++ fifo_slice q arrival ao a) := by
  obtain ⟨hlen, hnd, hlt⟩ := rr_setting_order n q arrival required ao hs
  obtain ⟨j1, j2, j3, j4, j5, j6, j7, j8⟩ := fifo_inv_admission n q arrival required ao hs a hi
  obtain ⟨hn0, hnS, hq0, harr, hreqlen, hperm, hreq⟩ := id hs
  obtain ⟨t1, t2, t3, t4, t5⟩ := h
  have hcA : (fifo_admission arrival ao a).completed = a.completed := rfl
  cases hq : (fifo_admission arrival ao a).ready with
  | nil =>
    rw [hq] at j3
    simp only [List.length_nil, Nat.add_zero] at j3
    have hnx : (fifo_admission arrival ao a).next_arrival < ao.length := by omega
    have hstop := fifo_admitted_stop arrival ao a.time a.next_arrival hnx
    have hpid : ao.getD (fifo_admission arrival ao a).next_arrival 0 < n := by
      apply hlt
      rw [List.getD_eq_getElem _ _ hnx]
      exact List.getElem_mem _
    rw [fifo_slice_nil q arrival ao a hq, List.append_nil, fifo_iter_nil q arrival ao a hq]
    refine ⟨harrM _ hpid, t2, ?_, t4, t5⟩
    intro sl hsl
    have := t3 sl hsl
    show sl.end_ms ≤ arrival.getD (ao.getD (fifo_admission arrival ao a).next_arrival 0) 0
    have hstop2 : a.time
        < arrival.getD (ao.getD (fifo_admission arrival ao a).next_arrival 0) 0 := hstop
    omega
  | cons pid rest =>
    rw [hq] at j5
    have hp := j5 pid (List.mem_cons_self _ _)
    have hpidn : pid < n := hlt pid ((List.take_sublist _ _).subset hp.1)
    have hpos : 0 < a.remaining.getD pid 0 := hp.2
    have hle_req : a.remaining.getD pid 0 ≤ required.getD pid 0 := j8 pid hpidn
    have hreqlt := hreqM pid hpidn
    have hl : a.remaining.length = n := j1
    rw [fifo_slice_cons q arrival ao a pid rest hq]
    set slice := (if a.remaining.getD pid 0 > q then q else a.remaining.getD pid 0) with hslice
    have hslice_le : slice ≤ a.remaining.getD pid 0 := by rw [hslice]; split_ifs <;> omega
    have hslice_q : slice ≤ q := by rw [hslice]; split_ifs <;> omega
    have hslice_pos : 0 < slice := by rw [hslice]; split_ifs <;> omega
    have hlen_sl : slice_length { idx := pid, start_ms := a.time, end_ms := uadd a.time slice }
        = slice := usub_uadd a.time slice t1 (by omega)
    refine ⟨?_, ?_, ?_, ?_, ?_⟩
    · rw [fifo_iter_time_cons q arrival ao a pid rest hq]
      unfold uadd
      exact Nat.mod_lt _ (by rw [uint_mod_eq]; omega)
    · rw [List.chain'_append]
      refine ⟨t2, List.chain'_singleton _, ?_⟩
      intro x hx y hy
      simp only [List.head?_cons, Option.mem_def, Option.some.injEq] at hy
      subst hy
      exact t3 x hx
    · intro sl hsl
      rw [List.getLast?_append, List.getLast?_singleton] at hsl
      have hsl2 : some ({ idx := pid, start_ms := a.time, end_ms := uadd a.time slice } : Slice)
          = some sl := hsl
      rw [← Option.some.inj hsl2, fifo_iter_time_cons q arrival ao a pid rest hq]
    · intro sl hsl
      rcases List.mem_append.mp hsl with hm | hm
      · exact t4 sl hm
      · rw [List.mem_singleton] at hm
        subst hm
        rw [hlen_sl]
        exact ⟨hslice_pos, hslice_q⟩
    · intro i
      rw [slice_total_append, fifo_iter_remaining_cons q arrival ao a pid rest hq, hlen_sl]
      have := t5 i
      by_cases hip : pid = i
      · subst hip
        rw [if_pos rfl, getD_set_self _ _ _ (by omega)]
        omega
      · rw [if_neg hip, getD_set_other _ _ _ _ hip]
        omega

/-! ### The Round-Robin timeline of `build_timeline` (C29) -/

theorem fifo_slice_length (q : Nat) (arrival ao : List Nat) (a : FifoState) :
    (fifo_slice q arrival ao a).length ≤ 1 := by
  cases hq : (fifo_admission arrival ao a).ready with
  | nil => rw [fifo_slice_nil q arrival ao a hq]; simp
  | cons pid rest => rw [fifo_slice_cons q arrival ao a pid rest hq]; simp

/-- The Round-Robin loop of `build_timeline` ends within as many passes as
the measure of its first state, with slices of which `tl_inv` holds; it stops
short of `cap` slices only when every request is finished. -/
theorem tl_rr_loop_run (n q cap : Nat) (arrival required ao : List Nat)
    (hs : rr_setting n q arrival required ao)
    (harrM : ∀ i, i < n → arrival.getD i 0 < UINT_MOD)
    (hreqM : ∀ i, i < n → required.getD i 0 < UINT_MOD) :
    ∀ (fuel : Nat) (s : RRState) (slices : List Slice) (a : FifoState),
      refines_core n s a → fifo_inv n required ao a → tl_inv q required a slices →
      slices.length ≤ cap →
      2 * a.remaining.sum + (if (fifo_admission arrival ao a).ready = [] then 1 else 0) ≤ fuel →
      ∃ out b, tl_rr_loop n q cap arrival ao fuel s slices = .ok out ∧
        fifo_inv n required ao b ∧ tl_inv q required b out ∧ out.length ≤ cap ∧
        (out.length < cap → ¬ b.completed < n) := by
  intro fuel
  induction fuel with
  | zero =>
    intro s slices a hr hi ht hcap hm
    have hc : ¬ a.completed < n := by
      intro hc
      have := fifo_iter_measure n q arrival required ao hs a hi hc
      omega
    have hsc : s.completed = a.completed := hr.2.2.2.1
    refine ⟨slices, a, ?_, hi, ht, hcap, fun _ => hc⟩
    unfold tl_rr_loop
    rw [if_neg (by rw [hsc]; exact fun h => hc h.1)]
  | succ fuel ih =>
    intro s slices a hr hi ht hcap hm
    have hsc : s.completed = a.completed := hr.2.2.2.1
    unfold tl_rr_loop
    by_cases hcond : s.completed < n ∧ slices.length < cap
    · rw [if_pos hcond]
      have hc : a.completed < n := by rw [← hsc]; exact hcond.1
      obtain ⟨s1, e1, r1⟩ := tl_rr_iter_refines n q arrival required ao hs s a slices hr hi hc
      have hmeas := fifo_iter_measure n q arrival required ao hs a hi hc
      have hlen1 := fifo_slice_length q arrival ao a
      obtain ⟨out, b, e2, h2⟩ := ih s1 (slices ++ fifo_slice q arrival ao a)
        (fifo_iter q arrival ao a) r1 (fifo_inv_iter n q arrival required ao hs a hi)
        (tl_inv_iter n q arrival required ao hs harrM hreqM a slices hi ht hc)
        (by rw [List.length_append]; omega) (by omega)
      refine ⟨out, b, ?_, h2⟩
      rw [e1]
      exact e2
    · rw [if_neg hcond]
      refine ⟨slices, a, rfl, hi, ht, hcap, ?_⟩
      intro hlt hc
      exact hcond ⟨by rw [hsc]; exact hc, hlt⟩

/-- The Round-Robin branch of `build_timeline` is the loop `tl_rr_loop`
started with an empty queue and no slices, the requests in the order of
`cmp_arrival`. -/
theorem build_timeline_rr_eq (fuel : Nat) (list : PatientList) (q : Nat) (hne : list ≠ []) :
    build_timeline fuel list ALG_RR q
      = tl_rr_loop list.length q ((10 * list.length) % SIZE_MOD)
          (list.map (fun p => p.arrival_ms))
          (qsort (cmp_arrival list) ((schedule_order list ALG_RR q).take list.length)) fuel
          { rr_start list.length (list.map (fun p => p.arrival_ms))
              (list.map (fun p => p.required_time_ms))
              (qsort (cmp_arrival list) ((schedule_order list ALG_RR q).take list.length))
            with finish := [], waiting := [] } [] := by
  have hn : 0 < list.length := List.length_pos.mpr hne
  have hn0 : list.length ≠ 0 := by omega
  have hso := schedule_order_perm list ALG_RR q
  have htake : (schedule_order list ALG_RR q).take list.length = schedule_order list ALG_RR q := by
    have : (schedule_order list ALG_RR q).length = list.length := by simpa using hso.length_eq
    rw [← this, List.take_length]
  have hp : (qsort (cmp_arrival list) ((schedule_order list ALG_RR q).take list.length)).Perm
      (List.range list.length) := by
    rw [htake]
    exact (qsort_perm _ _).trans hso
  have hl : (qsort (cmp_arrival list)
      ((schedule_order list ALG_RR q).take list.length)).length = list.length := by
    simpa using hp.length_eq
  have hpid : (qsort (cmp_arrival list)
      ((schedule_order list ALG_RR q).take list.length)).getD 0 0 < list.length := by
    apply List.mem_range.mp
    apply hp.subset
    rw [List.getD_eq_getElem _ _ (by omega)]
    exact List.getElem_mem _
  unfold build_timeline
  simp only [hn0, if_false, if_true, hn, bind, Except.bind]
  rw [rd_getD _ _ (by omega : 0 < (qsort (cmp_arrival list)
      ((schedule_order list ALG_RR q).take list.length)).length)]
  simp only []
  rw [rd_getD (list.map (fun p => p.arrival_ms)) _ (by simpa using hpid)]
  rfl

/-- C29, counterexample: for one request with required time 11 and quantum 1,
`build_timeline` returns, whatever the number of passes allowed beyond ten,
the ten slices `[0,1), ..., [9,10)`: the slices of the request sum to 10, not
to its required time 11. -/
theorem build_timeline_rr_truncated :
    0 < (mkPatient 0 11).required_time_ms ∧
    (∀ fuel, build_timeline (fuel + 10) [mkPatient 0 11] ALG_RR 1
      = .ok ((List.range 10).map (fun k => { idx := 0, start_ms := k, end_ms := k + 1 }))) ∧
    slice_total ((List.range 10).map (fun k => { idx := 0, start_ms := k, end_ms := k + 1 })) 0
      = 10 ∧
    (item [mkPatient 0 11] 0).required_time_ms = 11 := by
  refine ⟨by decide, ?_, by decide, rfl⟩
  intro fuel
  cases fuel <;> rfl

theorem tl_start_refines (n : Nat) (arrival required ao : List Nat) (hn : 0 < n) :
    refines_core n { rr_start n arrival required ao with finish := [], waiting := [] }
      (fifo_start n arrival required ao) :=
  (rr_start_refines n arrival required ao hn).1

theorem tl_start_inv (n q : Nat) (arrival required ao : List Nat)
    (h : arrival.getD (ao.getD 0 0) 0 < UINT_MOD) :
    tl_inv q required (fifo_start n arrival required ao) [] :=
  ⟨h, List.chain'_nil, by simp, by simp, fun i => by simp [slice_total, fifo_start]⟩

theorem fifo_start_measure (n : Nat) (arrival required ao : List Nat) :
    2 * (fifo_start n arrival required ao).remaining.sum
        + (if (fifo_admission arrival ao (fifo_start n arrival required ao)).ready = [] then 1
           else 0)
      ≤ 2 * required.sum + 1 := by
  have : (fifo_start n arrival required ao).remaining = required := rfl
  rw [this]
  split_ifs <;> omega

/-- C29, amended: for Round-Robin, a non-empty request list with positive
required times and a positive quantum, `build_timeline` returns a timeline
of at most `10 * n` slices in which consecutive slices do not overlap, each
slice has length between 1 and the quantum, and for every request the
lengths of its slices sum to at most its `required_time_ms`, and to exactly
its `required_time_ms` when the timeline has fewer than `10 * n` slices. -/
theorem build_timeline_rr_slices (list : PatientList) (quantum_ms : Nat)
    (hne : list ≠ []) (hsize : 10 * list.length < SIZE_MOD)
    (hrange : ∀ p ∈ list, p.arrival_ms < UINT_MOD ∧ p.required_time_ms < UINT_MOD)
    (hpos : ∀ p ∈ list, 0 < p.required_time_ms) (hq : 0 < quantum_ms) :
    ∃ fuel slices, build_timeline fuel list ALG_RR quantum_ms = .ok slices ∧
      slices.length ≤ 10 * list.length ∧
      slices.Chain' (fun x y => x.end_ms ≤ y.start_ms) ∧
      (∀ sl ∈ slices, 1 ≤ slice_length sl ∧ slice_length sl ≤ quantum_ms) ∧
      (∀ i, i < list.length → slice_total slices i ≤ (item list i).required_time_ms) ∧
      (slices.length < 10 * list.length →
        ∀ i, i < list.length → slice_total slices i = (item list i).required_time_ms) := by
  have hn0 : 0 < list.length := List.length_pos.mpr hne
  have hso := schedule_order_perm list ALG_RR quantum_ms
  have htake : (schedule_order list ALG_RR quantum_ms).take list.length
      = schedule_order list ALG_RR quantum_ms := by
    have : (schedule_order list ALG_RR quantum_ms).length = list.length := by
      simpa using hso.length_eq
    rw [← this, List.take_length]
  have hp : (qsort (cmp_arrival list)
      ((schedule_order list ALG_RR quantum_ms).take list.length)).Perm
      (List.range list.length) := by
    rw [htake]
    exact (qsort_perm _ _).trans hso
  have hs := rr_setting_of_list list quantum_ms _ hne (by omega) hpos hq hp
  have hitem : ∀ i, i < list.length → item list i ∈ list := fun i hi => by
    rw [item_eq_get list i hi]
    exact List.get_mem list i hi
  have harrM : ∀ i, i < list.length →
      (list.map (fun p => p.arrival_ms)).getD i 0 < UINT_MOD := fun i hi => by
    rw [getD_map_arrival list i hi]
    exact (hrange _ (hitem i hi)).1
  have hreqM : ∀ i, i < list.length →
      (list.map (fun p => p.required_time_ms)).getD i 0 < UINT_MOD := fun i hi => by
    rw [getD_map_required list i hi]
    exact (hrange _ (hitem i hi)).2
  obtain ⟨hlen, hnd, hlt⟩ := rr_setting_order _ _ _ _ _ hs
  have hpid : (qsort (cmp_arrival list)
      ((schedule_order list ALG_RR quantum_ms).take list.length)).getD 0 0 < list.length := by
    apply hlt
    rw [List.getD_eq_getElem _ _ (by omega)]
    exact List.getElem_mem _
  have hcap : (10 * list.length) % SIZE_MOD = 10 * list.length := Nat.mod_eq_of_lt hsize
  obtain ⟨out, b, e, hinv, ht, hle, hdone⟩ :=
    tl_rr_loop_run list.length quantum_ms (10 * list.length) _ _ _ hs harrM hreqM
      (2 * (list.map (fun p => p.required_time_ms)).sum + 1) _ [] _
      (tl_start_refines list.length (list.map (fun p => p.arrival_ms))
        (list.map (fun p => p.required_time_ms))
        (qsort (cmp_arrival list) ((schedule_order list ALG_RR quantum_ms).take list.length))
        hn0)
      (fifo_start_inv list.length _ _ _ (by simp))
      (tl_start_inv list.length quantum_ms _ _ _ (harrM _ hpid))
      (Nat.zero_le _)
      (fifo_start_measure list.length _ _ _)
  obtain ⟨_, t2, _, t4, t5⟩ := ht
  refine ⟨2 * (list.map (fun p => p.required_time_ms)).sum + 1, out, ?_, hle, t2, t4, ?_, ?_⟩
  · rw [build_timeline_rr_eq _ list quantum_ms hne, hcap]
    exact e
  · intro i hi
    have := t5 i
    rw [getD_map_required list i hi] at this
    omega
  · intro hlt2 i hi
    have h1 := t5 i
    rw [getD_map_required list i hi] at h1
    have h2 := (fifo_done_facts _ _ _ _ _ hs b hinv (hdone hlt2) i hi).2
    omega

theorem build_timeline_rr_slices_witness :
    ∃ fuel slices, build_timeline fuel [mkPatient 0 3, mkPatient 1 2] ALG_RR 2 = .ok slices ∧
      slices.length ≤ 10 * [mkPatient 0 3, mkPatient 1 2].length ∧
      slices.Chain' (fun x y => x.end_ms ≤ y.start_ms) ∧
      (∀ sl ∈ slices, 1 ≤ slice_length sl ∧ slice_length sl ≤ 2) ∧
      (∀ i, i < [mkPatient 0 3, mkPatient 1 2].length →
        slice_total slices i ≤ (item [mkPatient 0 3, mkPatient 1 2] i).required_time_ms) ∧
      (slices.length < 10 * [mkPatient 0 3, mkPatient 1 2].length →
        ∀ i, i < [mkPatient 0 3, mkPatient 1 2].length →
          slice_total slices i = (item [mkPatient 0 3, mkPatient 1 2] i).required_time_ms) :=
  build_timeline_rr_slices [mkPatient 0 3, mkPatient 1 2] 2 (by decide) (by decide)
    (by decide) (by decide) (by decide)

/-! ## Workers running together -/

/-! ### Workers and the units they hold -/

theorem countP_set {α : Type} (p : α → Bool) (l : List α) :
    ∀ (i : Nat) (w x : α), l[i]? = some w →
      (l.set i x).countP p + (if p w then 1 else 0) = l.countP p + (if p x then 1 else 0) := by
  induction l with
  | nil => intro i w x h; simp at h
  | cons y ys ih =>
    intro i w x h
    cases i with
    | zero =>
      simp only [List.getElem?_cons_zero, Option.some.injEq] at h
      subst h
      simp only [List.set_cons_zero, List.countP_cons]
      omega
    | succ i =>
      simp only [List.getElem?_cons_succ] at h
      have := ih i w x h
      simp only [List.set_cons_succ, List.countP_cons]
      omega

theorem patient_thread_eq (wa : WorkerArgs) : ∃ t1 t2,
    patient_thread wa
      = [Action.write wa.fifo_fd t1,
         Action.sem_wait (resource_for_service wa.patient.service),
         Action.ms_sleep wa.patient.required_time_ms,
         Action.sem_post (resource_for_service wa.patient.service),
         Action.mutex_lock, Action.accumulate wa.patient, Action.mutex_unlock,
         Action.write wa.fifo_fd t2] :=
  ⟨_, _, rfl⟩

theorem worker_ok_wait (w : Worker) (res : Resource) (rest : List Action) (h : worker_ok w)
    (ht : w.todo = Action.sem_wait res :: rest) :
    worker_ok { todo := rest, blocked := false } ∧
    worker_ok { todo := w.todo, blocked := true } ∧
    ∀ r, holds r w = false ∧ holds r { todo := rest, blocked := false } = decide (r = res) := by
  obtain ⟨wa, k, hk, hb⟩ := h
  obtain ⟨t1, t2, hp⟩ := patient_thread_eq wa
  rw [ht, hp] at hk
  rcases k with _ | _ | _ | _ | _ | _ | _ | _ | k <;>
    simp only [List.drop, List.drop_nil, List.cons.injEq, reduceCtorEq, false_and, and_false,
      Action.sem_wait.injEq] at hk
  obtain ⟨hres, hrest⟩ := hk
  refine ⟨⟨wa, 2, by rw [hp, hrest]; rfl, by simp⟩, ⟨wa, 1, by rw [ht, hp, hres, hrest]; rfl,
    fun _ => rfl⟩, ?_⟩
  intro r
  subst hrest hres
  constructor
  · simp [holds, ht]
  · by_cases hr : r = resource_for_service wa.patient.service <;> simp [holds, hr]

theorem worker_ok_post (w : Worker) (res : Resource) (rest : List Action) (h : worker_ok w)
    (ht : w.todo = Action.sem_post res :: rest) :
    worker_ok { todo := rest, blocked := false } ∧
    ∀ r, holds r w = decide (r = res) ∧ holds r { todo := rest, blocked := false } = false := by
  obtain ⟨wa, k, hk, hb⟩ := h
  obtain ⟨t1, t2, hp⟩ := patient_thread_eq wa
  rw [ht, hp] at hk
  rcases k with _ | _ | _ | _ | _ | _ | _ | _ | k <;>
    simp only [List.drop, List.drop_nil, List.cons.injEq, reduceCtorEq, false_and, and_false,
      Action.sem_post.injEq] at hk
  obtain ⟨hres, hrest⟩ := hk
  refine ⟨⟨wa, 4, by rw [hp, hrest]; rfl, by simp⟩, ?_⟩
  intro r
  subst hrest hres
  constructor
  · by_cases hr : r = resource_for_service wa.patient.service <;> simp [holds, ht, hr]
  · simp [holds]

theorem worker_ok_other (w : Worker) (act : Action) (rest : List Action) (h : worker_ok w)
    (ht : w.todo = act :: rest) (h1 : ∀ res, act ≠ Action.sem_wait res)
    (h2 : ∀ res, act ≠ Action.sem_post res) :
    worker_ok { todo := rest, blocked := false } ∧
    ∀ r, holds r { todo := rest, blocked := false } = holds r w := by
  obtain ⟨wa, k, hk, hb⟩ := h
  obtain ⟨t1, t2, hp⟩ := patient_thread_eq wa
  rw [ht, hp] at hk
  rcases k with _ | _ | _ | _ | _ | _ | _ | _ | k <;>
    simp only [List.drop, List.drop_nil, List.cons.injEq, reduceCtorEq, false_and, and_false] at hk
  · obtain ⟨hact, hrest⟩ := hk
    refine ⟨⟨wa, 1, by rw [hp, hrest]; rfl, by simp⟩, fun r => ?_⟩
    subst hrest hact
    simp [holds, ht]
  · exact absurd hk.1 (h1 _)
  · obtain ⟨hact, hrest⟩ := hk
    refine ⟨⟨wa, 3, by rw [hp, hrest]; rfl, by simp⟩, fun r => ?_⟩
    subst hrest hact
    simp [holds, ht]
  · exact absurd hk.1 (h2 _)
  · obtain ⟨hact, hrest⟩ := hk
    refine ⟨⟨wa, 5, by rw [hp, hrest]; rfl, by simp⟩, fun r => ?_⟩
    subst hrest hact
    simp [holds, ht]
  · obtain ⟨hact, hrest⟩ := hk
    refine ⟨⟨wa, 6, by rw [hp, hrest]; rfl, by simp⟩, fun r => ?_⟩
    subst hrest hact
    simp [holds, ht]
  · obtain ⟨hact, hrest⟩ := hk
    refine ⟨⟨wa, 7, by rw [hp, hrest]; rfl, by simp⟩, fun r => ?_⟩
    subst hrest hact
    simp [holds, ht]
  · obtain ⟨hact, hrest⟩ := hk
    refine ⟨⟨wa, 8, by rw [hp, hrest]; rfl, by simp⟩, fun r => ?_⟩
    subst hrest hact
    simp [holds, ht]

theorem sem_value_set (rp : ResourcePool) (res r : Resource) (v : Nat) :
    sem_value (sem_set rp res v) r = if r = res then v else sem_value rp r := by
  cases res <;> cases r <;> simp [sem_value, sem_set]

theorem sem_value_accumulate (rp : ResourcePool) (p : Patient) (r : Resource) :
    sem_value (patient_thread_accumulate rp p) r = sem_value rp r := by
  unfold patient_thread_accumulate
  cases p.service <;> cases r <;> rfl

theorem workers_ok_set (ws : List Worker) (i : Nat) (x : Worker)
    (h : ∀ w ∈ ws, worker_ok w) (hx : worker_ok x) : ∀ w ∈ ws.set i x, worker_ok w := by
  intro w hw
  rcases List.mem_or_eq_of_mem_set hw with hm | he
  · exact h w hm
  · rw [he]; exact hx

theorem mem_of_getElem_some {α : Type} (l : List α) (i : Nat) (w : α) (h : l[i]? = some w) :
    w ∈ l := by
  obtain ⟨hi, he⟩ := List.getElem?_eq_some_iff.mp h
  rw [← he]
  exact List.getElem_mem _

/-- The effect of a step on the units held, the workers blocked and the
values, given what the step does to the worker that makes it. -/
theorem engine_inv_set (cap : Resource → Nat) (s : Engine) (pool : ResourcePool)
    (i : Nat) (w x : Worker) (h : engine_inv cap s) (hw : s.workers[i]? = some w)
    (hx : worker_ok x)
    (hsum : ∀ r, (if holds r x then 1 else 0) + sem_value pool r
      = (if holds r w then 1 else 0) + sem_value s.pool r)
    (hblk : ∀ r, is_blocked_on r x = true → is_blocked_on r w = false → sem_value pool r = 0)
    (hval : ∀ r, sem_value s.pool r = 0 → 0 < blocked_count s r → sem_value pool r = 0) :
    engine_inv cap { pool := pool, workers := s.workers.set i x } := by
  obtain ⟨hok, hcnt⟩ := h
  refine ⟨workers_ok_set _ _ _ hok hx, fun r => ?_⟩
  obtain ⟨c1, c2⟩ := hcnt r
  have hc := countP_set (holds r) s.workers i w x hw
  have hb := countP_set (is_blocked_on r) s.workers i w x hw
  have hs := hsum r
  simp only [holders, blocked_count] at c1 c2 ⊢
  constructor
  · omega
  · intro hpos
    by_cases h1 : is_blocked_on r x = true
    · by_cases h2 : is_blocked_on r w = true
      · rw [if_pos h1, if_pos h2] at hb
        exact hval r (c2 (by omega)) (by simp only [blocked_count]; omega)
      · exact hblk r h1 (by simpa using h2)
    · rw [if_neg h1] at hb
      have : 0 < List.countP (is_blocked_on r) s.workers := by
        split_ifs at hb <;> omega
      exact hval r (c2 this) (by simp only [blocked_count]; exact this)

theorem engine_inv_set2 (cap : Resource → Nat) (s : Engine) (i j : Nat) (w v x y : Worker)
    (h : engine_inv cap s) (hij : i ≠ j) (hw : s.workers[i]? = some w)
    (hv : s.workers[j]? = some v) (hx : worker_ok x) (hy : worker_ok y)
    (hxb : x.blocked = false) (hyb : y.blocked = false)
    (hsum : ∀ r, (if holds r x then 1 else 0) + (if holds r y then 1 else 0)
      = (if holds r w then 1 else 0) + (if holds r v then 1 else 0)) :
    engine_inv cap { s with workers := (s.workers.set i x).set j y } := by
  obtain ⟨hok, hcnt⟩ := h
  refine ⟨workers_ok_set _ _ _ (workers_ok_set _ _ _ hok hx) hy, fun r => ?_⟩
  obtain ⟨c1, c2⟩ := hcnt r
  have hv2 : (s.workers.set i x)[j]? = some v := by
    rw [List.getElem?_set_ne hij]
    exact hv
  have hc1 := countP_set (holds r) s.workers i w x hw
  have hc2 := countP_set (holds r) (s.workers.set i x) j v y hv2
  have hb1 := countP_set (is_blocked_on r) s.workers i w x hw
  have hb2 := countP_set (is_blocked_on r) (s.workers.set i x) j v y hv2
  have hs := hsum r
  have hx0 : is_blocked_on r x = false := by simp [is_blocked_on, hxb]
  have hy0 : is_blocked_on r y = false := by simp [is_blocked_on, hyb]
  rw [hx0] at hb1
  rw [hy0] at hb2
  simp only [holders, blocked_count] at c1 c2 ⊢
  simp only [Bool.false_eq_true, if_false, Nat.add_zero] at hb1 hb2
  constructor
  · omega
  · intro hpos
    exact c2 (by omega)

/-- A step keeps the invariant. -/
theorem engine_inv_step (cap : Resource → Nat) (s s1 : Engine) (i j : Nat)
    (h : engine_inv cap s) (hs : step s i j = some s1) : engine_inv cap s1 := by
  unfold step at hs
  cases hw : s.workers[i]? with
  | none => rw [hw] at hs; cases hs
  | some w =>
    rw [hw] at hs
    simp only [] at hs
    by_cases hb : w.blocked = true
    · rw [if_pos hb] at hs; cases hs
    · rw [if_neg hb] at hs
      have hb0 : w.blocked = false := by simpa using hb
      have hwok := h.1 w (mem_of_getElem_some _ _ _ hw)
      have hnb : ∀ r, is_blocked_on r w = false := fun r => by simp [is_blocked_on, hb0]
      cases ht : w.todo with
      | nil => rw [ht] at hs; cases hs
      | cons act rest =>
        rw [ht] at hs
        simp only [] at hs
        cases act with
        | sem_wait res =>
          obtain ⟨ok1, ok2, hh⟩ := worker_ok_wait w res rest hwok ht
          simp only [perform] at hs
          by_cases hv : sem_value s.pool res > 0
          · rw [if_pos hv] at hs
            cases hs
            refine engine_inv_set cap s _ i w _ h hw ok1 ?_ ?_ ?_
            · intro r
              rw [(hh r).1, (hh r).2, sem_value_set]
              by_cases hr : r = res
              · subst hr; simp; omega
              · simp [hr]
            · intro r hx
              simp [is_blocked_on] at hx
            · intro r h0 _
              rw [sem_value_set]
              by_cases hr : r = res
              · subst hr; omega
              · simp [hr, h0]
          · rw [if_neg hv] at hs
            cases hs
            have ok3 : worker_ok { w with blocked := true } := ok2
            refine engine_inv_set cap s _ i w _ h hw ok3 ?_ ?_ ?_
            · intro r
              rfl
            · intro r hx _
              simp only [is_blocked_on, Bool.true_and, ht, List.head?_cons,
                decide_eq_true_eq, Option.some.injEq, Action.sem_wait.injEq] at hx
              subst hx
              omega
            · intro r h0 _
              exact h0
        | sem_post res =>
          obtain ⟨ok1, hh⟩ := worker_ok_post w res rest hwok ht
          simp only [perform] at hs
          by_cases hany : s.workers.any (is_blocked_on res) = true
          · rw [if_pos hany] at hs
            cases hv : s.workers[j]? with
            | none => rw [hv] at hs; cases hs
            | some v =>
              rw [hv] at hs
              simp only [] at hs
              by_cases hvb : is_blocked_on res v = true
              · rw [if_pos hvb] at hs
                cases hs
                have hvok := h.1 v (mem_of_getElem_some _ _ _ hv)
                simp only [is_blocked_on, Bool.and_eq_true, decide_eq_true_eq] at hvb
                obtain ⟨hvb1, hvb2⟩ := hvb
                have hvt : v.todo = Action.sem_wait res :: v.todo.tail := by
                  cases hvl : v.todo with
                  | nil => rw [hvl] at hvb2; cases hvb2
                  | cons a l =>
                    rw [hvl] at hvb2
                    simp only [List.head?_cons, Option.some.injEq] at hvb2
                    rw [hvb2]
                    rfl
                obtain ⟨okv, _, hhv⟩ := worker_ok_wait v res v.todo.tail hvok hvt
                have hij : i ≠ j := by
                  intro he
                  subst he
                  rw [hw] at hv
                  cases hv
                  rw [hb0] at hvb1
                  cases hvb1
                refine engine_inv_set2 cap s i j w v _ _ h hij hw hv ok1 okv rfl rfl ?_
                intro r
                rw [(hh r).1, (hh r).2, (hhv r).1, (hhv r).2]
                simp
              · rw [if_neg hvb] at hs
                cases hs
          · rw [if_neg hany] at hs
            cases hs
            have hnone : blocked_count s res = 0 := by
              simp only [blocked_count, List.countP_eq_zero]
              intro x hx hbx
              exact hany (List.any_eq_true.mpr ⟨x, hx, hbx⟩)
            refine engine_inv_set cap s _ i w _ h hw ok1 ?_ ?_ ?_
            · intro r
              rw [(hh r).1, (hh r).2, sem_value_set]
              by_cases hr : r = res
              · subst hr; simp; omega
              · simp [hr]
            · intro r hx
              simp [is_blocked_on] at hx
            · intro r h0 hpos
              rw [sem_value_set]
              by_cases hr : r = res
              · subst hr; omega
              · simp [hr, h0]
        | mutex_lock =>
          obtain ⟨ok1, hh⟩ := worker_ok_other w _ rest hwok ht (by simp) (by simp)
          simp only [perform] at hs
          by_cases hm : s.pool.log_mutex = true
          · rw [if_pos hm] at hs; cases hs
          · rw [if_neg hm] at hs
            cases hs
            refine engine_inv_set cap s _ i w _ h hw ok1 ?_ ?_ ?_
            · intro r
              rw [hh r]
              cases r <;> rfl
            · intro r hx
              simp [is_blocked_on] at hx
            · intro r h0 _
              cases r <;> exact h0
        | mutex_unlock =>
          obtain ⟨ok1, hh⟩ := worker_ok_other w _ rest hwok ht (by simp) (by simp)
          simp only [perform] at hs
          cases hs
          refine engine_inv_set cap s _ i w _ h hw ok1 ?_ ?_ ?_
          · intro r
            rw [hh r]
            cases r <;> rfl
          · intro r hx
            simp [is_blocked_on] at hx
          · intro r h0 _
            cases r <;> exact h0
        | accumulate p =>
          obtain ⟨ok1, hh⟩ := worker_ok_other w _ rest hwok ht (by simp) (by simp)
          simp only [perform] at hs
          cases hs
          refine engine_inv_set cap s _ i w _ h hw ok1 ?_ ?_ ?_
          · intro r
            rw [hh r, sem_value_accumulate]
          · intro r hx
            simp [is_blocked_on] at hx
          · intro r h0 _
            rw [sem_value_accumulate]
            exact h0
        | write fd text =>
          obtain ⟨ok1, hh⟩ := worker_ok_other w _ rest hwok ht (by simp) (by simp)
          simp only [perform] at hs
          cases hs
          refine engine_inv_set cap s _ i w _ h hw ok1 ?_ ?_ ?_
          · intro r
            rw [hh r]
          · intro r hx
            simp [is_blocked_on] at hx
          · intro r h0 _
            exact h0
        | ms_sleep ms =>
          obtain ⟨ok1, hh⟩ := worker_ok_other w _ rest hwok ht (by simp) (by simp)
          simp only [perform] at hs
          cases hs
          refine engine_inv_set cap s _ i w _ h hw ok1 ?_ ?_ ?_
          · intro r
            rw [hh r]
          · intro r hx
            simp [is_blocked_on] at hx
          · intro r h0 _
            exact h0

theorem engine_inv_run (cap : Resource → Nat) :
    ∀ (schedule : List (Nat × Nat)) (s s1 : Engine), engine_inv cap s →
      run s schedule = some s1 → engine_inv cap s1 := by
  intro schedule
  induction schedule with
  | nil =>
    intro s s1 h hr
    simp only [run, Option.some.injEq] at hr
    rw [← hr]
    exact h
  | cons c rest ih =>
    intro s s1 h hr
    obtain ⟨i, j⟩ := c
    simp only [run] at hr
    cases hs : step s i j with
    | none => rw [hs] at hr; cases hr
    | some s2 =>
      rw [hs] at hr
      exact ih s2 s1 (engine_inv_step cap s s2 i j h hs) hr

theorem engine_start_inv (rp : ResourcePool) (launched : List WorkerArgs) :
    engine_inv (sem_value rp) (engine_start rp launched) := by
  have hholds : ∀ r, ∀ w ∈ (engine_start rp launched).workers, ¬ holds r w = true := by
    intro r w hw
    simp only [engine_start, List.mem_map] at hw
    obtain ⟨wa, _, rfl⟩ := hw
    obtain ⟨t1, t2, hp⟩ := patient_thread_eq wa
    by_cases hr : r = resource_for_service wa.patient.service <;> simp [holds, hp, hr]
  have hblocked : ∀ r, ∀ w ∈ (engine_start rp launched).workers,
      ¬ is_blocked_on r w = true := by
    intro r w hw
    simp only [engine_start, List.mem_map] at hw
    obtain ⟨wa, _, rfl⟩ := hw
    simp [is_blocked_on]
  refine ⟨?_, fun r => ⟨?_, ?_⟩⟩
  · intro w hw
    simp only [engine_start, List.mem_map] at hw
    obtain ⟨wa, _, rfl⟩ := hw
    exact ⟨wa, 0, rfl, by simp⟩
  · have : holders (engine_start rp launched) r = 0 := by
      simp only [holders, List.countP_eq_zero]
      exact hholds r
    rw [this, Nat.zero_add]
    rfl
  · intro hpos
    have : blocked_count (engine_start rp launched) r = 0 := by
      simp only [blocked_count, List.countP_eq_zero]
      exact hblocked r
    omega

/-- The semaphores start at the capacities `resources_init` records. -/
theorem resources_init_capacity (num_doctors num_machines num_rooms : Int) (rp : ResourcePool)
    (h : resources_init num_doctors num_machines num_rooms = some rp) (res : Resource) :
    (sem_value rp res : Int) = capacity rp res := by
  simp only [resources_init, sem_init, bind, Option.bind, pure] at h
  split_ifs at h <;> simp at h <;> subst h <;> cases res <;> simp [sem_value, capacity] <;>
    omega

/-- What a step does to the workers: the worker that makes it moves, and a
`sem_post` that finds workers blocked moves the one the scheduler chose as
well. -/
theorem step_workers (s s1 : Engine) (i j : Nat) (hs : step s i j = some s1) :
    ∃ w, s.workers[i]? = some w ∧ w.blocked = false ∧
      ((∃ x, s1.workers = s.workers.set i x) ∨
       (∃ res rest v, w.todo = Action.sem_post res :: rest ∧ s.workers[j]? = some v ∧
          is_blocked_on res v = true ∧
          s1.workers = (s.workers.set i { todo := rest, blocked := false }).set j
            { todo := v.todo.tail, blocked := false })) := by
  unfold step at hs
  cases hw : s.workers[i]? with
  | none => rw [hw] at hs; cases hs
  | some w =>
    rw [hw] at hs
    simp only [] at hs
    by_cases hb : w.blocked = true
    · rw [if_pos hb] at hs; cases hs
    · rw [if_neg hb] at hs
      refine ⟨w, rfl, by simpa using hb, ?_⟩
      cases ht : w.todo with
      | nil => rw [ht] at hs; cases hs
      | cons act rest =>
        rw [ht] at hs
        simp only [] at hs
        cases act with
        | sem_wait res =>
          simp only [perform] at hs
          split_ifs at hs <;> cases hs <;> exact Or.inl ⟨_, rfl⟩
        | sem_post res =>
          simp only [perform] at hs
          by_cases hany : s.workers.any (is_blocked_on res) = true
          · rw [if_pos hany] at hs
            cases hv : s.workers[j]? with
            | none => rw [hv] at hs; cases hs
            | some v =>
              rw [hv] at hs
              simp only [] at hs
              by_cases hvb : is_blocked_on res v = true
              · rw [if_pos hvb] at hs
                cases hs
                exact Or.inr ⟨res, rest, v, rfl, rfl, hvb, rfl⟩
              · rw [if_neg hvb] at hs
                cases hs
          · rw [if_neg hany] at hs
            cases hs
            exact Or.inl ⟨_, rfl⟩
        | mutex_lock =>
          simp only [perform] at hs
          split_ifs at hs
          cases hs
          exact Or.inl ⟨_, rfl⟩
        | mutex_unlock =>
          simp only [perform] at hs
          cases hs
          exact Or.inl ⟨_, rfl⟩
        | accumulate p =>
          simp only [perform] at hs
          cases hs
          exact Or.inl ⟨_, rfl⟩
        | write fd text =>
          simp only [perform] at hs
          cases hs
          exact Or.inl ⟨_, rfl⟩
        | ms_sleep ms =>
          simp only [perform] at hs
          cases hs
          exact Or.inl ⟨_, rfl⟩

/-- C23: in every state a run of the workers reaches from the launch, for
each category: the workers holding the category's resource and the free units
add up to its capacity, so never more workers hold it than its capacity; a
worker that calls `sem_wait` when all units are held becomes blocked (and
takes a unit when one is free); a blocked worker stays blocked, at the same
call, through every step except a `sem_post` on its semaphore that lets it
return; and a `sem_post` lets exactly one blocked worker return, the value
staying as it is, or, if no worker is blocked, adds one to the value. -/
theorem resource_capacity_respected (num_doctors num_machines num_rooms : Int)
    (rp : ResourcePool) (launched : List WorkerArgs) (schedule : List (Nat × Nat))
    (s : Engine)
    (hinit : resources_init num_doctors num_machines num_rooms = some rp)
    (hrun : run (engine_start rp launched) schedule = some s) :
    ∀ res,
      (holders s res : Int) + (sem_value s.pool res : Int) = capacity rp res ∧
      (holders s res : Int) ≤ capacity rp res ∧
      (∀ i j w rest, s.workers[i]? = some w → w.blocked = false →
        w.todo = Action.sem_wait res :: rest →
        ((holders s res : Int) = capacity rp res →
          step s i j = some { s with workers := s.workers.set i { w with blocked := true } }) ∧
        ((holders s res : Int) < capacity rp res →
          step s i j = some { pool := sem_set s.pool res (sem_value s.pool res - 1),
                              workers := advance s.workers i rest })) ∧
      (∀ i j k v s1, step s i j = some s1 → s.workers[k]? = some v →
        is_blocked_on res v = true →
        s1.workers[k]? = some v ∨
        (k = j ∧ ∃ w rest, s.workers[i]? = some w ∧ w.todo = Action.sem_post res :: rest ∧
          s1.workers[k]? = some { todo := v.todo.tail, blocked := false })) ∧
      (∀ i j w rest s1, s.workers[i]? = some w → w.todo = Action.sem_post res :: rest →
        step s i j = some s1 →
        (0 < blocked_count s res ∧ blocked_count s1 res + 1 = blocked_count s res ∧
          sem_value s1.pool res = sem_value s.pool res) ∨
        (blocked_count s res = 0 ∧ blocked_count s1 res = 0 ∧
          sem_value s1.pool res = sem_value s.pool res + 1)) := by
  intro res
  have hinv := engine_inv_run (sem_value rp) schedule _ s (engine_start_inv rp launched) hrun
  have hcap := resources_init_capacity num_doctors num_machines num_rooms rp hinit res
  obtain ⟨c1, c2⟩ := hinv.2 res
  refine ⟨by rw [← hcap]; exact_mod_cast c1, by rw [← hcap]; exact_mod_cast (by omega :
    holders s res ≤ sem_value rp res), ?_, ?_, ?_⟩
  · intro i j w rest hw hb ht
    rw [← hcap]
    constructor
    · intro hfull
      have hfull2 : holders s res = sem_value rp res := by exact_mod_cast hfull
      have hv : ¬ sem_value s.pool res > 0 := by omega
      unfold step
      rw [hw]
      simp only [hb, Bool.false_eq_true, if_false, ht, perform, hv]
    · intro hfree
      have hfree2 : holders s res < sem_value rp res := by exact_mod_cast hfree
      have hv : sem_value s.pool res > 0 := by omega
      unfold step
      rw [hw]
      simp only [hb, Bool.false_eq_true, if_false, ht, perform, hv, if_true]
  · intro i j k v s1 hs hk hvb
    obtain ⟨w, hw, hwb, hcase⟩ := step_workers s s1 i j hs
    have hvblocked : v.blocked = true := by
      simp only [is_blocked_on, Bool.and_eq_true] at hvb
      exact hvb.1
    have hki : i ≠ k := by
      intro he
      subst he
      rw [hw] at hk
      cases hk
      rw [hwb] at hvblocked
      cases hvblocked
    rcases hcase with ⟨x, hx⟩ | ⟨res2, rest, v2, ht, hv2, hv2b, hx⟩
    · left
      rw [hx, List.getElem?_set_ne hki]
      exact hk
    · by_cases hkj : k = j
      · right
        subst hkj
        rw [hk] at hv2
        cases hv2
        have hres : res2 = res := by
          simp only [is_blocked_on, Bool.and_eq_true, decide_eq_true_eq] at hvb hv2b
          rw [hvb.2] at hv2b
          have := hv2b.2
          simp only [Option.some.injEq, Action.sem_wait.injEq] at this
          exact this.symm
        subst hres
        refine ⟨rfl, w, rest, hw, ht, ?_⟩
        rw [hx]
        have hlt : k < s.workers.length := (List.getElem?_eq_some_iff.mp hk).1
        rw [List.getElem?_set_self (by rw [List.length_set]; exact hlt)]
      · left
        rw [hx, List.getElem?_set_ne (Ne.symm hkj), List.getElem?_set_ne hki]
        exact hk
  · intro i j w rest s1 hw ht hs
    unfold step at hs
    rw [hw] at hs
    simp only [] at hs
    by_cases hb : w.blocked = true
    · rw [if_pos hb] at hs; cases hs
    · rw [if_neg hb, ht] at hs
      simp only [perform] at hs
      have hb0 : w.blocked = false := by simpa using hb
      have hwn : is_blocked_on res w = false := by simp [is_blocked_on, hb0]
      by_cases hany : s.workers.any (is_blocked_on res) = true
      · rw [if_pos hany] at hs
        cases hv : s.workers[j]? with
        | none => rw [hv] at hs; cases hs
        | some v =>
          rw [hv] at hs
          simp only [] at hs
          by_cases hvb : is_blocked_on res v = true
          · rw [if_pos hvb] at hs
            cases hs
            left
            have hij : i ≠ j := by
              intro he
              subst he
              rw [hw] at hv
              cases hv
              rw [hwn] at hvb
              cases hvb
            have hv2 : (s.workers.set i { todo := rest, blocked := false })[j]? = some v := by
              rw [List.getElem?_set_ne hij]
              exact hv
            have hb1 := countP_set (is_blocked_on res) s.workers i w
              { todo := rest, blocked := false } hw
            have hb2 := countP_set (is_blocked_on res)
              (s.workers.set i { todo := rest, blocked := false }) j v
              { todo := v.todo.tail, blocked := false } hv2
            have hx0 : ∀ t, is_blocked_on res { todo := t, blocked := false } = false :=
              fun t => by simp [is_blocked_on]
            rw [hwn, hx0] at hb1
            rw [hvb, hx0] at hb2
            simp only [Bool.false_eq_true, if_false, if_true, Nat.add_zero] at hb1 hb2
            simp only [blocked_count, advance]
            refine ⟨by omega, by omega, trivial⟩
          · rw [if_neg hvb] at hs
            cases hs
      · rw [if_neg hany] at hs
        cases hs
        right
        have hnone : blocked_count s res = 0 := by
          simp only [blocked_count, List.countP_eq_zero]
          intro x hx hbx
          exact hany (List.any_eq_true.mpr ⟨x, hx, hbx⟩)
        have hb1 := countP_set (is_blocked_on res) s.workers i w
          { todo := rest, blocked := false } hw
        have hx0 : is_blocked_on res { todo := rest, blocked := false } = false := by
          simp [is_blocked_on]
        rw [hwn, hx0] at hb1
        simp only [Bool.false_eq_true, if_false, Nat.add_zero] at hb1
        refine ⟨hnone, ?_, ?_⟩
        · simp only [blocked_count, advance] at hnone ⊢
          omega
        · show sem_value (sem_set s.pool res (sem_value s.pool res + 1)) res = _
          rw [sem_value_set, if_pos rfl]

theorem resource_capacity_respected_witness :
    resources_init 1 1 1 = some pool_of_ones ∧
    run (engine_start pool_of_ones two_consultations) [(0, 0), (0, 0), (1, 0), (1, 0)]
      = some second_worker_blocked ∧
    ∀ res,
      (holders second_worker_blocked res : Int)
          + (sem_value second_worker_blocked.pool res : Int) = capacity pool_of_ones res ∧
      (holders second_worker_blocked res : Int) ≤ capacity pool_of_ones res ∧
      (∀ i j w rest, second_worker_blocked.workers[i]? = some w → w.blocked = false →
        w.todo = Action.sem_wait res :: rest →
        ((holders second_worker_blocked res : Int) = capacity pool_of_ones res →
          step second_worker_blocked i j
            = some { second_worker_blocked with
                     workers := second_worker_blocked.workers.set i
                       { w with blocked := true } }) ∧
        ((holders second_worker_blocked res : Int) < capacity pool_of_ones res →
          step second_worker_blocked i j
            = some { pool := sem_set second_worker_blocked.pool res
                               (sem_value second_worker_blocked.pool res - 1),
                     workers := advance second_worker_blocked.workers i rest })) ∧
      (∀ i j k v s1, step second_worker_blocked i j = some s1 →
        second_worker_blocked.workers[k]? = some v → is_blocked_on res v = true →
        s1.workers[k]? = some v ∨
        (k = j ∧ ∃ w rest, second_worker_blocked.workers[i]? = some w ∧
          w.todo = Action.sem_post res :: rest ∧
          s1.workers[k]? = some { todo := v.todo.tail, blocked := false })) ∧
      (∀ i j w rest s1, second_worker_blocked.workers[i]? = some w →
        w.todo = Action.sem_post res :: rest → step second_worker_blocked i j = some s1 →
        (0 < blocked_count second_worker_blocked res ∧
          blocked_count s1 res + 1 = blocked_count second_worker_blocked res ∧
          sem_value s1.pool res = sem_value second_worker_blocked.pool res) ∨
        (blocked_count second_worker_blocked res = 0 ∧ blocked_count s1 res = 0 ∧
          sem_value s1.pool res = sem_value second_worker_blocked.pool res + 1)) :=
  ⟨rfl, rfl, resource_capacity_respected 1 1 1 pool_of_ones two_consultations
    [(0, 0), (0, 0), (1, 0), (1, 0)] second_worker_blocked rfl rfl⟩

/-- A worked run: from `second_worker_blocked` the first worker ends its
service and calls `sem_post`; the second worker, which was blocked, returns
from its `sem_wait` and holds the doctor, and the value stays 0. -/
theorem release_hands_over_example :
    (run second_worker_blocked [(0, 0), (0, 1)]).map
        (fun s => (s.workers.map (fun w => w.blocked), sem_value s.pool Resource.doctors,
          holders s Resource.doctors, blocked_count s Resource.doctors))
      = some ([false, false], 0, 1, 0) := by
  decide

/-! ## The averages in double arithmetic -/

/-! ### The totals in `double` -/

theorem round53_small (k : Nat) (h : k < 2 ^ 53) : round53 k = k := by
  unfold round53
  rw [if_pos h]

theorem np_loop_totals_mono (list : PatientList) (order : List Nat) :
    ∀ (m k : Nat) (s r : NPState), np_loop list order m k s = .ok r →
      s.total_wait ≤ r.total_wait ∧ s.total_turn ≤ r.total_turn := by
  intro m
  induction m with
  | zero =>
    intro k s r h
    simp only [np_loop, Except.ok.injEq] at h
    subst h
    exact ⟨le_refl _, le_refl _⟩
  | succ m ih =>
    intro k s r h
    unfold np_loop at h
    simp only [bind, Except.bind] at h
    cases hi : rd order k with
    | error e => rw [hi] at h; cases h
    | ok i =>
      rw [hi] at h
      simp only [] at h
      cases hp : rd list i with
      | error e => rw [hp] at h; cases h
      | ok p =>
        rw [hp] at h
        simp only [] at h
        have := ih (k + 1) (np_step s p) r h
        simp only [np_step] at this
        omega

/-- While the totals stay below `2^53` the `double` accumulators hold them
exactly. -/
theorem np_loop_double_eq (list : PatientList) (order : List Nat) :
    ∀ (m k : Nat) (s r : NPState), np_loop list order m k s = .ok r →
      r.total_wait < 2 ^ 53 → r.total_turn < 2 ^ 53 →
      np_loop_double list order m k s = .ok r := by
  intro m
  induction m with
  | zero =>
    intro k s r h _ _
    simp only [np_loop] at h
    simp only [np_loop_double]
    exact h
  | succ m ih =>
    intro k s r h h1 h2
    unfold np_loop at h
    unfold np_loop_double
    simp only [bind, Except.bind] at h ⊢
    cases hi : rd order k with
    | error e => rw [hi] at h; cases h
    | ok i =>
      rw [hi] at h
      simp only [] at h ⊢
      cases hp : rd list i with
      | error e => rw [hp] at h; cases h
      | ok p =>
        rw [hp] at h
        simp only [] at h ⊢
        have hm := np_loop_totals_mono list order m (k + 1) (np_step s p) r h
        have hstep : np_step_double s p = np_step s p := by
          simp only [np_step] at hm
          simp only [np_step_double, np_step]
          rw [round53_small _ (by omega), round53_small _ (by omega)]
        rw [hstep]
        exact ih (k + 1) (np_step s p) r h h1 h2

theorem rr_totals_mono (arrival : List Nat) (s : RRState) :
    ∀ (m i : Nat) (acc t : Nat × Nat), rr_totals arrival s m i acc = .ok t →
      acc.1 ≤ t.1 ∧ acc.2 ≤ t.2 := by
  intro m
  induction m with
  | zero =>
    intro i acc t h
    simp only [rr_totals, Except.ok.injEq] at h
    subst h
    exact ⟨le_refl _, le_refl _⟩
  | succ m ih =>
    intro i acc t h
    unfold rr_totals at h
    simp only [bind, Except.bind] at h
    cases hf : rd s.finish i with
    | error e => rw [hf] at h; cases h
    | ok f =>
      rw [hf] at h
      simp only [] at h
      cases ha : rd arrival i with
      | error e => rw [ha] at h; cases h
      | ok a =>
        rw [ha] at h
        simp only [] at h
        cases hw : rd s.waiting i with
        | error e => rw [hw] at h; cases h
        | ok w =>
          rw [hw] at h
          simp only [] at h
          have := ih (i + 1) _ t h
          simp only [] at this
          omega

theorem rr_totals_double_eq (arrival : List Nat) (s : RRState) :
    ∀ (m i : Nat) (acc t : Nat × Nat), rr_totals arrival s m i acc = .ok t →
      t.1 < 2 ^ 53 → t.2 < 2 ^ 53 → rr_totals_double arrival s m i acc = .ok t := by
  intro m
  induction m with
  | zero =>
    intro i acc t h _ _
    simp only [rr_totals] at h
    simp only [rr_totals_double]
    exact h
  | succ m ih =>
    intro i acc t h h1 h2
    unfold rr_totals at h
    unfold rr_totals_double
    simp only [bind, Except.bind] at h ⊢
    cases hf : rd s.finish i with
    | error e => rw [hf] at h; cases h
    | ok f =>
      rw [hf] at h
      simp only [] at h ⊢
      cases ha : rd arrival i with
      | error e => rw [ha] at h; cases h
      | ok a =>
        rw [ha] at h
        simp only [] at h ⊢
        cases hw : rd s.waiting i with
        | error e => rw [hw] at h; cases h
        | ok w =>
          rw [hw] at h
          simp only [] at h ⊢
          have hm := rr_totals_mono arrival s m (i + 1) _ t h
          simp only [] at hm
          rw [round53_small _ (by omega), round53_small _ (by omega)]
          exact ih (i + 1) _ t h h1 h2

/-- The values `compute_metrics` returns on the non-preemptive path when its
totals are below `2^53`: the quotients of the totals by the count, rounded. -/
theorem compute_metrics_double_np (fuel : Nat) (list : PatientList) (order : List Nat)
    (alg : Algorithm) (quantum_ms : Nat) (s : NPState) (halg : alg ≠ ALG_RR)
    (hs : np_loop list order list.length 0 { time := 0, total_wait := 0, total_turn := 0 }
      = .ok s)
    (h1 : s.total_wait < 2 ^ 53) (h2 : s.total_turn < 2 ^ 53) :
    compute_metrics_double fuel list order alg quantum_ms
      = .ok { avg_wait_ms := double_div s.total_wait (round53 list.length),
              avg_turnaround_ms := double_div s.total_turn (round53 list.length) } := by
  unfold compute_metrics_double
  by_cases hn0 : list.length = 0
  · rw [hn0] at hs
    simp only [np_loop, Except.ok.injEq] at hs
    subst hs
    simp [hn0, double_div]
  · simp only [hn0, if_false, halg,
      np_loop_double_eq list order list.length 0 _ s hs h1 h2, bind, Except.bind]
    rfl

/-- The values `compute_metrics` returns for Round-Robin when its totals are
below `2^53`. -/
theorem compute_metrics_double_rr (fuel : Nat) (list : PatientList) (order : List Nat)
    (quantum_ms : Nat) (s : RRState) (t : Nat × Nat) (hn : list ≠ [])
    (hs : rr_simulate fuel list order quantum_ms = .ok s)
    (ht : rr_totals (list.map (fun p => p.arrival_ms)) s list.length 0 (0, 0) = .ok t)
    (h1 : t.1 < 2 ^ 53) (h2 : t.2 < 2 ^ 53) :
    compute_metrics_double fuel list order ALG_RR quantum_ms
      = .ok { avg_wait_ms := double_div t.1 (round53 list.length),
              avg_turnaround_ms := double_div t.2 (round53 list.length) } := by
  have hn0 : list.length ≠ 0 := by simpa using hn
  unfold compute_metrics_double
  simp only [hn0, if_false, if_true, hs, bind, Except.bind,
    rr_totals_double_eq _ s list.length 0 (0, 0) t ht h1 h2]
  rfl

theorem double_div_58_7 : double_div 58 7 = 4664442471205157 / 562949953421312 := by
  have h : double_parts 58 7 = (4664442471205157, -49) := by decide
  simp only [double_div, h]
  norm_num

theorem double_div_46_7 : double_div 46 7 = 3699385408197193 / 562949953421312 := by
  have h : double_parts 46 7 = (7398770816394386, -50) := by decide
  simp only [double_div, h]
  norm_num

theorem double_div_6_3 : double_div 6 3 = 2 := by
  have h : double_parts 6 3 = (4503599627370496, -51) := by decide
  simp only [double_div, h]
  norm_num

theorem double_div_11_3 : double_div 11 3 = 8256599316845909 / 2251799813685248 := by
  have h : double_parts 11 3 = (8256599316845909, -51) := by decide
  simp only [double_div, h]
  norm_num

theorem double_div_5_3 : double_div 5 3 = 7505999378950827 / 4503599627370496 := by
  have h : double_parts 5 3 = (7505999378950827, -52) := by decide
  simp only [double_div, h]
  norm_num

/-- C6, counterexample: seven requests that arrive at 0 with required times
1, 6, 1, 1, 1, 1, 1, served in FCFS order. The totals are 46 and 58, and
58 = 46 + 12 with 12 the sum of the required times; `compute_metrics` returns
the binary64 values nearest to 46/7 and 58/7, and for these
`n * avg_turnaround` and `n * avg_wait + 12` differ (by `2^-47`). -/
theorem nonpreemptive_double_averages_differ :
    ideal_cursor 0
        ((schedule_order [mkPatient 0 1, mkPatient 0 6, mkPatient 0 1, mkPatient 0 1,
            mkPatient 0 1, mkPatient 0 1, mkPatient 0 1] ALG_FCFS 0).map
          (item [mkPatient 0 1, mkPatient 0 6, mkPatient 0 1, mkPatient 0 1,
            mkPatient 0 1, mkPatient 0 1, mkPatient 0 1])) < UINT_MOD ∧
    ([mkPatient 0 1, mkPatient 0 6, mkPatient 0 1, mkPatient 0 1, mkPatient 0 1,
        mkPatient 0 1, mkPatient 0 1].map (fun p => p.required_time_ms)).sum = 12 ∧
    compute_metrics_double 0
        [mkPatient 0 1, mkPatient 0 6, mkPatient 0 1, mkPatient 0 1, mkPatient 0 1,
          mkPatient 0 1, mkPatient 0 1]
        (schedule_order [mkPatient 0 1, mkPatient 0 6, mkPatient 0 1, mkPatient 0 1,
          mkPatient 0 1, mkPatient 0 1, mkPatient 0 1] ALG_FCFS 0) ALG_FCFS 0
      = .ok { avg_wait_ms := double_div 46 7, avg_turnaround_ms := double_div 58 7 } ∧
    (7 : ℚ) * double_div 58 7 ≠ 7 * double_div 46 7 + 12 ∧
    (7 : ℚ) * double_div 58 7 - (7 * double_div 46 7 + 12) = 1 / 2 ^ 47 := by
  refine ⟨by decide, by decide, rfl, ?_, ?_⟩
  · rw [double_div_58_7, double_div_46_7]
    norm_num
  · rw [double_div_58_7, double_div_46_7]
    norm_num

/-- C6, amended: on the non-preemptive path, for an order that is a
permutation of `[0, n)` and keeps the cursor below `2 ^ 32`, every iteration
computes a turnaround equal to the waiting time plus the required time of its
request, so that the totals the loop accumulates satisfy
`total_turnaround = total_wait + (sum of all required_time_ms)`; and when the
totals are below `2 ^ 53` the averages returned are the quotients of these
totals by `n`, each rounded to `double`. -/
theorem nonpreemptive_turnaround_eq_wait_add_required (fuel : Nat) (list : PatientList)
    (order : List Nat) (alg : Algorithm) (quantum_ms : Nat)
    (hperm : order.Perm (List.range list.length))
    (halg : alg = ALG_FCFS ∨ alg = ALG_SJF ∨ alg = ALG_PRIORITY)
    (hno : ideal_cursor 0 (order.map (item list)) < UINT_MOD) :
    (∀ k, k < list.length →
      ∃ s, np_loop list order k 0 { time := 0, total_wait := 0, total_turn := 0 } = .ok s ∧
        (np_body s.time (item list (order.getD k 0))).turnaround
          = (np_body s.time (item list (order.getD k 0))).waiting
            + (item list (order.getD k 0)).required_time_ms) ∧
    ∃ s, np_loop list order list.length 0 { time := 0, total_wait := 0, total_turn := 0 }
        = .ok s ∧
      s.total_turn = s.total_wait + (list.map (fun p => p.required_time_ms)).sum ∧
      (s.total_turn < 2 ^ 53 →
        compute_metrics_double fuel list order alg quantum_ms
          = .ok { avg_wait_ms := double_div s.total_wait (round53 list.length),
                  avg_turnaround_ms := double_div s.total_turn (round53 list.length) }) := by
  have hlen : order.length = list.length := by simpa using hperm.length_eq
  constructor
  · intro k hk
    obtain ⟨s, hs, ht⟩ := np_loop_upto list order k hperm (le_of_lt hk) hno
    refine ⟨s, hs, ?_⟩
    have hk2 : k < (order.map (item list)).length := by simpa [hlen] using hk
    have hko : k < order.length := by omega
    have hp : (order.map (item list))[k] = item list (order.getD k 0) := by
      simp [List.getD, List.getElem?_eq_getElem hko]
    have hsucc : (order.map (item list)).take (k + 1)
        = (order.map (item list)).take k ++ [item list (order.getD k 0)] := by
      rw [List.take_succ, List.getElem?_eq_getElem hk2, hp]; rfl
    have hb : ideal_cursor 0 ((order.map (item list)).take (k + 1)) < UINT_MOD :=
      lt_of_le_of_lt (ideal_cursor_take_le _ _ _) hno
    rw [hsucc, ideal_cursor_append, ← ht] at hb
    simp only [ideal_cursor] at hb
    exact (np_body_nowrap s.time _ hb).2.2
  · have hloop := np_loop_eq_foldl list order order [] list.length
      { time := 0, total_wait := 0, total_turn := 0 } (by simp)
      (fun i hi => List.mem_range.mp (hperm.subset hi)) (by omega)
    simp only [List.length_nil] at hloop
    rw [← hlen, List.take_length, hlen] at hloop
    have h := (np_foldl_nowrap (order.map (item list))
      { time := 0, total_wait := 0, total_turn := 0 } hno).2
    rw [sum_required_perm list order hperm] at h
    simp only [Nat.add_zero] at h
    refine ⟨_, hloop, h, ?_⟩
    intro hsmall
    exact compute_metrics_double_np fuel list order alg quantum_ms _
      (nonpreemptive_ne_rr alg halg) hloop (by omega) hsmall

theorem nonpreemptive_turnaround_eq_wait_add_required_witness :
    (∀ k, k < [mkPatient 0 100, mkPatient 0 200, mkPatient 50 50].length →
      ∃ s, np_loop [mkPatient 0 100, mkPatient 0 200, mkPatient 50 50] [2, 0, 1] k 0
          { time := 0, total_wait := 0, total_turn := 0 } = .ok s ∧
        (np_body s.time (item [mkPatient 0 100, mkPatient 0 200, mkPatient 50 50]
            (([2, 0, 1] : List Nat).getD k 0))).turnaround
          = (np_body s.time (item [mkPatient 0 100, mkPatient 0 200, mkPatient 50 50]
              (([2, 0, 1] : List Nat).getD k 0))).waiting
            + (item [mkPatient 0 100, mkPatient 0 200, mkPatient 50 50]
                (([2, 0, 1] : List Nat).getD k 0)).required_time_ms) ∧
    ∃ s, np_loop [mkPatient 0 100, mkPatient 0 200, mkPatient 50 50] [2, 0, 1]
        [mkPatient 0 100, mkPatient 0 200, mkPatient 50 50].length 0
        { time := 0, total_wait := 0, total_turn := 0 } = .ok s ∧
      s.total_turn = s.total_wait
        + ([mkPatient 0 100, mkPatient 0 200, mkPatient 50 50].map
            (fun p => p.required_time_ms)).sum ∧
      (s.total_turn < 2 ^ 53 →
        compute_metrics_double 0 [mkPatient 0 100, mkPatient 0 200, mkPatient 50 50] [2, 0, 1]
            ALG_SJF 3
          = .ok { avg_wait_ms := double_div s.total_wait
                    (round53 [mkPatient 0 100, mkPatient 0 200, mkPatient 50 50].length),
                  avg_turnaround_ms := double_div s.total_turn
                    (round53 [mkPatient 0 100, mkPatient 0 200, mkPatient 50 50].length) }) :=
  nonpreemptive_turnaround_eq_wait_add_required 0
    [mkPatient 0 100, mkPatient 0 200, mkPatient 50 50] [2, 0, 1] ALG_SJF 3
    (by decide) (Or.inr (Or.inl rfl)) (by decide)

/-- C25, counterexample: three requests that arrive at 0 with required times
2, 2, 1 and quantum 2. The waiting times are 0, 2, 4 and the turnarounds 2,
4, 5, so every request has `waiting + required <= turnaround` and the totals
are 6 and 11 with 6 + 5 = 11; `compute_metrics` returns 2 and the binary64
value nearest to 11/3, which is below 11/3, so `avg_wait + (mean
required_time_ms) <= avg_turnaround` fails, with the mean 5/3 taken exactly
and with the mean rounded to `double`. -/
theorem rr_double_averages_fail :
    (∀ p ∈ [mkPatient 0 2, mkPatient 0 2, mkPatient 0 1],
      p.arrival_ms
        + ([mkPatient 0 2, mkPatient 0 2, mkPatient 0 1].map
            (fun p => p.required_time_ms)).sum < UINT_MOD) ∧
    ([mkPatient 0 2, mkPatient 0 2, mkPatient 0 1].map (fun p => p.required_time_ms)).sum
      = 5 ∧
    compute_metrics_double 3 [mkPatient 0 2, mkPatient 0 2, mkPatient 0 1]
        (schedule_order [mkPatient 0 2, mkPatient 0 2, mkPatient 0 1] ALG_RR 2) ALG_RR 2
      = .ok { avg_wait_ms := double_div 6 3, avg_turnaround_ms := double_div 11 3 } ∧
    ¬ (double_div 6 3 + (5 : ℚ) / 3 ≤ double_div 11 3) ∧
    ¬ (double_div 6 3 + double_div 5 3 ≤ double_div 11 3) := by
  refine ⟨by decide, by decide, rfl, ?_, ?_⟩
  · rw [double_div_6_3, double_div_11_3]
    norm_num
  · rw [double_div_6_3, double_div_11_3, double_div_5_3]
    norm_num

/-- C25, amended: in the Round-Robin simulation of `compute_metrics`, for a
request list with positive required times, a positive quantum and no 32-bit
overflow (every arrival time plus the total required time is below 2^32),
the simulation ends and every request satisfies `waiting[i] +
required_time_ms[i] <= finish[i] - arrival[i]`, where the subtraction does
not wrap; hence the total of the waiting times plus the total of the
required times is at most the total of the turnarounds; and when the totals
are below `2 ^ 53` the averages returned are the quotients of these two
totals by `n`, each rounded to `double`. -/
theorem rr_waiting_le_turnaround (list : PatientList) (order : List Nat) (quantum_ms : Nat)
    (hne : list ≠ []) (hperm : order.Perm (List.range list.length))
    (hpos : ∀ p ∈ list, 0 < p.required_time_ms) (hq : 0 < quantum_ms)
    (hno : ∀ p ∈ list,
      p.arrival_ms + (list.map (fun p => p.required_time_ms)).sum < UINT_MOD) :
    ∃ fuel s t, rr_simulate fuel list order quantum_ms = .ok s ∧
      (∀ i, i < list.length →
        (item list i).arrival_ms ≤ s.finish.getD i 0 ∧
        s.waiting.getD i 0 + (item list i).required_time_ms
          ≤ usub (s.finish.getD i 0) (item list i).arrival_ms) ∧
      rr_totals (list.map (fun p => p.arrival_ms)) s list.length 0 (0, 0) = .ok t ∧
      t.1 + (list.map (fun p => p.required_time_ms)).sum ≤ t.2 ∧
      (t.2 < 2 ^ 53 →
        compute_metrics_double fuel list order ALG_RR quantum_ms
          = .ok { avg_wait_ms := double_div t.1 (round53 list.length),
                  avg_turnaround_ms := double_div t.2 (round53 list.length) }) := by
  obtain ⟨s, e, hw, hf, hall⟩ := rr_simulate_accounting list order quantum_ms hne hperm hpos hq hno
  have hall2 : ∀ i, i < list.length →
      (item list i).arrival_ms ≤ s.finish.getD i 0 ∧
      s.waiting.getD i 0 + (item list i).required_time_ms
        ≤ usub (s.finish.getD i 0) (item list i).arrival_ms := by
    intro i hi
    obtain ⟨h1, h2⟩ := hall i hi
    refine ⟨by omega, ?_⟩
    unfold usub
    rw [uint_mod_eq] at h2 ⊢
    omega
  have ht := rr_totals_eq (list.map (fun p => p.arrival_ms)) s list.length 0 (0, 0)
    (by omega) (by simp) (by omega)
  have hle := sum_map_add_le (List.range list.length)
    (fun j => s.waiting.getD (0 + j) 0)
    (fun j => (list.map (fun p => p.required_time_ms)).getD j 0)
    (fun j => usub (s.finish.getD (0 + j) 0) ((list.map (fun p => p.arrival_ms)).getD (0 + j) 0))
    (by
      intro j hj
      have hjn := List.mem_range.mp hj
      simp only [Nat.zero_add]
      rw [getD_map_arrival list j hjn, getD_map_required list j hjn]
      exact (hall2 j hjn).2)
  have hreq : (List.range list.length).map
      (fun j => (list.map (fun p => p.required_time_ms)).getD j 0)
      = list.map (fun p => p.required_time_ms) := by
    have := map_getD_range (list.map (fun p => p.required_time_ms))
    rwa [List.length_map] at this
  rw [hreq] at hle
  have hsum : (0 + ((List.range list.length).map (fun j => s.waiting.getD (0 + j) 0)).sum)
      + (list.map (fun p => p.required_time_ms)).sum
      ≤ 0 + ((List.range list.length).map
          (fun j => usub (s.finish.getD (0 + j) 0)
            ((list.map (fun p => p.arrival_ms)).getD (0 + j) 0))).sum := by
    omega
  refine ⟨_, s, _, e, hall2, ht, hsum, ?_⟩
  intro hsmall
  exact compute_metrics_double_rr _ list order quantum_ms s _ hne e ht
    (lt_of_le_of_lt (Nat.le_of_add_right_le hsum) hsmall) hsmall

theorem rr_waiting_le_turnaround_witness :
    ∃ fuel s t, rr_simulate fuel [mkPatient 0 3, mkPatient 1 2] [0, 1] 2 = .ok s ∧
      (∀ i, i < [mkPatient 0 3, mkPatient 1 2].length →
        (item [mkPatient 0 3, mkPatient 1 2] i).arrival_ms ≤ s.finish.getD i 0 ∧
        s.waiting.getD i 0 + (item [mkPatient 0 3, mkPatient 1 2] i).required_time_ms
          ≤ usub (s.finish.getD i 0) (item [mkPatient 0 3, mkPatient 1 2] i).arrival_ms) ∧
      rr_totals ([mkPatient 0 3, mkPatient 1 2].map (fun p => p.arrival_ms)) s
        [mkPatient 0 3, mkPatient 1 2].length 0 (0, 0) = .ok t ∧
      t.1 + ([mkPatient 0 3, mkPatient 1 2].map (fun p => p.required_time_ms)).sum ≤ t.2 ∧
      (t.2 < 2 ^ 53 →
        compute_metrics_double fuel [mkPatient 0 3, mkPatient 1 2] [0, 1] ALG_RR 2
          = .ok { avg_wait_ms := double_div t.1 (round53 [mkPatient 0 3, mkPatient 1 2].length),
                  avg_turnaround_ms :=
                    double_div t.2 (round53 [mkPatient 0 3, mkPatient 1 2].length) }) :=
  rr_waiting_le_turnaround [mkPatient 0 3, mkPatient 1 2] [0, 1] 2 (by decide) (by decide)
    (by decide) (by decide) (by decide)

end HospitalScheduler
